import Mathlib

/-!
# Verification of the mylms content-transformation core

Shallow embedding of the content transformation pipeline of the
`mylms-rewrite` backend (`src/backend/src/content/typst.rs`,
`src/backend/src/content/cleaner.rs`, `src/backend/src/cache/memory.rs`).

Strings are modelled as `List Char` (the Rust code is used on UTF-8 text;
all string operations in the source are character-run based, and the
sentinel/selector constants are ASCII, so character-level modelling agrees
with the byte-level Rust semantics on the inputs considered here).
-/

set_option maxRecDepth 100000

namespace MyLms

/-- Strings as lists of characters. -/
abbrev Str := List Char

/-- Convert a Lean string literal to the `Str` model. -/
def lit (s : String) : Str := s.toList

/-- Substring test (`str::contains` for a literal pattern). -/
def occurs (pat : Str) : Str → Bool
  | [] => decide (pat = [])
  | c :: t => pat.isPrefixOf (c :: t) || occurs pat t

/-- Fuel-driven worker for `replaceAll` (structural recursion so that the
kernel can evaluate it). The fuel is always at least the length of the
remaining string when called through `replaceAll`. -/
def replaceAllGo (pat rep : Str) : Nat → Str → Str
  | _, [] => []
  | 0, s => s
  | Nat.succ f, c :: t =>
    if pat ≠ [] ∧ pat.isPrefixOf (c :: t) then
      rep ++ replaceAllGo pat rep f (List.drop (pat.length - 1) t)
    else
      c :: replaceAllGo pat rep f t

/-- Rust `str::replace`: replace every non-overlapping occurrence of `pat`
by `rep`, scanning left to right (a replacement is not rescanned). -/
def replaceAll (pat rep s : Str) : Str := replaceAllGo pat rep s.length s

/-- Fuel-driven worker for `replaceFirst`. -/
def replaceFirstGo (pat rep : Str) : Nat → Str → Str
  | _, [] => []
  | 0, s => s
  | Nat.succ f, c :: t =>
    if pat ≠ [] ∧ pat.isPrefixOf (c :: t) then
      rep ++ List.drop (pat.length - 1) t
    else
      c :: replaceFirstGo pat rep f t

/-- Rust `str::replacen(pat, rep, 1)`: replace only the first occurrence. -/
def replaceFirst (pat rep s : Str) : Str := replaceFirstGo pat rep s.length s

/-- The whitespace characters recognised by the Rust `char::is_whitespace` /
regex `\s` on the ASCII range (the full Unicode sets extend these; all
inputs considered here are ASCII). -/
def isWs (c : Char) : Bool :=
  c == ' ' || c == '\t' || c == '\n' || c == '\r' || c == '\x0b' || c == '\x0c'

/-- Rust `str::trim`. -/
def trim (s : Str) : Str :=
  ((s.dropWhile isWs).reverse.dropWhile isWs).reverse

/-- Rust `str::to_lowercase` on the ASCII range. -/
def lower (s : Str) : Str := s.map Char.toLower

/-!
## Cache (`src/backend/src/cache/memory.rs`)

`MemoryCache` wraps `RwLock<HashMap<String, CacheEntry>>`.  The claims are
about the sequential functional behaviour of `get` / `has` / `delete`, so we
model the map as an association list with replace-on-insert semantics and
`Instant` as a natural number; the lock-poisoning branches (which only occur
after a panic in another thread) are not modelled.
-/

/-- `CacheEntry { value, expires_at }`. -/
structure CacheEntry where
  value : Str
  expires_at : Option Nat
deriving DecidableEq

/-- The underlying `HashMap<String, CacheEntry>`. -/
def CacheStore := List (Str × CacheEntry)

instance : DecidableEq CacheStore := by
  unfold CacheStore; infer_instance

/-- `HashMap::get`. -/
def storeGet (st : CacheStore) (k : Str) : Option CacheEntry :=
  (st.find? (fun p => p.1 = k)).map (·.2)

/-- `HashMap::remove`. -/
def storeRemove (st : CacheStore) (k : Str) : CacheStore :=
  st.filter (fun p => ¬ p.1 = k)

/-- `HashMap::insert` (replaces any previous binding of the key). -/
def storeInsert (st : CacheStore) (k : Str) (e : CacheEntry) : CacheStore :=
  (k, e) :: storeRemove st k

/-- `MemoryCache::delete`: removes the key, returns whether it existed. -/
def cacheDelete (st : CacheStore) (k : Str) : Bool × CacheStore :=
  ((storeGet st k).isSome, storeRemove st k)

/-- `MemoryCache::get`: a hit on an entry whose expiry has passed
(`Instant::now() > expires_at`, strictly) deletes the entry and reports a
miss; otherwise the stored value is returned and the store left unchanged. -/
def cacheGet (now : Nat) (st : CacheStore) (k : Str) : Option Str × CacheStore :=
  match storeGet st k with
  | none => (none, st)
  | some e =>
    match e.expires_at with
    | some exp =>
      if now > exp then (none, (cacheDelete st k).2) else (some e.value, st)
    | none => (some e.value, st)

/-- `MemoryCache::set`. -/
def cacheSet (now : Nat) (st : CacheStore) (k v : Str) (ttl : Option Nat) :
    Bool × CacheStore :=
  (true, storeInsert st k { value := v, expires_at := ttl.map (fun d => now + d) })

/-- `MemoryCache::has`, defined in the source as `self.get(key).is_some()`;
the store returned is the store after that inner `get` call. -/
def cacheHas (now : Nat) (st : CacheStore) (k : Str) : Bool × CacheStore :=
  ((cacheGet now st k).1.isSome, (cacheGet now st k).2)

/-- An entry is expired at time `now` iff it has an expiry that has passed
(`Instant::now() > expires_at`, strictly). -/
def entryExpired (now : Nat) (e : CacheEntry) : Prop :=
  match e.expires_at with
  | some exp => now > exp
  | none => False

instance (now : Nat) (e : CacheEntry) : Decidable (entryExpired now e) :=
  match e with
  | ⟨_, some exp⟩ => inferInstanceAs (Decidable (now > exp))
  | ⟨_, none⟩ => inferInstanceAs (Decidable False)

theorem storeGet_remove (st : CacheStore) (k : Str) :
    storeGet (storeRemove st k) k = none := by
  induction st with
  | nil => rfl
  | cons p t ih =>
    unfold storeRemove at ih ⊢
    rw [List.filter_cons]
    by_cases h : p.1 = k
    · simp only [h, not_true, decide_False, Bool.false_eq_true, if_false]
      exact ih
    · simp only [h, not_false_iff, decide_True, if_true]
      unfold storeGet at ih ⊢
      rw [List.find?_cons]
      have hd : decide (p.1 = k) = false := by simp [h]
      rw [hd]
      exact ih

/--
Claim C9: `MemoryCache::get` on an entry whose expiry time has passed
returns `None` (a miss) and eagerly removes that entry from the store;
`get` on an unexpired or non-expiring entry returns `Some` of its stored
value and leaves the store unchanged.
-/
theorem c9_cache_get_expiry (now : Nat) (st : CacheStore) (k : Str)
    (e : CacheEntry) (h : storeGet st k = some e) :
    (entryExpired now e →
      cacheGet now st k = (none, storeRemove st k) ∧
      storeGet (cacheGet now st k).2 k = none) ∧
    (¬ entryExpired now e → cacheGet now st k = (some e.value, st)) := by
  obtain ⟨v, ea⟩ := e
  cases ea with
  | none =>
    refine ⟨fun hexp => absurd hexp ?_, fun _ => by simp [cacheGet, h]⟩
    simp [entryExpired]
  | some exp =>
    constructor
    · intro hexp
      have hlt : now > exp := hexp
      refine ⟨by simp [cacheGet, h, cacheDelete, hlt], ?_⟩
      simp only [cacheGet, h, cacheDelete, hlt, if_true]
      exact storeGet_remove st k
    · intro hne
      have hlt : ¬ now > exp := hne
      simp [cacheGet, h, hlt]

/-- Witness for C9 at a concrete store: an entry under key `"k"` that
expired at time 3 is a miss (and evicted) at time 5, while an entry that
expires at time 9 is still returned at time 5. -/
theorem c9_cache_get_expiry_witness :
    (cacheGet 5 [(lit "k", ⟨lit "v", some 3⟩)] (lit "k") =
      (none, storeRemove [(lit "k", ⟨lit "v", some 3⟩)] (lit "k")) ∧
     storeGet (cacheGet 5 [(lit "k", ⟨lit "v", some 3⟩)] (lit "k")).2 (lit "k") = none) ∧
    cacheGet 5 [(lit "k", ⟨lit "v", some 9⟩)] (lit "k") =
      (some (lit "v"), [(lit "k", ⟨lit "v", some 9⟩)]) := by
  constructor
  · exact (c9_cache_get_expiry 5 [(lit "k", ⟨lit "v", some 3⟩)] (lit "k")
      ⟨lit "v", some 3⟩ (by decide)).1 (by decide)
  · exact (c9_cache_get_expiry 5 [(lit "k", ⟨lit "v", some 9⟩)] (lit "k")
      ⟨lit "v", some 9⟩ (by decide)).2 (by decide)

/--
Claim C10: `MemoryCache::has` is `get(key).is_some()`, so on a key whose
entry has expired, `has` returns `false` and evicts the expired entry; and
after any `get` or `has` call, no expired entry remains under the queried
key.
-/
theorem c10_cache_has_eviction (now : Nat) (st : CacheStore) (k : Str) :
    (∀ e, storeGet st k = some e → entryExpired now e →
      (cacheHas now st k).1 = false ∧
      storeGet (cacheHas now st k).2 k = none) ∧
    (∀ e, storeGet (cacheGet now st k).2 k = some e → ¬ entryExpired now e) ∧
    (∀ e, storeGet (cacheHas now st k).2 k = some e → ¬ entryExpired now e) := by
  have hafter : ∀ e, storeGet (cacheGet now st k).2 k = some e →
      ¬ entryExpired now e := by
    intro e he hexp
    cases hget : storeGet st k with
    | none =>
      unfold cacheGet at he
      rw [hget] at he
      simp only at he
      rw [he] at hget
      exact Option.noConfusion hget
    | some e0 =>
      rcases Decidable.em (entryExpired now e0) with hx | hx
      · have h9 := (c9_cache_get_expiry now st k e0 hget).1 hx
        rw [h9.1] at he
        simp only at he
        rw [storeGet_remove st k] at he
        exact Option.noConfusion he
      · have h9 := (c9_cache_get_expiry now st k e0 hget).2 hx
        rw [h9] at he
        simp only at he
        rw [hget] at he
        cases he
        exact hx hexp
  refine ⟨?_, hafter, ?_⟩
  · intro e he hexp
    have h9 := (c9_cache_get_expiry now st k e he).1 hexp
    unfold cacheHas
    rw [h9.1]
    exact ⟨rfl, storeGet_remove st k⟩
  · intro e he hexp
    unfold cacheHas at he
    simp only at he
    exact hafter e he hexp

/-- Witness for C10 at a concrete store: `has` at time 5 on an entry that
expired at time 3 returns `false` and evicts it. -/
theorem c10_cache_has_eviction_witness :
    (cacheHas 5 [(lit "k", ⟨lit "v", some 3⟩)] (lit "k")).1 = false ∧
    storeGet (cacheHas 5 [(lit "k", ⟨lit "v", some 3⟩)] (lit "k")).2 (lit "k") = none := by
  exact (c10_cache_has_eviction 5 [(lit "k", ⟨lit "v", some 3⟩)] (lit "k")).1
    ⟨lit "v", some 3⟩ (by decide) (by decide)

/-!
## Typst converter (`src/backend/src/content/typst.rs`)

The Rust module is built on `regex::Regex` with fixed patterns.  Each
`replace_all` call is embedded as a dedicated left-to-right scanner with the
leftmost-match, lazy-quantifier semantics of the corresponding pattern.
Scanners use explicit fuel (`length + 1` of the scanned string) so the
kernel can evaluate them on concrete inputs; every step consumes at least
one character, so the fuel is never exhausted when called through the
wrappers.
-/

/-- `MATH_START` sentinel. -/
def MATH_START : Str := lit "___TYPST_MATH_"

/-- `MATH_END` sentinel. -/
def MATH_END : Str := lit "_TYPST_MATH___"

/-- `HEADING_START` sentinel. -/
def HEADING_START : Str := lit "___TYPST_H"

/-- `HEADING_END` sentinel. -/
def HEADING_END : Str := lit "_TYPST_HEADING___"

/-- Decimal digit character. -/
def digitChar (n : Nat) : Char :=
  match n with
  | 0 => '0' | 1 => '1' | 2 => '2' | 3 => '3' | 4 => '4'
  | 5 => '5' | 6 => '6' | 7 => '7' | 8 => '8' | _ => '9'

/-- Fueled worker for decimal representation. -/
def natReprGo : Nat → Nat → Str → Str
  | 0, _, acc => acc
  | Nat.succ f, n, acc =>
    if n < 10 then digitChar n :: acc
    else natReprGo f (n / 10) (digitChar (n % 10) :: acc)

/-- Decimal representation of a natural number (Rust `format!("{}", idx)`). -/
def natRepr (n : Nat) : Str := natReprGo (n + 1) n []

/-- The math placeholder for index `idx`:
`format!("{}{}{}", MATH_START, idx, MATH_END)`. -/
def mathPH (idx : Nat) : Str := MATH_START ++ natRepr idx ++ MATH_END

/-- Lazy search for the closing delimiter of a regex match
`open(content)close`: starting from the current position, at each step first
try to match `cls` (provided at least `minLen` content characters have been
consumed), otherwise consume one content character, which must satisfy
`charOk`.  Returns the captured content and the rest after the close.  This
is the semantics of the lazy quantifiers `([\s\S]+?)`, `([\s\S]*?)`,
`(.+?)` and `([^$\n]+?)` followed by a literal close pattern. -/
def findClose (cls : Str) (minLen : Nat) (charOk : Char → Bool) :
    Nat → Str → Str → Option (Str × Str)
  | 0, _, _ => none
  | Nat.succ f, acc, s =>
    if minLen ≤ acc.length ∧ cls.isPrefixOf s then
      some (acc.reverse, List.drop cls.length s)
    else
      match s with
      | [] => none
      | c :: t => if charOk c then findClose cls minLen charOk f (c :: acc) t else none

/-- One math-extraction `replace_all` pass (`extract_math` runs four of
these in order).  At each position, if the open delimiter matches and a
lazy close is found, the capture is either rejected (the closure returns
`caps[0]`: the matched text is emitted verbatim and scanning resumes after
it — this is how the currency heuristic behaves) or recorded in
`math_blocks` and replaced by the next indexed placeholder. -/
def mathPassGo (opn cls : Str) (minLen : Nat) (charOk : Char → Bool)
    (isDisplay : Bool) (reject : Str → Bool) :
    Nat → Str → List (Bool × Str) → Str × List (Bool × Str)
  | 0, s, blocks => (s, blocks)
  | Nat.succ _, [], blocks => ([], blocks)
  | Nat.succ f, c :: t, blocks =>
    if opn ≠ [] ∧ opn.isPrefixOf (c :: t) then
      match findClose cls minLen charOk (t.length + 1) [] (List.drop opn.length (c :: t)) with
      | some (content, rest) =>
        if reject content then
          let (out, blocks') := mathPassGo opn cls minLen charOk isDisplay reject f rest blocks
          (opn ++ content ++ cls ++ out, blocks')
        else
          let idx := blocks.length
          let (out, blocks') := mathPassGo opn cls minLen charOk isDisplay reject f rest
            (blocks ++ [(isDisplay, content)])
          (mathPH idx ++ out, blocks')
      | none =>
        let (out, blocks') := mathPassGo opn cls minLen charOk isDisplay reject f t blocks
        (c :: out, blocks')
    else
      let (out, blocks') := mathPassGo opn cls minLen charOk isDisplay reject f t blocks
      (c :: out, blocks')

/-- Wrapper providing the fuel. -/
def mathPass (opn cls : Str) (minLen : Nat) (charOk : Char → Bool)
    (isDisplay : Bool) (reject : Str → Bool) (s : Str)
    (blocks : List (Bool × Str)) : Str × List (Bool × Str) :=
  mathPassGo opn cls minLen charOk isDisplay reject (s.length + 1) s blocks

/-- The currency heuristic of the bare-`$` pass: skip the match if the
trimmed content consists only of numeric characters, `.` and `,`
(`content.trim().chars().all(|c| c.is_numeric() || c == '.' || c == ',')`;
`char::is_numeric` is modelled on the ASCII range by `Char.isDigit`). -/
def currencyReject (content : Str) : Bool :=
  (trim content).all (fun c => c.isDigit || c == '.' || c == ',')

/-- The content-character class `[^$\n]` of the bare-`$` inline pass. -/
def bareOk (c : Char) : Bool := ¬ c = '$' ∧ ¬ c = '\n'

/-- `extract_math`: the four sequential regex passes
`\$\$([\s\S]+?)\$\$`, `\\\[([\s\S]*?)\\\]`, `\\\((.+?)\\\)` and
`\$([^$\n]+?)\$` (the last with the currency rejection). -/
def extract_math (s : Str) : Str × List (Bool × Str) :=
  let r1 := mathPass (lit "$$") (lit "$$") 1 (fun _ => true) true (fun _ => false) s []
  let r2 := mathPass (lit "\\[") (lit "\\]") 0 (fun _ => true) true (fun _ => false) r1.1 r1.2
  let r3 := mathPass (lit "\\(") (lit "\\)") 1 (fun c => c ≠ '\n') false (fun _ => false) r2.1 r2.2
  mathPass (lit "$") (lit "$") 1 bareOk false currencyReject r3.1 r3.2

/-- Case-insensitive literal prefix match (ASCII case folding, as performed
by the regex `(?i)` flag on the literal tag patterns); returns the rest. -/
def matchCI : Str → Str → Option Str
  | [], s => some s
  | _ :: _, [] => none
  | p :: ps, c :: t => if p.toLower = c.toLower then matchCI ps t else none

/-- `[^>]*>` after a tag-name literal: skip to the first `>`, which must
exist; returns the rest after the `>`. -/
def skipToGt : Nat → Str → Option Str
  | 0, _ => none
  | Nat.succ _, [] => none
  | Nat.succ f, c :: t => if c = '>' then some t else skipToGt f t

/-- Lazy close search where the close pattern is matched
case-insensitively and content characters are unrestricted (`(?s)` mode:
`(.*?)` also matches newlines). -/
def findCloseCI (cls : Str) : Nat → Str → Str → Option (Str × Str)
  | 0, _, _ => none
  | Nat.succ f, acc, s =>
    match matchCI cls s with
    | some rest => some (acc.reverse, rest)
    | none =>
      match s with
      | [] => none
      | c :: t => findCloseCI cls f (c :: acc) t

/-- Generic leftmost `replace_all` scanner: at each position the finder
either produces a replacement and the rest after the match (every finder
used here consumes at least one character on success), or the character is
copied and scanning moves on by one. -/
def rewriteGo (finder : Str → Option (Str × Str)) : Nat → Str → Str
  | 0, s => s
  | Nat.succ _, [] => []
  | Nat.succ f, c :: t =>
    match finder (c :: t) with
    | some (repl, rest) => repl ++ rewriteGo finder f rest
    | none => c :: rewriteGo finder f t

/-- Wrapper providing the fuel. -/
def rewrite (finder : Str → Option (Str × Str)) (s : Str) : Str :=
  rewriteGo finder (s.length + 1) s

/-- Finder for `(?i)<br\s*/?>`. -/
def matchBrTag (s : Str) : Option Str :=
  match matchCI (lit "<br") s with
  | none => none
  | some r1 =>
    let r2 := r1.dropWhile isWs
    let r3 := match r2 with
      | '/' :: t => t
      | _ => r2
    match r3 with
    | '>' :: t => some t
    | _ => none

/-- Finder for `(?i)<p[^>]*>`. -/
def matchPOpen (s : Str) : Option Str :=
  match matchCI (lit "<p") s with
  | none => none
  | some r1 => skipToGt (r1.length + 1) r1

/-- Finder for the generic tag pattern `<[^>]+>` (at least one non-`>`
character between the brackets). -/
def matchGenericTag (s : Str) : Option Str :=
  match s with
  | '<' :: t =>
    match t with
    | [] => none
    | c :: _ => if c = '>' then none else skipToGt (t.length + 1) t
  | _ => none

/-- `strip_html_tags`: `(?i)<br\s*/?>` → `\n`, `(?i)</p>` → `\n\n`,
`(?i)<p[^>]*>` → `\n`, then delete every remaining `<[^>]+>`. -/
def strip_html_tags (s : Str) : Str :=
  let r1 := rewrite (fun u => (matchBrTag u).map (fun rest => (lit "\n", rest))) s
  let r2 := rewrite (fun u => (matchCI (lit "</p>") u).map (fun rest => (lit "\n\n", rest))) r1
  let r3 := rewrite (fun u => (matchPOpen u).map (fun rest => (lit "\n", rest))) r2
  rewrite (fun u => (matchGenericTag u).map (fun rest => (([] : Str), rest))) r3

/-- Finder for one heading level: `(?si)<hD[^>]*>(.*?)</hD>`, replaced by
`\n\n{HEADING_START}{level}{cleaned text}{HEADING_END}\n\n` where the
cleaned text is `strip_html_tags(caps[1]).trim().replace("\n", " ")
.replace("  ", " ")`. -/
def headingFinder (d : Char) (s : Str) : Option (Str × Str) :=
  match matchCI (lit "<h" ++ [d]) s with
  | none => none
  | some r1 =>
    match skipToGt (r1.length + 1) r1 with
    | none => none
    | some r2 =>
      match findCloseCI (lit "</h" ++ [d] ++ lit ">") (r2.length + 1) [] r2 with
      | none => none
      | some (content, rest) =>
        let stripped := strip_html_tags content
        let cleaned := replaceAll (lit "  ") (lit " ")
          (replaceAll (lit "\n") (lit " ") (trim stripped))
        some (lit "\n\n" ++ HEADING_START ++ [d] ++ cleaned ++ HEADING_END ++ lit "\n\n", rest)

/-- `extract_headings`: for `h1`..`h4` in order, one full replace pass
each. -/
def extract_headings (s : Str) : Str :=
  rewrite (headingFinder '4')
    (rewrite (headingFinder '3')
      (rewrite (headingFinder '2')
        (rewrite (headingFinder '1') s)))

/-- Finder for `(?si)<li[^>]*>(.*?)</li>`, replaced by
`\n- {strip_html_tags(caps[1]).trim()}`. -/
def liFinder (s : Str) : Option (Str × Str) :=
  match matchCI (lit "<li") s with
  | none => none
  | some r1 =>
    match skipToGt (r1.length + 1) r1 with
    | none => none
    | some r2 =>
      match findCloseCI (lit "</li>") (r2.length + 1) [] r2 with
      | none => none
      | some (content, rest) =>
        some (lit "\n- " ++ trim (strip_html_tags content), rest)

/-- Finder for `(?si)</?NAME[^>]*>` (used with `ul` and `ol`), replaced by
`\n`. -/
def ulOlFinder (nm : Str) (s : Str) : Option (Str × Str) :=
  match s with
  | '<' :: t =>
    let t1 := match t with
      | '/' :: r => r
      | _ => t
    match matchCI nm t1 with
    | none => none
    | some r1 => (skipToGt (r1.length + 1) r1).map (fun rest => (lit "\n", rest))
  | _ => none

/-- `convert_lists`: the `<li>` pass, then the `ul` and `ol` wrapper
passes. -/
def convert_lists (s : Str) : Str :=
  rewrite (ulOlFinder (lit "ol"))
    (rewrite (ulOlFinder (lit "ul"))
      (rewrite liFinder s))

/-- The escape table of `escape_typst_content`. -/
def escChar (c : Char) : Str :=
  if c = '\\' then lit "\\\\"
  else if c = '#' then lit "\\#"
  else if c = '$' then lit "\\$"
  else if c = '*' then lit "\\*"
  else if c = '_' then lit "\\_"
  else if c = '@' then lit "\\@"
  else if c = '[' then lit "\\["
  else if c = ']' then lit "\\]"
  else if c = '<' then lit "\\<"
  else if c = '>' then lit "\\>"
  else [c]

/-- `str::find` for a literal pattern: index of the first occurrence. -/
def findSubIdx (pat : Str) : Str → Option Nat
  | [] => if pat = [] then some 0 else none
  | c :: t =>
    if pat.isPrefixOf (c :: t) then some 0
    else (findSubIdx pat t).map (· + 1)

/-- `escape_typst_content`: character-by-character scan that copies a span
verbatim when the remaining text starts with `MATH_START` (resp.
`HEADING_START`) and contains `MATH_END` (resp. `HEADING_END`) — the span
runs to the end of the first end-marker occurrence, searched from the
start of the remaining text, as `remaining.find` does — and otherwise
escapes the current character. -/
def escapeGo : Nat → Str → Str
  | 0, s => s
  | Nat.succ _, [] => []
  | Nat.succ f, c :: t =>
    match (if MATH_START.isPrefixOf (c :: t) then findSubIdx MATH_END (c :: t) else none) with
    | some e =>
      List.take (e + MATH_END.length) (c :: t) ++
        escapeGo f (List.drop (e + MATH_END.length) (c :: t))
    | none =>
      match (if HEADING_START.isPrefixOf (c :: t) then findSubIdx HEADING_END (c :: t) else none) with
      | some e =>
        List.take (e + HEADING_END.length) (c :: t) ++
          escapeGo f (List.drop (e + HEADING_END.length) (c :: t))
      | none => escChar c ++ escapeGo f t

/-- Wrapper providing the fuel. -/
def escape_typst_content (s : Str) : Str := escapeGo (s.length + 1) s

/-- `unescape_typst_content`: the ten sequential `replace` calls. -/
def unescape_typst_content (s : Str) : Str :=
  replaceAll (lit "\\\\") (lit "\\")
    (replaceAll (lit "\\>") (lit ">")
      (replaceAll (lit "\\<") (lit "<")
        (replaceAll (lit "\\]") (lit "]")
          (replaceAll (lit "\\[") (lit "[")
            (replaceAll (lit "\\@") (lit "@")
              (replaceAll (lit "\\_") (lit "_")
                (replaceAll (lit "\\*") (lit "*")
                  (replaceAll (lit "\\$") (lit "$")
                    (replaceAll (lit "\\#") (lit "#") s)))))))))

/-- The `HEADING_START` marker with every underscore escaped
(`HEADING_START.replace("_", "\\_")`). -/
def escapedHS : Str := replaceAll (lit "_") (lit "\\_") HEADING_START

/-- The `HEADING_END` marker with every underscore escaped. -/
def escapedHE : Str := replaceAll (lit "_") (lit "\\_") HEADING_END

/-- Finder for one heading-restoration pattern
`{opn}(.*?){cls}` (no `(?s)`: the lazy content does not cross newlines),
replaced by `{eqs} {unescape_typst_content(caps[1]).trim()}`. -/
def headRestoreFinder (opn cls eqs : Str) (s : Str) : Option (Str × Str) :=
  if opn.isPrefixOf s then
    match findClose cls 0 (fun c => ¬ c = '\n') (s.length + 1) [] (List.drop opn.length s) with
    | some (content, rest) =>
      some (eqs ++ lit " " ++ trim (unescape_typst_content content), rest)
    | none => none
  else none

/-- One level of `restore_headings`: the plain-marker pass followed by the
escaped-marker pass. -/
def restoreHeadingLevel (d : Char) (eqs : Str) (s : Str) : Str :=
  let s1 := rewrite (headRestoreFinder (HEADING_START ++ [d]) HEADING_END eqs) s
  rewrite (headRestoreFinder (escapedHS ++ [d]) escapedHE eqs) s1

/-- `restore_headings`: levels 1 to 4 in order. -/
def restore_headings (s : Str) : Str :=
  restoreHeadingLevel '4' (lit "====")
    (restoreHeadingLevel '3' (lit "===")
      (restoreHeadingLevel '2' (lit "==")
        (restoreHeadingLevel '1' (lit "=") s)))

/-- Modelled from the spec: the external `tex2typst_rs::tex2typst`
translator is not part of this repository.  The spec specifies only that
translation is best-effort and that "a math expression with no notation
differences between source and target (e.g. `x + y`) appears unchanged
inside math delimiters" (round-trip property), so the translator is
modelled as the identity that never fails. -/
def tex2typst (s : Str) : Except Str Str := Except.ok s

/-- `latex_to_typst_math`: pre-process `√` to `\sqrt `, call the
translator, and fall back to the original source on a translation error. -/
def latex_to_typst_math (latex : Str) : Str :=
  let processed := replaceAll (lit "√") (lit "\\sqrt ") latex
  match tex2typst processed with
  | Except.ok s => s
  | Except.error _ => latex

/-- `restore_math`: for each recorded block in index order, replace first
the escaped-underscore spelling and then the plain spelling of its
placeholder by the (display- or inline-wrapped) translated expression. -/
def restore_math (t : Str) (blocks : List (Bool × Str)) : Str :=
  blocks.enum.foldl (fun res p =>
    let typst := latex_to_typst_math p.2.2
    let ph := mathPH p.1
    let eph := replaceAll (lit "_") (lit "\\_") ph
    let repl := if p.2.1 then lit "\n$ " ++ typst ++ lit " $\n"
                else lit "$" ++ typst ++ lit "$"
    replaceAll ph repl (replaceAll eph repl res)) t

/-- Finder collapsing a maximal run of at least `minRun` copies of `ch`
into `rep` (the regexes ` {2,}` and `\n{3,}` with greedy runs). -/
def collapseRunsFinder (ch : Char) (minRun : Nat) (rep : Str) (s : Str) :
    Option (Str × Str) :=
  match s with
  | [] => none
  | c :: _ =>
    if c = ch then
      let run := s.takeWhile (fun x => x = ch)
      if minRun ≤ run.length then some (rep, List.drop run.length s) else none
    else none

/-- Split on `'\n'`, keeping empty pieces. -/
def splitNl : Str → Str × List Str
  | [] => ([], [])
  | c :: t =>
    let r := splitNl t
    if c = '\n' then ([], r.1 :: r.2) else (c :: r.1, r.2)

/-- Rust `str::lines`: split on `'\n'`, drop a final empty piece produced
by a trailing newline, strip one trailing `'\r'` per line. -/
def rustLines (s : Str) : List Str :=
  let ps := (splitNl s).1 :: (splitNl s).2
  let ps2 := if ps.getLast? = some ([] : Str) then ps.dropLast else ps
  ps2.map (fun l => if l.getLast? = some '\r' then l.dropLast else l)

/-- Join with `'\n'` (`Vec::join("\n")`). -/
def joinNl (ls : List Str) : Str := (List.intersperse (lit "\n") ls).flatten

/-- `clean_whitespace`: collapse 2+ spaces to one, 3+ newlines to two, trim
every line, trim the document. -/
def clean_whitespace (s : Str) : Str :=
  let r1 := rewrite (collapseRunsFinder ' ' 2 (lit " ")) s
  let r2 := rewrite (collapseRunsFinder '\n' 3 (lit "\n\n")) r1
  trim (joinNl ((rustLines r2).map trim))

/-- The six entity replacements at the top of `html_to_typst`, in source
order. -/
def decodeEntities (s : Str) : Str :=
  replaceAll (lit "&#39;") (lit "'")
    (replaceAll (lit "&nbsp;") (lit " ")
      (replaceAll (lit "&quot;") (lit "\"")
        (replaceAll (lit "&gt;") (lit ">")
          (replaceAll (lit "&lt;") (lit "<")
            (replaceAll (lit "&amp;") (lit "&") s)))))

/-- `html_to_typst`: the full conversion pipeline. -/
def html_to_typst (html : Str) : Str :=
  let r0 := decodeEntities html
  let ex := extract_math r0
  let r2 := extract_headings ex.1
  let r3 := convert_lists r2
  let r4 := strip_html_tags r3
  let r5 := escape_typst_content r4
  let r6 := restore_headings r5
  let r7 := restore_math r6 ex.2
  clean_whitespace r7

/-- The title escape of `generate_typst_document`:
`title.replace("\\", "\\\\").replace("\"", "\\\"")`. -/
def safeTitle (t : Str) : Str :=
  replaceAll (lit "\"") (lit "\\\"") (replaceAll (lit "\\") (lit "\\\\") t)

/-- The section-name escape of `generate_typst_document`: the five chained
replacements for backslash, `#`, `$`, `*` and `_` (and no others). -/
def safeSection (n : Str) : Str :=
  replaceAll (lit "_") (lit "\\_")
    (replaceAll (lit "*") (lit "\\*")
      (replaceAll (lit "$") (lit "\\$")
        (replaceAll (lit "#") (lit "\\#")
          (replaceAll (lit "\\") (lit "\\\\") n))))

/-- The document preamble emitted by `generate_typst_document` (the
`format!` raw-string template with the escaped title substituted at its two
holes). -/
def docTemplate (t : Str) : Str :=
  lit "#set document(title: \"" ++ t ++ lit "\")\n" ++
  lit "#set page(\n  paper: \"a4\",\n  margin: (x: 2.5cm, y: 2cm),\n  numbering: \"1\",\n)\n" ++
  lit "#set text(font: \"New Computer Modern\", size: 11pt)\n" ++
  lit "#set heading(numbering: \"1.1\")\n" ++
  lit "#set par(justify: true)\n\n" ++
  lit "// Title page\n#align(center)[\n  #v(3cm)\n  #text(size: 28pt, weight: \"bold\")[\n    " ++
  t ++
  lit "\n  ]\n  #v(1cm)\n  #text(size: 14pt, fill: gray)[Course Notes]\n  #v(2cm)\n]\n\n" ++
  lit "#pagebreak()\n\n// Table of contents\n#outline(\n  title: [Table of Contents],\n  indent: auto,\n)\n\n" ++
  lit "#pagebreak()\n\n// Content\n"

/-- `generate_typst_document`: the preamble followed by, for each section
in input order, `\n\n= {escaped name}\n\n` and the section's
already-converted body. -/
def generate_typst_document (title : Str) (sections : List (Str × Str)) : Str :=
  sections.foldl
    (fun doc sc => doc ++ lit "\n\n= " ++ safeSection sc.1 ++ lit "\n\n" ++ sc.2)
    (docTemplate (safeTitle title))

/-!
## General lemmas about the string primitives
-/

/-- Character-wise expansion map (used to state what the escape passes do
character by character). -/
def cmap (f : Char → Str) : Str → Str
  | [] => []
  | c :: t => f c ++ cmap f t

theorem occurs_cons (pat : Str) (c : Char) (t : Str) :
    occurs pat (c :: t) = (pat.isPrefixOf (c :: t) || occurs pat t) := rfl

theorem occurs_cons_false {pat : Str} {c : Char} {t : Str}
    (h : occurs pat (c :: t) = false) :
    pat.isPrefixOf (c :: t) = false ∧ occurs pat t = false := by
  rw [occurs_cons] at h
  exact Bool.or_eq_false_iff.mp h

/-- If a pattern never occurs in a string, `replace` leaves it unchanged. -/
theorem replaceAllGo_id (pat rep : Str) :
    ∀ (f : Nat) (s : Str), occurs pat s = false → replaceAllGo pat rep f s = s := by
  intro f
  induction f with
  | zero => intro s _; cases s <;> rfl
  | succ f ih =>
    intro s h
    cases s with
    | nil => rfl
    | cons c t =>
      obtain ⟨h1, h2⟩ := occurs_cons_false h
      show (if pat ≠ [] ∧ pat.isPrefixOf (c :: t) then _ else _) = _
      rw [if_neg (by simp [h1])]
      exact congrArg (c :: ·) (ih t h2)

theorem replaceAll_id (pat rep : Str) (s : Str) (h : occurs pat s = false) :
    replaceAll pat rep s = s := replaceAllGo_id pat rep s.length s h

/-- A pattern whose first character is missing from the string never
occurs in it (occurrence of a nonempty pattern puts its head in the
string). -/
theorem occurs_false_of_head_notMem (c : Char) (pat : Str) :
    ∀ s : Str, c ∉ s → occurs (c :: pat) s = false := by
  intro s
  induction s with
  | nil => intro _; rfl
  | cons d t ih =>
    intro h
    rw [occurs_cons]
    have hd : ¬ c = d := fun hcd => h (hcd ▸ List.mem_cons_self d t)
    have ht : c ∉ t := fun hm => h (List.mem_cons_of_mem d hm)
    have : (c :: pat).isPrefixOf (d :: t) = false := by
      show (c == d && pat.isPrefixOf t) = false
      simp [hd]
    rw [this, ih ht]
    rfl

/-- Single-character `replace` is the character-wise map. -/
theorem replaceAll_single (c : Char) (rep : Str) :
    ∀ (f : Nat) (s : Str), s.length ≤ f →
      replaceAllGo [c] rep f s = cmap (fun x => if x = c then rep else [x]) s := by
  intro f
  induction f with
  | zero =>
    intro s h
    cases s with
    | nil => rfl
    | cons d t => exact absurd h (by simp)
  | succ f ih =>
    intro s h
    cases s with
    | nil => rfl
    | cons d t =>
      show (if [c] ≠ [] ∧ [c].isPrefixOf (d :: t) then _ else _) = _
      by_cases hdc : d = c
      · rw [if_pos]
        · show rep ++ replaceAllGo [c] rep f (List.drop 0 t) = _
          rw [List.drop_zero]
          show rep ++ replaceAllGo [c] rep f t =
            (if d = c then rep else [d]) ++ cmap (fun x => if x = c then rep else [x]) t
          rw [if_pos hdc, ih t (by simpa using h)]
        · refine ⟨by simp, ?_⟩
          show ((c == d && List.isPrefixOf [] t) = true)
          simp [hdc]
      · rw [if_neg]
        · show d :: replaceAllGo [c] rep f t = _
          show d :: replaceAllGo [c] rep f t =
            (if d = c then rep else [d]) ++ cmap (fun x => if x = c then rep else [x]) t
          rw [if_neg hdc, ih t (by simpa using h)]
          rfl
        · rintro ⟨-, hp⟩
          have : (c == d && List.isPrefixOf [] t) = true := hp
          simp only [Bool.and_eq_true, beq_iff_eq] at this
          exact hdc this.1.symm

theorem replaceAll_single_eq (c : Char) (rep : Str) (s : Str) :
    replaceAll [c] rep s = cmap (fun x => if x = c then rep else [x]) s :=
  replaceAll_single c rep s.length s (Nat.le_refl _)

theorem cmap_append (f : Char → Str) (a b : Str) :
    cmap f (a ++ b) = cmap f a ++ cmap f b := by
  induction a with
  | nil => rfl
  | cons c t ih => simp [cmap, ih]

theorem cmap_cmap (f g : Char → Str) (s : Str) :
    cmap g (cmap f s) = cmap (fun c => cmap g (f c)) s := by
  induction s with
  | nil => rfl
  | cons c t ih => simp [cmap, cmap_append, ih]

/-!
## Claim theorems for the Typst converter
-/

/--
Claim C1 — counterexample.  The claim states that for every input with
balanced math/heading delimiters the output of `html_to_typst` contains no
occurrence of a placeholder marker.  The input below contains no math or
heading delimiter at all (so all delimiters are trivially balanced), yet
the literal sentinel text it carries is copied verbatim through the escape
stage (which bypasses anything shaped like a placeholder) and is never
replaced by `restore_math`, because no math block with index 0 was ever
extracted: the output contains the marker, in raw spelling.
-/
theorem c1_unresolved_placeholder_counterexample :
    (occurs (lit "$") (lit "___TYPST_MATH_0_TYPST_MATH___") = false ∧
     occurs (lit "\\(") (lit "___TYPST_MATH_0_TYPST_MATH___") = false ∧
     occurs (lit "\\[") (lit "___TYPST_MATH_0_TYPST_MATH___") = false ∧
     occurs (lit "<h") (lit "___TYPST_MATH_0_TYPST_MATH___") = false) ∧
    html_to_typst (lit "___TYPST_MATH_0_TYPST_MATH___") =
      lit "___TYPST_MATH_0_TYPST_MATH___" ∧
    occurs MATH_START (html_to_typst (lit "___TYPST_MATH_0_TYPST_MATH___")) = true := by
  refine ⟨⟨?_, ?_, ?_, ?_⟩, ?_, ?_⟩ <;> decide

/-- Helper for C6: the lazy close search of the bare-`$` pass walks over a
content run of `[^$\n]` characters and closes at the first following
`$`. -/
theorem findClose_bare (content : Str) :
    ∀ (acc : Str) (f : Nat) (rest : Str),
      (∀ c ∈ content, bareOk c = true) →
      content.length < f →
      1 ≤ acc.length + content.length →
      findClose (lit "$") 1 bareOk f acc (content ++ '$' :: rest) =
        some (acc.reverse ++ content, rest) := by
  induction content with
  | nil =>
    intro acc f rest _ hf hlen
    cases f with
    | zero => exact absurd hf (by simp)
    | succ f =>
      show (if 1 ≤ acc.length ∧ (lit "$").isPrefixOf ('$' :: rest) then _ else _) = _
      rw [if_pos ⟨by simpa using hlen, by simp [lit, List.isPrefixOf]⟩]
      simp [lit]
  | cons c cs ih =>
    intro acc f rest hok hf hlen
    cases f with
    | zero => exact absurd hf (by simp)
    | succ f =>
      have hc : bareOk c = true := hok c (List.mem_cons_self c cs)
      have hcd : ¬ c = '$' := by
        have := of_decide_eq_true hc
        exact this.1
      show (if 1 ≤ acc.length ∧ (lit "$").isPrefixOf (c :: (cs ++ '$' :: rest)) then _ else _) = _
      rw [if_neg]
      · show (if bareOk c = true then _ else _) = _
        rw [if_pos hc]
        have h2 := ih (c :: acc) f rest (fun x hx => hok x (List.mem_cons_of_mem c hx))
          (by simp only [List.length_cons] at hf; omega) (by simp only [List.length_cons]; omega)
        simpa using h2
      · rintro ⟨-, hp⟩
        have : ('$' == c && List.isPrefixOf [] (cs ++ '$' :: rest)) = true := hp
        simp only [Bool.and_eq_true, beq_iff_eq] at this
        exact hcd this.1.symm

/--
Claim C6: the bare-`$` inline pass rejects any match whose content is
purely numeric/punctuation (the currency heuristic), so `Price: $50` never
becomes a math span, while `$x+y$` is extracted as inline math with
content `x+y` and emitted inside `$...$` delimiters.  The first conjunct
is the general rejection property: whenever the matched content satisfies
the currency heuristic, the bare-`$` pass emits the matched text verbatim
and records no block.
-/
theorem c6_currency_disambiguation :
    (∀ (content : Str) (blocks : List (Bool × Str)),
      content ≠ [] →
      (∀ c ∈ content, bareOk c = true) →
      currencyReject content = true →
      mathPass (lit "$") (lit "$") 1 bareOk false currencyReject
          ('$' :: (content ++ ['$'])) blocks =
        ('$' :: (content ++ ['$']), blocks)) ∧
    extract_math (lit "Price: $50") = (lit "Price: $50", []) ∧
    html_to_typst (lit "Price: $50") = lit "Price: \\$50" ∧
    extract_math (lit "$x+y$") = (mathPH 0, [(false, lit "x+y")]) ∧
    html_to_typst (lit "$x+y$") = lit "$x+y$" := by
  refine ⟨?_, by decide, by decide, by decide, by decide⟩
  intro content blocks hne hok hrej
  show mathPassGo (lit "$") (lit "$") 1 bareOk false currencyReject
      (('$' :: (content ++ ['$'])).length + 1) ('$' :: (content ++ ['$'])) blocks = _
  have hlen : ('$' :: (content ++ ['$'])).length + 1 = content.length + 3 := by
    simp
  rw [hlen]
  show (if (lit "$") ≠ [] ∧ (lit "$").isPrefixOf ('$' :: (content ++ ['$'])) then _ else _) = _
  rw [if_pos ⟨by simp [lit], by simp [lit, List.isPrefixOf]⟩]
  have hdrop : List.drop (lit "$").length ('$' :: (content ++ ['$'])) = content ++ '$' :: [] := by
    simp [lit]
  rw [hdrop]
  have hfc := findClose_bare content [] ((content ++ ['$']).length + 1) [] hok
    (by simp only [List.length_append, List.length_cons, List.length_nil]; omega)
    (by cases content with | nil => exact absurd rfl hne | cons a b => simp)
  rw [hfc]
  show (if currencyReject content = true then _ else _) = _
  rw [if_pos hrej]
  show (lit "$" ++ content ++ lit "$" ++
    (mathPassGo (lit "$") (lit "$") 1 bareOk false currencyReject (content.length + 2) [] blocks).1,
    (mathPassGo (lit "$") (lit "$") 1 bareOk false currencyReject (content.length + 2) [] blocks).2) = _
  have hnil : mathPassGo (lit "$") (lit "$") 1 bareOk false currencyReject
      (content.length + 2) [] blocks = ([], blocks) := rfl
  rw [hnil]
  simp [lit]

/-- Witness for C6's general conjunct at the content `50`: the match
`$50$` is rejected and left verbatim with no block recorded. -/
theorem c6_currency_disambiguation_witness :
    mathPass (lit "$") (lit "$") 1 bareOk false currencyReject
        ('$' :: (lit "50" ++ ['$'])) [] =
      ('$' :: (lit "50" ++ ['$']), []) :=
  c6_currency_disambiguation.1 (lit "50") [] (by decide) (by decide) (by decide)

/-- On text containing neither sentinel start marker, the escape stage is
exactly the character-wise escape map. -/
theorem escapeGo_cmap :
    ∀ (f : Nat) (s : Str), s.length < f →
      occurs MATH_START s = false → occurs HEADING_START s = false →
      escapeGo f s = cmap escChar s := by
  intro f
  induction f with
  | zero => intro s h; exact absurd h (by simp)
  | succ f ih =>
    intro s hf hm hh
    cases s with
    | nil => rfl
    | cons c t =>
      obtain ⟨hm1, hm2⟩ := occurs_cons_false hm
      obtain ⟨hh1, hh2⟩ := occurs_cons_false hh
      show (match (if MATH_START.isPrefixOf (c :: t) then findSubIdx MATH_END (c :: t) else none) with
        | some e => _ | none => _) = _
      rw [if_neg (by simp [hm1])]
      show (match (if HEADING_START.isPrefixOf (c :: t) then findSubIdx HEADING_END (c :: t) else none) with
        | some e => _ | none => _) = _
      rw [if_neg (by simp [hh1])]
      show escChar c ++ escapeGo f t = escChar c ++ cmap escChar t
      rw [ih t (by simp only [List.length_cons] at hf; omega) hm2 hh2]

/-- `replace` with a pattern that starts with a backslash is the identity
on backslash-free text. -/
theorem replaceAll_head_bs (s : Str) (h : '\\' ∉ s) (pat rep : Str)
    (hp : pat.head? = some '\\') : replaceAll pat rep s = s := by
  cases pat with
  | nil => cases hp
  | cons c p =>
    have hc : c = '\\' := by simpa using hp
    subst hc
    exact replaceAll_id _ _ s (occurs_false_of_head_notMem '\\' p s h)

/-- `unescape_typst_content` is the identity on backslash-free text (every
pattern it replaces starts with a backslash). -/
theorem unescape_id (s : Str) (h : '\\' ∉ s) : unescape_typst_content s = s := by
  unfold unescape_typst_content
  rw [replaceAll_head_bs s h (lit "\\#") (lit "#") rfl,
      replaceAll_head_bs s h (lit "\\$") (lit "$") rfl,
      replaceAll_head_bs s h (lit "\\*") (lit "*") rfl,
      replaceAll_head_bs s h (lit "\\_") (lit "_") rfl,
      replaceAll_head_bs s h (lit "\\@") (lit "@") rfl,
      replaceAll_head_bs s h (lit "\\[") (lit "[") rfl,
      replaceAll_head_bs s h (lit "\\]") (lit "]") rfl,
      replaceAll_head_bs s h (lit "\\<") (lit "<") rfl,
      replaceAll_head_bs s h (lit "\\>") (lit ">") rfl,
      replaceAll_head_bs s h (lit "\\\\") (lit "\\") rfl]

/--
Claim C7: in the conversion, a literal `_` outside any placeholder appears
in the output as `\_` and a literal `#` as `\#` (on placeholder-free text
the escape stage is exactly the character-wise escape map, which sends `_`
to `\_` and `#` to `\#`), while text carried inside a heading placeholder
is restored with the escaping undone exactly once (the restoration applies
`unescape_typst_content` once, which is the identity on text the escape
stage never touched, so heading text is not escaped twice).  The last
conjunct checks this end to end: body `_` and `#` come out escaped, the
restored heading text `A_B` comes out unescaped rather than
double-escaped.
-/
theorem c7_escaping_safety :
    (∀ s : Str, occurs MATH_START s = false → occurs HEADING_START s = false →
      escape_typst_content s = cmap escChar s) ∧
    (escChar '_' = lit "\\_" ∧ escChar '#' = lit "\\#") ∧
    (∀ s : Str, '\\' ∉ s → unescape_typst_content s = s) ∧
    html_to_typst (lit "<h1>A_B</h1><p>x_y #z</p>") = lit "= A_B\n\nx\\_y \\#z" := by
  refine ⟨?_, ⟨by decide, by decide⟩, unescape_id, by decide⟩
  intro s hm hh
  exact escapeGo_cmap (s.length + 1) s (Nat.lt_succ_self _) hm hh

/-- Witness for C7's quantified conjuncts at concrete inputs. -/
theorem c7_escaping_safety_witness :
    escape_typst_content (lit "x_y #z") = cmap escChar (lit "x_y #z") ∧
    unescape_typst_content (lit "A_B") = lit "A_B" :=
  ⟨c7_escaping_safety.1 (lit "x_y #z") (by decide) (by decide),
   c7_escaping_safety.2.2.1 (lit "A_B") (by decide)⟩

/-- The character-wise escape actually performed on section names by
`generate_typst_document` (backslash, `#`, `$`, `*`, `_` — and nothing
else). -/
def sectionEsc (c : Char) : Str :=
  if c = '\\' then lit "\\\\"
  else if c = '#' then lit "\\#"
  else if c = '$' then lit "\\$"
  else if c = '*' then lit "\\*"
  else if c = '_' then lit "\\_"
  else [c]

theorem cmap_congr (f g : Char → Str) (h : ∀ c, f c = g c) :
    ∀ s, cmap f s = cmap g s := by
  intro s
  induction s with
  | nil => rfl
  | cons c t ih => simp [cmap, h c, ih]

/-- `safeSection` is the character-wise map `sectionEsc`. -/
theorem safeSection_cmap (n : Str) : safeSection n = cmap sectionEsc n := by
  unfold safeSection
  rw [show lit "\\" = ['\\'] from rfl, show lit "#" = ['#'] from rfl,
      show lit "$" = ['$'] from rfl, show lit "*" = ['*'] from rfl,
      show lit "_" = ['_'] from rfl]
  rw [replaceAll_single_eq, replaceAll_single_eq, replaceAll_single_eq,
      replaceAll_single_eq, replaceAll_single_eq]
  rw [cmap_cmap, cmap_cmap, cmap_cmap, cmap_cmap]
  refine cmap_congr _ _ (fun c => ?_) n
  by_cases h1 : c = '\\'
  · subst h1; decide
  by_cases h2 : c = '#'
  · subst h2; decide
  by_cases h3 : c = '$'
  · subst h3; decide
  by_cases h4 : c = '*'
  · subst h4; decide
  by_cases h5 : c = '_'
  · subst h5; decide
  simp [cmap, sectionEsc, h1, h2, h3, h4, h5]

theorem genFold (l : List (Str × Str)) :
    ∀ init : Str,
      l.foldl (fun doc sc => doc ++ lit "\n\n= " ++ safeSection sc.1 ++ lit "\n\n" ++ sc.2) init =
        init ++ (l.map (fun sc => lit "\n\n= " ++ safeSection sc.1 ++ lit "\n\n" ++ sc.2)).flatten := by
  induction l with
  | nil => intro init; simp
  | cons sc l ih =>
    intro init
    simp only [List.foldl_cons, List.map_cons, List.flatten_cons]
    rw [ih]
    simp [List.append_assoc]

/--
Claim C8 — counterexample.  The claim states section names are escaped
with the same metacharacter set as the converter's escape stage
(backslash, `#`, `$`, `*`, `_`, `@`, `[`, `]`, `<`, `>`).  In the code,
`generate_typst_document` escapes only backslash, `#`, `$`, `*`, `_`: the
section name `@[x]<y>` is rendered verbatim in the output heading, while
the converter's escape stage would produce `\@\[x\]\<y\>`.
-/
theorem c8_counterexample :
    safeSection (lit "@[x]<y>") = lit "@[x]<y>" ∧
    escape_typst_content (lit "@[x]<y>") = lit "\\@\\[x\\]\\<y\\>" ∧
    occurs (lit "\n\n= @[x]<y>\n\n")
      (generate_typst_document (lit "T") [(lit "@[x]<y>", lit "b")]) = true := by
  refine ⟨by decide, by decide, by decide⟩

/--
Claim C8 — amended: `generate_typst_document` renders, after the preamble
carrying the escaped title, each section in input order as
`\n\n= {name}\n\n{body}` where the name is escaped character-wise over the
set backslash, `#`, `$`, `*`, `_` — a strict subset of the converter's
escape set: `@`, `[`, `]`, `<`, `>` are left unescaped.
-/
theorem c8_section_rendering (title : Str) (sections : List (Str × Str)) :
    generate_typst_document title sections =
      docTemplate (safeTitle title) ++
        (sections.map (fun sc => lit "\n\n= " ++ cmap sectionEsc sc.1 ++ lit "\n\n" ++ sc.2)).flatten ∧
    (sectionEsc '\\' = lit "\\\\" ∧ sectionEsc '#' = lit "\\#" ∧
     sectionEsc '$' = lit "\\$" ∧ sectionEsc '*' = lit "\\*" ∧
     sectionEsc '_' = lit "\\_" ∧ sectionEsc '@' = lit "@" ∧
     sectionEsc '[' = lit "[" ∧ sectionEsc ']' = lit "]" ∧
     sectionEsc '<' = lit "<" ∧ sectionEsc '>' = lit ">") := by
  constructor
  · show generate_typst_document title sections = _
    unfold generate_typst_document
    rw [genFold sections (docTemplate (safeTitle title))]
    have hmap : (sections.map (fun sc => lit "\n\n= " ++ safeSection sc.1 ++ lit "\n\n" ++ sc.2)) =
        (sections.map (fun sc => lit "\n\n= " ++ cmap sectionEsc sc.1 ++ lit "\n\n" ++ sc.2)) := by
      refine List.map_congr_left (fun sc _ => ?_)
      rw [safeSection_cmap]
    rw [hmap]
  · refine ⟨by decide, by decide, by decide, by decide, by decide,
      by decide, by decide, by decide, by decide, by decide⟩

/-!
## Sanitizer (`src/backend/src/content/cleaner.rs`)

The sanitizer is built on two external building blocks that the spec's
non-goals section explicitly assumes rather than specifies: a single-pass
streaming tag-rewriting capability (`lol_html`) and a
DOM-construction-with-CSS-selector query capability (`scraper`).

Modelled from the spec: both building blocks are modelled over a common
lossless HTML tokenizer (text runs and `<...>` tag tokens carrying their
exact source text, so that concatenating kept tokens reproduces the kept
source exactly).  The tokenizer fails (`none`) on a tag opened but never
terminated before end of input — the "malformed/unterminated tags …
unrecoverable parse failure" case the spec assigns to the streaming
stage's fallback path.  Entity references inside text are kept literal,
and a `>` inside a quoted attribute value ends the tag token; the claims'
inputs do not exercise these corners.
-/

/-- Tag token kind. -/
inductive TagKind where
  | opening
  | closing
  | selfClose
deriving DecidableEq

/-- A parsed tag token: its exact source text, lowercased name, attributes
(lowercased names, raw values) and kind. -/
structure Tag where
  raw : Str
  name : Str
  attrs : List (Str × Str)
  kind : TagKind
deriving DecidableEq

/-- A token: a text run or a tag. -/
inductive Tok where
  | text (raw : Str)
  | tag (tg : Tag)
deriving DecidableEq

/-- Characters allowed in tag and attribute names. -/
def isNameChar (c : Char) : Bool := c.isAlpha || c.isDigit || c = '-'

/-- Attribute-list parsing inside a tag body (between the name and the
closing `>`); returns the attributes and whether the tag ends in `/`
(self-closing). -/
def parseAttrsGo : Nat → Str → List (Str × Str) → Option (List (Str × Str) × Bool)
  | 0, _, _ => none
  | Nat.succ f, s, acc =>
    match s.dropWhile isWs with
    | [] => some (acc.reverse, false)
    | '/' :: r =>
      if r.dropWhile isWs = [] then some (acc.reverse, true)
      else parseAttrsGo f r acc
    | c :: r =>
      let nm := (c :: r).takeWhile isNameChar
      if nm = [] then parseAttrsGo f r acc
      else
        let r1 := (c :: r).dropWhile isNameChar
        match r1 with
        | '=' :: '"' :: r3 =>
          match findSubIdx ['"'] r3 with
          | none => none
          | some i => parseAttrsGo f (r3.drop (i + 1)) ((lower nm, r3.take i) :: acc)
        | '=' :: '\'' :: r3 =>
          match findSubIdx ['\''] r3 with
          | none => none
          | some i => parseAttrsGo f (r3.drop (i + 1)) ((lower nm, r3.take i) :: acc)
        | '=' :: r2 =>
          let v := r2.takeWhile (fun x => ¬ isWs x)
          parseAttrsGo f (r2.dropWhile (fun x => ¬ isWs x)) ((lower nm, v) :: acc)
        | _ => parseAttrsGo f r1 ((lower nm, []) :: acc)

/-- Parse a tag body (the characters between `<` and `>`). -/
def parseTagBody (body : Str) : Option (TagKind × Str × List (Str × Str)) :=
  let closing := match body with
    | '/' :: _ => true
    | _ => false
  let b1 := match body with
    | '/' :: r => r
    | _ => body
  let nm := b1.takeWhile isNameChar
  if nm = [] then none
  else
    match parseAttrsGo (b1.length + 1) (b1.dropWhile isNameChar) [] with
    | none => none
    | some (attrs, selfC) =>
      let kind := if closing then TagKind.closing
        else if selfC then TagKind.selfClose else TagKind.opening
      some (kind, lower nm, attrs)

/-- Does a `<` begin a tag here (next char is a letter or `/`)? -/
def tagStart (t : Str) : Bool :=
  match t with
  | c :: _ => c = '/' || c.isAlpha
  | [] => false

/-- The lossless tokenizer: text runs are maximal `<`-free runs (a `<` not
starting a tag becomes a one-character text token); a tag-starting `<`
with no closing `>` before end of input is an unrecoverable parse
failure. -/
def tokenizeGo : Nat → Str → Option (List Tok)
  | 0, _ => none
  | Nat.succ _, [] => some []
  | Nat.succ f, c :: t =>
    if c = '<' then
      if tagStart t then
        match findSubIdx ['>'] t with
        | none => none
        | some i =>
          match parseTagBody (t.take i) with
          | none => none
          | some (kind, nm, attrs) =>
            (tokenizeGo f (t.drop (i + 1))).map
              (fun toks => Tok.tag ⟨'<' :: (t.take i ++ ['>']), nm, attrs, kind⟩ :: toks)
      else
        (tokenizeGo f t).map (fun toks => Tok.text ['<'] :: toks)
    else
      (tokenizeGo f ((c :: t).drop ((c :: t).takeWhile (fun x => ¬ x = '<')).length)).map
        (fun toks => Tok.text ((c :: t).takeWhile (fun x => ¬ x = '<')) :: toks)

/-- Wrapper providing the fuel. -/
def tokenizeHtml (s : Str) : Option (List Tok) := tokenizeGo (s.length + 1) s

/-- The exact source text of a token. -/
def tokRaw : Tok → Str
  | Tok.text r => r
  | Tok.tag tg => tg.raw

/-- Concatenation of the source text of a token list. -/
def concatRaws (toks : List Tok) : Str := (toks.map tokRaw).flatten

/-- HTML void elements (no closing tag). -/
def isVoid (nm : Str) : Bool :=
  nm = lit "img" || nm = lit "br" || nm = lit "hr" || nm = lit "meta" ||
  nm = lit "link" || nm = lit "input" || nm = lit "area" || nm = lit "base" ||
  nm = lit "col" || nm = lit "embed" || nm = lit "source" || nm = lit "track" ||
  nm = lit "wbr"

/-- Attribute lookup (first binding). -/
def attrVal (tg : Tag) (nm : Str) : Option Str :=
  ((tg.attrs.find? (fun p => p.1 = nm)).map (·.2))

/-- Split a class attribute value on whitespace. -/
def classTokensGo : Nat → Str → List Str
  | 0, _ => []
  | Nat.succ f, s =>
    match s.dropWhile isWs with
    | [] => []
    | c :: r =>
      ((c :: r).takeWhile (fun x => ¬ isWs x)) ::
        classTokensGo f ((c :: r).dropWhile (fun x => ¬ isWs x))

/-- The class tokens of a tag. -/
def classTokens (tg : Tag) : List Str :=
  match attrVal tg (lit "class") with
  | none => []
  | some v => classTokensGo (v.length + 1) v

/-- CSS class selector `.c`. -/
def hasClass (tg : Tag) (c : Str) : Bool := c ∈ classTokens tg

/-- The element-removal selectors of the streaming pass, exactly the
handler list of `clean_html_with_token`: `script`, `style`,
`link[rel='stylesheet']` (both quote spellings parse to the same
attribute), `iframe`, `nav`, `.navigation`, `.breadcrumb`, `#page-header`,
`.modified`, `.activity-navigation`, `.no-overflow`, `.prescribed-reading`,
`.box`, `.generalbox` — all removed unconditionally. -/
def streamRemove (tg : Tag) : Bool :=
  tg.name = lit "script" || tg.name = lit "style" ||
  (tg.name = lit "link" && attrVal tg (lit "rel") = some (lit "stylesheet")) ||
  tg.name = lit "iframe" || tg.name = lit "nav" ||
  hasClass tg (lit "navigation") || hasClass tg (lit "breadcrumb") ||
  attrVal tg (lit "id") = some (lit "page-header") ||
  hasClass tg (lit "modified") || hasClass tg (lit "activity-navigation") ||
  hasClass tg (lit "no-overflow") || hasClass tg (lit "prescribed-reading") ||
  hasClass tg (lit "box") || hasClass tg (lit "generalbox")

/-- The `img` handler's removal rule: no `src`, empty `src`, a
`data:image/gif;base64` URI, or a `src` containing `icon` or `spacer`. -/
def imgRemove (tg : Tag) : Bool :=
  match attrVal tg (lit "src") with
  | none => true
  | some src =>
    src = [] || (lit "data:image/gif;base64").isPrefixOf src ||
    occurs (lit "icon") src || occurs (lit "spacer") src

/-- Is this token an element start that the streaming pass removes? -/
def tokRemovable (tg : Tag) : Bool :=
  (tg.kind = TagKind.opening || tg.kind = TagKind.selfClose) &&
  (streamRemove tg || (tg.name = lit "img" && imgRemove tg))

/-- Skip the rest of a removed element's subtree: consume tokens up to and
including the matching close tag (tracking same-name nesting). -/
def skipSubtree (nm : Str) : Nat → Nat → List Tok → List Tok
  | 0, _, toks => toks
  | Nat.succ _, _, [] => []
  | Nat.succ f, depth, Tok.text _ :: rest => skipSubtree nm f depth rest
  | Nat.succ f, depth, Tok.tag tg :: rest =>
    if tg.name = nm ∧ tg.kind = TagKind.closing then
      if depth = 0 then rest else skipSubtree nm f (depth - 1) rest
    else if tg.name = nm ∧ tg.kind = TagKind.opening ∧ ¬ isVoid nm = true then
      skipSubtree nm f (depth + 1) rest
    else skipSubtree nm f depth rest

/-- The streaming removal pass over the token list: removed non-void
elements drop their whole subtree, removed void elements drop the single
token, everything else is emitted with its exact source text. -/
def streamGo : Nat → List Tok → Str
  | 0, _ => []
  | Nat.succ _, [] => []
  | Nat.succ f, Tok.text r :: rest => r ++ streamGo f rest
  | Nat.succ f, Tok.tag tg :: rest =>
    if tokRemovable tg then
      if tg.kind = TagKind.opening ∧ ¬ isVoid tg.name = true then
        streamGo f (skipSubtree tg.name (rest.length + 1) 0 rest)
      else streamGo f rest
    else tg.raw ++ streamGo f rest

/-- The first (streaming) pass: `rewrite_str` with the removal handlers;
fails exactly when the tokenizer fails. -/
def streamingPass (html : Str) : Option Str :=
  (tokenizeHtml html).map (fun toks => streamGo (toks.length + 1) toks)

/-- An element as seen by the DOM-query building block: its (lowercased)
tag name, its serialized HTML (`element.html()`: the exact source slice
from open through matching close) and its text content (`element.text()`:
the concatenated text runs of its subtree). -/
structure Elem where
  name : Str
  ehtml : Str
  etext : Str
deriving DecidableEq

/-- Collect an element's subtree: the tokens strictly inside, the raw text
of the matching close tag, and the tokens after it (an element left
unclosed at end of input extends to the end, with no close text). -/
def takeSubtree (nm : Str) : Nat → Nat → List Tok → List Tok × Str × List Tok
  | 0, _, toks => ([], [], toks)
  | Nat.succ _, _, [] => ([], [], [])
  | Nat.succ f, depth, Tok.text r :: rest =>
    let p := takeSubtree nm f depth rest
    (Tok.text r :: p.1, p.2)
  | Nat.succ f, depth, Tok.tag tg :: rest =>
    if tg.name = nm ∧ tg.kind = TagKind.closing then
      if depth = 0 then ([], tg.raw, rest)
      else
        let p := takeSubtree nm f (depth - 1) rest
        (Tok.tag tg :: p.1, p.2)
    else if tg.name = nm ∧ tg.kind = TagKind.opening ∧ ¬ isVoid nm = true then
      let p := takeSubtree nm f (depth + 1) rest
      (Tok.tag tg :: p.1, p.2)
    else
      let p := takeSubtree nm f depth rest
      (Tok.tag tg :: p.1, p.2)

/-- Concatenated text runs of a token list. -/
def textConcat (toks : List Tok) : Str :=
  (toks.map (fun tk => match tk with
    | Tok.text r => r
    | Tok.tag _ => [])).flatten

/-- All elements of a token list in document (DFS preorder) order, as
`document.select` enumerates them. -/
def collectElemsGo : Nat → List Tok → List Elem
  | 0, _ => []
  | Nat.succ _, [] => []
  | Nat.succ f, Tok.text _ :: rest => collectElemsGo f rest
  | Nat.succ f, Tok.tag tg :: rest =>
    if tg.kind = TagKind.closing then collectElemsGo f rest
    else if tg.kind = TagKind.opening ∧ ¬ isVoid tg.name = true then
      let p := takeSubtree tg.name (rest.length + 1) 0 rest
      { name := tg.name, ehtml := tg.raw ++ concatRaws p.1 ++ p.2.1,
        etext := textConcat p.1 } :: collectElemsGo f rest
    else
      { name := tg.name, ehtml := tg.raw, etext := [] } :: collectElemsGo f rest

/-- The elements of a document (empty when the document cannot be
parsed). -/
def docElems (html : Str) : List Elem :=
  match tokenizeHtml html with
  | none => []
  | some toks => collectElemsGo (toks.length + 1) toks

/-- `KORTEXT_PHRASES` and `PRESCRIBED_READING_PHRASES`, in source order. -/
def unwantedPhrases : List Str :=
  [lit "Sign in to Kortext",
   lit "Open book in new window",
   lit "You will only be able to access the book on Kortext",
   lit "kortext.com",
   lit "Kortext eBook",
   lit "Access via Kortext",
   lit "Prescribed Reading",
   lit "Learning outcomes"]

/-- Does the element text contain any denylisted phrase, case-insensitively
(`element_text.to_lowercase().contains(&phrase.to_lowercase())`)? -/
def hasUnwantedPhrase (etext : Str) : Bool :=
  unwantedPhrases.any (fun p => occurs (lower p) (lower etext))

/-- The per-element decision of `remove_kortext_content`: a denylisted
phrase is present and the serialized element is between the size guards
(`element_html.len() < 5000 && element_html.len() > 10`). -/
def kortextRemovable (e : Elem) : Bool :=
  hasUnwantedPhrase e.etext && e.ehtml.length < 5000 && e.ehtml.length > 10

/-- The container selectors scanned by `remove_kortext_content`. -/
def containerSelectors : List Str :=
  [lit "div", lit "section", lit "article", lit "p", lit "span"]

/-- One selector's scan: every matching element judged removable has every
occurrence of its serialized HTML deleted from the output string
(`output.replace(&element_html, "")`). -/
def kortextFold (elems : List Elem) (sel : Str) (out : Str) : Str :=
  elems.foldl (fun out e =>
    if e.name = sel ∧ kortextRemovable e = true then replaceAll e.ehtml [] out
    else out) out

/-- `remove_kortext_content`: parse once, then scan the five container
selectors in order over the original document's elements. -/
def remove_kortext_content (html : Str) : Str :=
  match tokenizeHtml html with
  | none => html
  | some toks =>
    let elems := collectElemsGo (toks.length + 1) toks
    containerSelectors.foldl (fun out sel => kortextFold elems sel out) html

/-- One heading tag's dedup scan: state is the output string and the set
of seen `tag:text` keys; a repeated key deletes the first occurrence of
the heading's serialized HTML (`output.replacen(&element_html, "", 1)`). -/
def dedupFold (elems : List Elem) (tag : Str) (st : Str × List Str) : Str × List Str :=
  elems.foldl (fun (st : Str × List Str) e =>
    if e.name = tag then
      let key := tag ++ lit ":" ++ trim e.etext
      if key ∈ st.2 then (replaceFirst e.ehtml [] st.1, st.2)
      else (st.1, key :: st.2)
    else st) st

/-- The heading tags scanned by the dedup pass, in source order. -/
def headingTags : List Str :=
  [lit "h1", lit "h2", lit "h3", lit "h4", lit "h5", lit "h6"]

/-- `remove_duplicate_headings_scraper`: parse once, then scan `h1`..`h6`
in order with a single shared seen-set. -/
def remove_duplicate_headings_scraper (html : Str) : Str :=
  match tokenizeHtml html with
  | none => html
  | some toks =>
    let elems := collectElemsGo (toks.length + 1) toks
    (headingTags.foldl (fun st tag => dedupFold elems tag st) (html, [])).1

/-- The whitespace/`&nbsp;` body of the empty-paragraph regex
`\s*(&nbsp;|\s)*\s*` followed by the literal `</p>`. -/
def epBody : Nat → Str → Option Str
  | 0, _ => none
  | Nat.succ f, s =>
    if (lit "</p>").isPrefixOf s then some (s.drop 4)
    else if (lit "&nbsp;").isPrefixOf s then epBody f (s.drop 6)
    else
      match s with
      | c :: t => if isWs c then epBody f t else none
      | [] => none

/-- Finder for the empty-paragraph regex `<p[^>]*>\s*(&nbsp;|\s)*\s*</p>`
(case-sensitive), replaced by the empty string. -/
def epFinder (s : Str) : Option (Str × Str) :=
  match s with
  | '<' :: 'p' :: r =>
    match skipToGt (r.length + 1) r with
    | none => none
    | some r2 =>
      match epBody (r2.length + 1) r2 with
      | none => none
      | some rest => some (([] : Str), rest)
  | _ => none

/-- `remove_empty_paragraphs_fast`. -/
def remove_empty_paragraphs_fast (html : Str) : Str := rewrite epFinder html

/-- Last position (greedy `[^>]+` with backtracking) inside the attribute
run of an `<img` tag at which `src="` or `src='` matches, with at least
one character before it. -/
def lastSrcIdx (run : Str) : Option Nat :=
  (List.range (run.length + 1)).foldl (fun best i =>
    if 1 ≤ i ∧ ((lit "src=\"").isPrefixOf (run.drop i) ∨ (lit "src='").isPrefixOf (run.drop i))
    then some i else best) none

/-- Finder for the token-rewriting regex
`(<img[^>]+src=["'])([^"']+)(["'])` with the closure of
`fix_image_urls`: skip URLs already carrying `token=`, `data:` URIs and
non-Moodle absolute URLs; otherwise append `?token=` / `&token=`. -/
def imgFinder (token : Str) (s : Str) : Option (Str × Str) :=
  if (lit "<img").isPrefixOf s then
    let r := s.drop 4
    let run := r.takeWhile (fun x => ¬ x = '>')
    match lastSrcIdx run with
    | none => none
    | some i =>
      let q := (r.drop (i + 4)).headD '"'
      let afterQ := r.drop (i + 5)
      let url := afterQ.takeWhile (fun x => ¬ x = '"' ∧ ¬ x = '\'')
      let afterUrl := afterQ.drop url.length
      match afterUrl with
      | q2 :: rest =>
        if url = [] then none
        else
          let g1 := lit "<img" ++ run.take i ++ lit "src=" ++ [q]
          let whole := g1 ++ url ++ [q2]
          if occurs (lit "token=") url then some (whole, rest)
          else if (lit "data:").isPrefixOf url then some (whole, rest)
          else if (lit "http").isPrefixOf url ∧ ¬ occurs (lit "mylms.vossie.net") url = true then
            some (whole, rest)
          else
            let sep := if occurs (lit "?") url then lit "&" else lit "?"
            some (g1 ++ url ++ sep ++ lit "token=" ++ token ++ [q2], rest)
      | [] => none
  else none

/-- `fix_image_urls`. -/
def fix_image_urls (html token : Str) : Str := rewrite (imgFinder token) html

/-- The nine entity replacements at the end of `clean_html_with_token`, in
source order. -/
def entityFix (s : Str) : Str :=
  replaceAll (lit "&quot;") (lit "\"")
    (replaceAll (lit "&lt;") (lit "<")
      (replaceAll (lit "&gt;") (lit ">")
        (replaceAll (lit "&nbsp;") (lit " ")
          (replaceAll (lit "&amp;amp;") (lit "&")
            (replaceAll (lit "&amp;quot;") (lit "\"")
              (replaceAll (lit "&amp;lt;") (lit "<")
                (replaceAll (lit "&amp;gt;") (lit ">")
                  (replaceAll (lit "&amp;nbsp;") (lit " ") s))))))))

/-- `clean_html_with_token`: empty input short-circuits; a streaming-pass
failure returns the input unchanged; otherwise the phrase pass, heading
dedup, empty-paragraph removal, optional token rewriting and entity
normalization run in order. -/
def clean_html_with_token (html : Str) (token : Option Str) : Str :=
  if html = [] then []
  else
    match streamingPass html with
    | none => html
    | some out0 =>
      let out1 := remove_kortext_content out0
      let out2 := remove_duplicate_headings_scraper out1
      let out3 := remove_empty_paragraphs_fast out2
      let out4 := match token with
        | some tk => fix_image_urls out3 tk
        | none => out3
      entityFix out4

/-- `clean_html_content`. -/
def clean_html_content (html : Str) : Str := clean_html_with_token html none

/-!
## Identity lemmas for the sanitizer stages

These characterise when each stage leaves its input untouched; together
they give the fixed-point theorem behind the (amended) idempotence claim.
-/

/-- Does a finder match at any position of the string? -/
def anyMatch (finder : Str → Option (Str × Str)) : Str → Bool
  | [] => (finder []).isSome
  | c :: t => (finder (c :: t)).isSome || anyMatch finder t

theorem rewriteGo_id (finder : Str → Option (Str × Str)) :
    ∀ (f : Nat) (s : Str), anyMatch finder s = false → rewriteGo finder f s = s := by
  intro f
  induction f with
  | zero => intro s _; cases s <;> rfl
  | succ f ih =>
    intro s h
    cases s with
    | nil => rfl
    | cons c t =>
      have h1 : (finder (c :: t)).isSome = false ∧ anyMatch finder t = false := by
        unfold anyMatch at h
        exact Bool.or_eq_false_iff.mp h
      have hn : finder (c :: t) = none := Option.not_isSome_iff_eq_none.mp (by simp [h1.1])
      show (match finder (c :: t) with
        | some (repl, rest) => repl ++ rewriteGo finder f rest
        | none => c :: rewriteGo finder f t) = c :: t
      rw [hn]
      exact congrArg (c :: ·) (ih t h1.2)

theorem rewrite_id (finder : Str → Option (Str × Str)) (s : Str)
    (h : anyMatch finder s = false) : rewrite finder s = s :=
  rewriteGo_id finder (s.length + 1) s h

theorem drop_takeWhile_length (p : Char → Bool) :
    ∀ l : Str, l.drop (l.takeWhile p).length = l.dropWhile p := by
  intro l
  induction l with
  | nil => rfl
  | cons c t ih =>
    by_cases hp : p c = true
    · rw [List.takeWhile_cons, if_pos hp, List.dropWhile_cons, if_pos hp]
      simpa using ih
    · rw [List.takeWhile_cons, if_neg hp, List.dropWhile_cons, if_neg hp]
      rfl

theorem findSubIdx_isPrefix (pat : Str) :
    ∀ (s : Str) (i : Nat), findSubIdx pat s = some i →
      pat.isPrefixOf (s.drop i) = true := by
  intro s
  induction s with
  | nil =>
    intro i h
    unfold findSubIdx at h
    by_cases hp : pat = []
    · subst hp
      rw [if_pos rfl] at h
      cases h
      rfl
    · rw [if_neg hp] at h
      cases h
  | cons c t ih =>
    intro i h
    unfold findSubIdx at h
    by_cases hp : pat.isPrefixOf (c :: t) = true
    · rw [if_pos hp] at h
      cases h
      simpa using hp
    · rw [if_neg hp] at h
      cases hfi : findSubIdx pat t with
      | none => rw [hfi] at h; cases h
      | some j =>
        rw [hfi] at h
        cases h
        simpa using ih j hfi

/-- The tokenizer is lossless: the raw texts of the tokens concatenate
back to the input. -/
theorem tokenizeGo_concat :
    ∀ (f : Nat) (s : Str) (toks : List Tok), tokenizeGo f s = some toks →
      concatRaws toks = s := by
  intro f
  induction f with
  | zero => intro s toks h; cases h
  | succ f ih =>
    intro s toks h
    cases s with
    | nil =>
      cases h
      rfl
    | cons c t =>
      unfold tokenizeGo at h
      by_cases hc : c = '<'
      · rw [if_pos hc] at h
        by_cases hts : tagStart t = true
        · rw [if_pos hts] at h
          cases hfi : findSubIdx ['>'] t with
          | none => simp [hfi] at h
          | some i =>
            simp only [hfi] at h
            cases hpb : parseTagBody (t.take i) with
            | none => simp [hpb] at h
            | some kna =>
              obtain ⟨kind, nm, attrs⟩ := kna
              simp only [hpb] at h
              cases htk : tokenizeGo f (t.drop (i + 1)) with
              | none => rw [htk] at h; cases h
              | some toks' =>
                rw [htk] at h
                cases h
                have hrest := ih (t.drop (i + 1)) toks' htk
                have hgt : (['>'] : Str).isPrefixOf (t.drop i) = true :=
                  findSubIdx_isPrefix ['>'] t i hfi
                have hdecomp : t.drop i = '>' :: t.drop (i + 1) := by
                  cases hd : t.drop i with
                  | nil => rw [hd] at hgt; cases hgt
                  | cons x xs =>
                    rw [hd] at hgt
                    have hx : x = '>' := by
                      have : ('>' == x && List.isPrefixOf [] xs) = true := hgt
                      simp only [Bool.and_eq_true, beq_iff_eq] at this
                      exact this.1.symm
                    subst hx
                    have : xs = t.drop (i + 1) := by
                      have := congrArg List.tail hd
                      simpa [List.tail_drop] using this.symm
                    rw [this]
                subst hc
                have hsplit : t.take i ++ '>' :: t.drop (i + 1) = t := by
                  conv_rhs => rw [← List.take_append_drop i t]
                  rw [hdecomp]
                show ('<' :: (t.take i ++ ['>'])) ++ concatRaws toks' = '<' :: t
                rw [hrest]
                simp only [List.cons_append, List.append_assoc, List.singleton_append,
                  List.nil_append]
                rw [hsplit]
        · rw [if_neg hts] at h
          cases htk : tokenizeGo f t with
          | none => rw [htk] at h; cases h
          | some toks' =>
            rw [htk] at h
            cases h
            subst hc
            show '<' :: concatRaws toks' = '<' :: t
            rw [ih t toks' htk]
      · rw [if_neg hc] at h
        cases htk : tokenizeGo f ((c :: t).drop ((c :: t).takeWhile (fun x => ¬ x = '<')).length) with
        | none => rw [htk] at h; cases h
        | some toks' =>
          rw [htk] at h
          cases h
          show (c :: t).takeWhile (fun x => ¬ x = '<') ++ concatRaws toks' = c :: t
          rw [ih _ toks' htk]
          rw [drop_takeWhile_length]
          exact List.takeWhile_append_dropWhile _ _

theorem tokenizeHtml_concat (s : Str) (toks : List Tok)
    (h : tokenizeHtml s = some toks) : concatRaws toks = s :=
  tokenizeGo_concat (s.length + 1) s toks h

/-- When no token is removable, the streaming pass emits the input
verbatim. -/
theorem streamGo_id :
    ∀ (f : Nat) (toks : List Tok), toks.length < f →
      (∀ tg : Tag, Tok.tag tg ∈ toks → tokRemovable tg = false) →
      streamGo f toks = concatRaws toks := by
  intro f
  induction f with
  | zero => intro toks h; exact absurd h (by simp)
  | succ f ih =>
    intro toks hf hall
    cases toks with
    | nil => rfl
    | cons tk rest =>
      cases tk with
      | text r =>
        show r ++ streamGo f rest = concatRaws (Tok.text r :: rest)
        rw [ih rest (by simp only [List.length_cons] at hf; omega)
          (fun tg htg => hall tg (List.mem_cons_of_mem _ htg))]
        rfl
      | tag tg =>
        have hrm : tokRemovable tg = false := hall tg (List.mem_cons_self _ _)
        show (if tokRemovable tg = true then _ else tg.raw ++ streamGo f rest) = _
        rw [if_neg (by simp [hrm])]
        rw [ih rest (by simp only [List.length_cons] at hf; omega)
          (fun tg' htg => hall tg' (List.mem_cons_of_mem _ htg))]
        rfl

/-- When no element matching the selector is judged removable, a kortext
scan changes nothing. -/
theorem kortextFold_id (elems : List Elem) (sel : Str) :
    ∀ out : Str, (∀ e ∈ elems, e.name = sel → kortextRemovable e = false) →
      kortextFold elems sel out = out := by
  induction elems with
  | nil => intro out _; rfl
  | cons e rest ih =>
    intro out hall
    unfold kortextFold at ih ⊢
    simp only [List.foldl_cons]
    have hne : ¬ (e.name = sel ∧ kortextRemovable e = true) := by
      rintro ⟨h1, h2⟩
      rw [hall e (List.mem_cons_self _ _) h1] at h2
      cases h2
    rw [if_neg hne]
    exact ih out (fun e' h' => hall e' (List.mem_cons_of_mem _ h'))

/-- When no element is judged removable, `remove_kortext_content` is the
identity. -/
theorem remove_kortext_id (html : Str)
    (hall : ∀ e ∈ docElems html, kortextRemovable e = false) :
    remove_kortext_content html = html := by
  unfold remove_kortext_content
  cases htk : tokenizeHtml html with
  | none => rfl
  | some toks =>
    have hall' : ∀ e ∈ collectElemsGo (toks.length + 1) toks, ∀ sel : Str,
        e.name = sel → kortextRemovable e = false := by
      intro e he _ _
      apply hall
      unfold docElems
      rw [htk]
      exact he
    show containerSelectors.foldl
      (fun out sel => kortextFold (collectElemsGo (toks.length + 1) toks) sel out) html = html
    have : ∀ (sels : List Str) (out : Str),
        sels.foldl (fun out sel => kortextFold (collectElemsGo (toks.length + 1) toks) sel out) out
          = out := by
      intro sels
      induction sels with
      | nil => intro out; rfl
      | cons sel rest ihs =>
        intro out
        simp only [List.foldl_cons]
        rw [kortextFold_id _ sel out (fun e he => hall' e he sel)]
        exact ihs out
    exact this containerSelectors html

/-- Boolean distinctness of a key list. -/
def nodupB : List Str → Bool
  | [] => true
  | k :: t => !(k ∈ t : Bool) && nodupB t

theorem nodupB_append (a b : List Str) (h : nodupB (a ++ b) = true) :
    nodupB a = true ∧ nodupB b = true ∧ ∀ k ∈ a, k ∉ b := by
  induction a with
  | nil => exact ⟨rfl, h, by simp⟩
  | cons k t ih =>
    rw [List.cons_append] at h
    unfold nodupB at h
    rw [Bool.and_eq_true] at h
    obtain ⟨hk, ht⟩ := h
    obtain ⟨h1, h2, h3⟩ := ih ht
    have hkmem : k ∉ t ++ b := by simpa using hk
    refine ⟨?_, h2, ?_⟩
    · unfold nodupB
      rw [Bool.and_eq_true]
      refine ⟨?_, h1⟩
      simpa using fun hm => hkmem (List.mem_append.mpr (Or.inl hm))
    · intro x hx
      rcases List.mem_cons.mp hx with hx | hx
      · subst hx
        exact fun hm => hkmem (List.mem_append.mpr (Or.inr hm))
      · exact h3 x hx

/-- The dedup keys contributed by one heading tag, in document order. -/
def keysOf (elems : List Elem) (tag : Str) : List Str :=
  (elems.filter (fun e => e.name = tag)).map (fun e => tag ++ lit ":" ++ trim e.etext)

/-- The full dedup key sequence of a document. -/
def headingKeys (html : Str) : List Str :=
  (headingTags.map (fun t => keysOf (docElems html) t)).flatten

theorem dedupFold_one (tag : Str) :
    ∀ (elems : List Elem) (out : Str) (seen : List Str),
      (∀ k ∈ keysOf elems tag, k ∉ seen) →
      nodupB (keysOf elems tag) = true →
      dedupFold elems tag (out, seen) = (out, (keysOf elems tag).reverse ++ seen) := by
  intro elems
  induction elems with
  | nil => intro out seen _ _; rfl
  | cons e rest ih =>
    intro out seen hdisj hnd
    by_cases hname : e.name = tag
    · have hkeys : keysOf (e :: rest) tag =
          (tag ++ lit ":" ++ trim e.etext) :: keysOf rest tag := by
        unfold keysOf
        rw [List.filter_cons]
        simp [hname]
      rw [hkeys] at hdisj hnd
      unfold nodupB at hnd
      simp only [Bool.and_eq_true, Bool.not_eq_true'] at hnd
      obtain ⟨hknotin, hndrest⟩ := hnd
      have hknotseen : (tag ++ lit ":" ++ trim e.etext) ∉ seen :=
        hdisj _ (List.mem_cons_self _ _)
      unfold dedupFold
      simp only [List.foldl_cons]
      rw [if_pos hname]
      rw [if_neg hknotseen]
      have := ih out ((tag ++ lit ":" ++ trim e.etext) :: seen)
        (by
          intro k hk
          intro hm
          rcases List.mem_cons.mp hm with hm | hm
          · subst hm
            rw [decide_eq_false_iff_not] at hknotin
            exact hknotin hk
          · exact hdisj k (List.mem_cons_of_mem _ hk) hm)
        hndrest
      unfold dedupFold at this
      rw [this, hkeys]
      simp
    · have hkeys : keysOf (e :: rest) tag = keysOf rest tag := by
        unfold keysOf
        rw [List.filter_cons]
        simp [hname]
      rw [hkeys] at hdisj hnd
      unfold dedupFold
      simp only [List.foldl_cons]
      rw [if_neg hname]
      have := ih out seen hdisj hnd
      unfold dedupFold at this
      rw [this, hkeys]

/-- When the document's heading keys are pairwise distinct, the dedup pass
is the identity. -/
theorem dedup_distinct_id (html : Str)
    (hnd : nodupB (headingKeys html) = true) :
    remove_duplicate_headings_scraper html = html := by
  unfold remove_duplicate_headings_scraper
  cases htk : tokenizeHtml html with
  | none => rfl
  | some toks =>
    have helems : docElems html = collectElemsGo (toks.length + 1) toks := by
      unfold docElems
      rw [htk]
    unfold headingKeys at hnd
    rw [helems] at hnd
    have main : ∀ (tags : List Str) (out : Str) (seen : List Str),
        nodupB ((tags.map (fun t => keysOf (collectElemsGo (toks.length + 1) toks) t)).flatten)
          = true →
        (∀ k ∈ (tags.map (fun t => keysOf (collectElemsGo (toks.length + 1) toks) t)).flatten,
          k ∉ seen) →
        (tags.foldl (fun st tag => dedupFold (collectElemsGo (toks.length + 1) toks) tag st)
          (out, seen)).1 = out := by
      intro tags
      induction tags with
      | nil => intro out seen _ _; rfl
      | cons tag rest ihs =>
        intro out seen hnd2 hdisj
        simp only [List.map_cons, List.flatten_cons] at hnd2 hdisj
        obtain ⟨hnd3, hnd4, hdisj2⟩ := nodupB_append _ _ hnd2
        simp only [List.foldl_cons]
        rw [dedupFold_one tag (collectElemsGo (toks.length + 1) toks) out seen
          (fun k hk => hdisj k (List.mem_append.mpr (Or.inl hk))) hnd3]
        exact ihs out _ hnd4 (by
          intro k hk
          intro hm
          rcases List.mem_append.mp hm with hm | hm
          · have hrev := List.mem_reverse.mp hm
            exact hdisj2 _ hrev hk
          · exact hdisj k (List.mem_append.mpr (Or.inr hk)) hm)
    exact main headingTags html [] hnd (by simp)

/-- The nine entity patterns normalized by the final stage, in source
order. -/
def entityPats : List Str :=
  [lit "&amp;nbsp;", lit "&amp;gt;", lit "&amp;lt;", lit "&amp;quot;",
   lit "&amp;amp;", lit "&nbsp;", lit "&gt;", lit "&lt;", lit "&quot;"]

/-- On text free of every entity pattern, entity normalization is the
identity. -/
theorem entityFix_id (s : Str) (h : ∀ p ∈ entityPats, occurs p s = false) :
    entityFix s = s := by
  unfold entityFix
  rw [replaceAll_id _ _ s (h _ (by decide)),
      replaceAll_id _ _ s (h _ (by decide)),
      replaceAll_id _ _ s (h _ (by decide)),
      replaceAll_id _ _ s (h _ (by decide)),
      replaceAll_id _ _ s (h _ (by decide)),
      replaceAll_id _ _ s (h _ (by decide)),
      replaceAll_id _ _ s (h _ (by decide)),
      replaceAll_id _ _ s (h _ (by decide)),
      replaceAll_id _ _ s (h _ (by decide))]

/-- Does the streaming pass keep every token of the document (and can the
document be parsed at all)? -/
def streamClean (y : Str) : Bool :=
  match tokenizeHtml y with
  | none => false
  | some toks =>
    toks.all (fun tk => match tk with
      | Tok.tag tg => !(tokRemovable tg)
      | Tok.text _ => true)

/-- A document is in sanitized form when every sanitizer stage leaves it
unchanged for a structural reason: no streaming-removable token, no
phrase-flagged container within the size guards, pairwise-distinct heading
keys, no empty-paragraph match and no encoded entity. -/
def sanitizedForm (y : Str) : Bool :=
  streamClean y &&
  (docElems y).all (fun e => !(kortextRemovable e)) &&
  nodupB (headingKeys y) &&
  !(anyMatch epFinder y) &&
  entityPats.all (fun p => !(occurs p y))

/-- A document in sanitized form is a fixed point of the sanitizer. -/
theorem sanitized_fixed (y : Str) (h : sanitizedForm y = true) :
    clean_html_content y = y := by
  unfold clean_html_content clean_html_with_token
  by_cases hy : y = []
  · subst hy; rfl
  · rw [if_neg hy]
    unfold sanitizedForm at h
    rw [Bool.and_eq_true] at h
    obtain ⟨h4, hent⟩ := h
    rw [Bool.and_eq_true] at h4
    obtain ⟨h3, hep⟩ := h4
    rw [Bool.and_eq_true] at h3
    obtain ⟨h2, hnd⟩ := h3
    rw [Bool.and_eq_true] at h2
    obtain ⟨hstream, hkor⟩ := h2
    cases htk : tokenizeHtml y with
    | none =>
      unfold streamClean at hstream
      rw [htk] at hstream
      cases hstream
    | some toks =>
      have hsp : streamingPass y = some (streamGo (toks.length + 1) toks) := by
        unfold streamingPass
        rw [htk]
        rfl
      simp only [hsp]
      have hall : ∀ tg : Tag, Tok.tag tg ∈ toks → tokRemovable tg = false := by
        unfold streamClean at hstream
        rw [htk] at hstream
        rw [List.all_eq_true] at hstream
        intro tg htg
        have := hstream _ htg
        simpa using this
      have e0 : streamGo (toks.length + 1) toks = y :=
        (streamGo_id (toks.length + 1) toks (Nat.lt_succ_self _) hall).trans
          (tokenizeHtml_concat y toks htk)
      rw [e0]
      have hkor' : ∀ e ∈ docElems y, kortextRemovable e = false := by
        rw [List.all_eq_true] at hkor
        intro e he
        have := hkor e he
        simpa using this
      rw [remove_kortext_id y hkor']
      rw [dedup_distinct_id y hnd]
      have hep' : anyMatch epFinder y = false := by simpa using hep
      rw [show remove_empty_paragraphs_fast y = y from rewrite_id epFinder y hep']
      have hent' : ∀ p ∈ entityPats, occurs p y = false := by
        rw [List.all_eq_true] at hent
        intro p hp
        have := hent p hp
        simpa using this
      exact entityFix_id y hent'

/-!
## Claim theorems for the sanitizer
-/

/--
Claim C2 — counterexample.  The claim states that a container from the
class-based selector set is removed *if and only if* a denylisted phrase
occurs in it (subject to the size guard).  In the code the streaming pass
removes `.box` (and `.no-overflow`, `.generalbox`, `.prescribed-reading`)
containers unconditionally: the input below contains no denylisted phrase
anywhere, yet its `.box` container is deleted.
-/
theorem c2_counterexample :
    unwantedPhrases.all (fun p => !(occurs (lower p)
      (lower (lit "<html><body><div class=\"box\">hello</div><p>hi</p></body></html>")))) = true ∧
    clean_html_content (lit "<html><body><div class=\"box\">hello</div><p>hi</p></body></html>") =
      lit "<html><body><p>hi</p></body></html>" ∧
    occurs (lit "hello")
      (clean_html_content (lit "<html><body><div class=\"box\">hello</div><p>hi</p></body></html>"))
      = false := by
  refine ⟨by decide, by decide, by decide⟩

/--
Claim C2 — amended: the class-based containers (`no-overflow`, `box`,
`generalbox`, `prescribed-reading`) are removed *unconditionally* by the
streaming pass, with no phrase or size check; separately, the phrase pass
removes generic containers (`div`, `section`, `article`, `p`, `span`)
exactly when a denylisted phrase occurs case-insensitively in their text
and the serialized size is strictly between 10 and 5000 bytes (a scan
changes nothing when no matching element satisfies that condition).  The
spec's concrete example holds: the `no-overflow` Kortext container is
removed entirely while the sibling paragraph `Keep me` survives, and a
plain `div` carrying a Kortext phrase is removed by the phrase pass.
-/
theorem c2_container_removal :
    (∀ tg : Tag,
      (hasClass tg (lit "no-overflow") = true ∨ hasClass tg (lit "box") = true ∨
       hasClass tg (lit "generalbox") = true ∨ hasClass tg (lit "prescribed-reading") = true) →
      streamRemove tg = true) ∧
    (∀ (elems : List Elem) (sel : Str) (out : Str),
      (∀ e ∈ elems, e.name = sel → kortextRemovable e = false) →
      kortextFold elems sel out = out) ∧
    (∀ e : Elem, kortextRemovable e =
      (hasUnwantedPhrase e.etext && e.ehtml.length < 5000 && e.ehtml.length > 10)) ∧
    clean_html_content (lit "<html><body><p>Content</p><div class=\"no-overflow\">Sign in to Kortext</div><p>Keep me</p></body></html>") =
      lit "<html><body><p>Content</p><p>Keep me</p></body></html>" ∧
    occurs (lit "Kortext")
      (clean_html_content (lit "<html><body><p>Content</p><div class=\"no-overflow\">Sign in to Kortext</div><p>Keep me</p></body></html>"))
      = false ∧
    occurs (lit "Keep me")
      (clean_html_content (lit "<html><body><p>Content</p><div class=\"no-overflow\">Sign in to Kortext</div><p>Keep me</p></body></html>"))
      = true ∧
    remove_kortext_content (lit "<html><body><p>Content</p><div>Please Sign in to Kortext to view</div><p>More</p></body></html>") =
      lit "<html><body><p>Content</p><p>More</p></body></html>" := by
  refine ⟨?_, kortextFold_id, fun e => rfl, by decide, by decide, by decide, by decide⟩
  intro tg h
  rcases h with h | h | h | h <;> simp [streamRemove, h]

/-- Witness for C2's quantified conjuncts at concrete inputs: a `box`
container tag is removal-flagged, and a phrase-free paragraph list is left
unchanged by a kortext scan. -/
theorem c2_container_removal_witness :
    streamRemove ⟨lit "<div class=\"box\">", lit "div",
      [(lit "class", lit "box")], TagKind.opening⟩ = true ∧
    kortextFold [⟨lit "p", lit "<p>hi</p>", lit "hi"⟩] (lit "p") (lit "<p>hi</p>") =
      lit "<p>hi</p>" :=
  ⟨c2_container_removal.1 _ (by decide),
   c2_container_removal.2.1 _ _ _ (by decide)⟩

/--
Claim C3 — counterexample.  The claim states heading de-duplication keys
on whitespace-collapsed normalized text, never treats empty normalized
text as a duplicate, and deletes the subsequent occurrence.  In the code:
(1) two empty `<h2></h2>` headings count as duplicates and one is removed;
(2) the removal deletes the *first* literal occurrence of the serialized
heading in the document string (`replacen(.., 1)` on the whole document),
so the text before/after order shows the earlier copy vanished; (3) the
keys use the trimmed text with *no* whitespace collapsing, so `A  B` and
`A B` (equal under the claim's normalization) are not treated as
duplicates and both survive.
-/
theorem c3_counterexample :
    remove_duplicate_headings_scraper (lit "<h2></h2><p>A</p><h2></h2>") =
      lit "<p>A</p><h2></h2>" ∧
    remove_duplicate_headings_scraper (lit "<h2>A  B</h2><p>s</p><h2>A B</h2>") =
      lit "<h2>A  B</h2><p>s</p><h2>A B</h2>" := by
  refine ⟨by decide, by decide⟩

/--
Claim C3 — amended: de-duplication keys are `(tag, trimmed inner text)`
pairs — whitespace runs are not collapsed, and empty trimmed text
participates like any other key; when a later heading repeats a key, the
first occurrence of its serialized HTML in the current document string is
deleted, so exactly one copy of each duplicated heading survives (for
identical copies, the surviving copy sits at the later position).  When
all keys are pairwise distinct the pass deletes nothing, and in the
`<h2>Intro</h2>...<h2>Intro</h2>` example exactly one `<h2>Intro</h2>`
survives sanitization.
-/
theorem c3_heading_dedup :
    (∀ html : Str, nodupB (headingKeys html) = true →
      remove_duplicate_headings_scraper html = html) ∧
    remove_duplicate_headings_scraper (lit "<h2>Intro</h2><p>X</p><h2>Intro</h2>") =
      lit "<p>X</p><h2>Intro</h2>" ∧
    clean_html_content (lit "<h2>Intro</h2><p>X</p><h2>Intro</h2>") =
      lit "<p>X</p><h2>Intro</h2>" := by
  refine ⟨dedup_distinct_id, by decide, by decide⟩

/-- Witness for C3's quantified conjunct: the same trimmed text under
different heading levels forms distinct keys, so nothing is removed. -/
theorem c3_heading_dedup_witness :
    remove_duplicate_headings_scraper (lit "<h1>A</h1><h2>A</h2>") =
      lit "<h1>A</h1><h2>A</h2>" :=
  c3_heading_dedup.1 (lit "<h1>A</h1><h2>A</h2>") (by decide)

/--
Claim C4 — counterexample.  The claim states sanitization is idempotent on
HTML free of denylisted phrases and duplicate headings.  The input below
is free of both, but the entity-normalization stage at the end of the
first pass decodes `&lt;script&gt;` into a literal `<script>` element,
which the second pass then removes (and the emptied paragraph with it):
the second sanitization differs from the first.
-/
theorem c4_idempotence_counterexample :
    unwantedPhrases.all (fun p => !(occurs (lower p)
      (lower (lit "<p>&lt;script&gt;x&lt;/script&gt;</p>")))) = true ∧
    remove_duplicate_headings_scraper (lit "<p>&lt;script&gt;x&lt;/script&gt;</p>") =
      lit "<p>&lt;script&gt;x&lt;/script&gt;</p>" ∧
    clean_html_content (lit "<p>&lt;script&gt;x&lt;/script&gt;</p>") =
      lit "<p><script>x</script></p>" ∧
    clean_html_content (clean_html_content (lit "<p>&lt;script&gt;x&lt;/script&gt;</p>")) = [] ∧
    ¬ clean_html_content (clean_html_content (lit "<p>&lt;script&gt;x&lt;/script&gt;</p>")) =
        clean_html_content (lit "<p>&lt;script&gt;x&lt;/script&gt;</p>") := by
  refine ⟨by decide, by decide, by decide, by decide, by decide⟩

/--
Claim C4 — amended: sanitization is idempotent at every input whose first
sanitization output is in sanitized form — free not only of denylisted
phrases and duplicate heading keys but also of streaming-removable
elements, empty-paragraph matches and *encoded entities* (whose decoding
at the end of the first pass can create new removable markup, the effect
the counterexample exhibits).
-/
theorem c4_idempotence (x : Str)
    (h : sanitizedForm (clean_html_content x) = true) :
    clean_html_content (clean_html_content x) = clean_html_content x :=
  sanitized_fixed (clean_html_content x) h

/-- Witness for C4 at a concrete document already in sanitized form. -/
theorem c4_idempotence_witness :
    clean_html_content (clean_html_content (lit "<html><body><p>Hello</p></body></html>")) =
      clean_html_content (lit "<html><body><p>Hello</p></body></html>") :=
  c4_idempotence (lit "<html><body><p>Hello</p></body></html>") (by decide)

/--
Claim C5: the transformation core is total — in this embedding every
function is a total Lean function, so `clean_html_with_token`,
`html_to_typst` and `generate_typst_document` return a string on every
input by construction — and the two explicit degradation paths behave as
claimed: empty input yields empty output, and when the streaming rewrite
stage cannot parse its input the sanitizer returns the pre-stage input
unchanged (skipping all later stages).
-/
theorem c5_total_fallback :
    (∀ token : Option Str, clean_html_with_token [] token = []) ∧
    (∀ (html : Str) (token : Option Str), tokenizeHtml html = none →
      clean_html_with_token html token = html) := by
  constructor
  · intro token
    rfl
  · intro html token htok
    unfold clean_html_with_token
    by_cases hy : html = []
    · subst hy
      exact absurd htok (by decide)
    · rw [if_neg hy]
      have hsp : streamingPass html = none := by
        unfold streamingPass
        rw [htok]
        rfl
      simp only [hsp]

/-- Witness for C5 at concrete inputs: empty input, and an unterminated
tag on which the modelled streaming stage fails. -/
theorem c5_total_fallback_witness :
    clean_html_with_token [] (some (lit "t")) = [] ∧
    clean_html_with_token (lit "<div") none = lit "<div" :=
  ⟨c5_total_fallback.1 (some (lit "t")),
   c5_total_fallback.2 (lit "<div") none (by decide)⟩

/-!
## Infrastructure for the placeholder-restoration proof (claim C1)

Occurrence and prefix analysis of the sentinel patterns through the
restoration passes.
-/

theorem occurs_iff_isInfix (p : Str) : ∀ s : Str, occurs p s = true ↔ p <:+: s := by
  intro s
  induction s with
  | nil =>
    unfold occurs
    constructor
    · intro h
      have : p = [] := by simpa using h
      subst this
      exact List.infix_refl []
    · intro h
      have : p = [] := List.eq_nil_of_infix_nil h
      simp [this]
  | cons c t ih =>
    rw [occurs_cons, Bool.or_eq_true]
    constructor
    · rintro (h | h)
      · exact (List.IsPrefix.isInfix (List.isPrefixOf_iff_prefix.mp h))
      · exact List.infix_cons (ih.mp h)
    · intro h
      rcases List.infix_cons_iff.mp h with h | h
      · exact Or.inl (List.isPrefixOf_iff_prefix.mpr h)
      · exact Or.inr (ih.mpr h)

theorem occurs_trans {a b s : Str} (hab : occurs a b = true)
    (hbs : occurs b s = true) : occurs a s = true :=
  (occurs_iff_isInfix a s).mpr (((occurs_iff_isInfix a b).mp hab).trans
    ((occurs_iff_isInfix b s).mp hbs))

theorem occurs_of_isInfix {p s : Str} (h : p <:+: s) : occurs p s = true :=
  (occurs_iff_isInfix p s).mpr h

theorem not_occurs_of_isInfix {p s t : Str} (hst : s <:+: t)
    (h : occurs p t = false) : occurs p s = false := by
  cases hps : occurs p s with
  | false => rfl
  | true =>
    rw [occurs_trans hps (occurs_of_isInfix hst)] at h
    cases h

theorem mem_of_occurs {p s : Str} (h : occurs p s = true) :
    ∀ c ∈ p, c ∈ s := by
  intro c hc
  exact ((occurs_iff_isInfix p s).mp h).subset hc

/-- Splitting a prefix relation over an append: the pattern either fits
inside the first part, or consumes it exactly and continues. -/
theorem isPrefixOf_append_split {p x y : Str}
    (h : p.isPrefixOf (x ++ y) = true) :
    (p.length ≤ x.length ∧ p.isPrefixOf x = true) ∨
    (x.length < p.length ∧ p.take x.length = x ∧
      (p.drop x.length).isPrefixOf y = true) := by
  induction x generalizing p with
  | nil =>
    cases p with
    | nil => exact Or.inl ⟨by simp, rfl⟩
    | cons a as => exact Or.inr ⟨by simp, rfl, h⟩
  | cons c t ih =>
    cases p with
    | nil => exact Or.inl ⟨by simp, rfl⟩
    | cons a as =>
      have h2 : (a == c && as.isPrefixOf (t ++ y)) = true := h
      rw [Bool.and_eq_true, beq_iff_eq] at h2
      obtain ⟨hac, h3⟩ := h2
      subst hac
      rcases ih h3 with ⟨h4, h5⟩ | ⟨h4, h5, h6⟩
      · refine Or.inl ⟨by simpa using h4, ?_⟩
        show (a == a && as.isPrefixOf t) = true
        simp [h5]
      · refine Or.inr ⟨by simpa using h4, ?_, ?_⟩
        · simpa using h5
        · simpa using h6

/-- A prefix of an append that fits in the first part is a prefix of
it. -/
theorem isPrefixOf_append_of_le {p x y : Str} (h : p.isPrefixOf x = true) :
    p.isPrefixOf (x ++ y) = true := by
  induction x generalizing p with
  | nil =>
    cases p with
    | nil => simp [List.isPrefixOf]
    | cons a as => cases h
  | cons c t ih =>
    cases p with
    | nil => rfl
    | cons a as =>
      have h2 : (a == c && as.isPrefixOf t) = true := h
      rw [Bool.and_eq_true] at h2
      show (a == c && as.isPrefixOf (t ++ y)) = true
      rw [Bool.and_eq_true]
      exact ⟨h2.1, ih h2.2⟩

/-- Every suffix of an append splits as a nonempty suffix of the first
part followed by the second part, or is a suffix of the second. -/
theorem suffix_append_split {s' : Str} : ∀ {x y : Str}, s' <:+ (x ++ y) →
    (∃ x', x' <:+ x ∧ x' ≠ [] ∧ s' = x' ++ y) ∨ s' <:+ y := by
  intro x
  induction x with
  | nil => intro y h; exact Or.inr (by simpa using h)
  | cons c t ih =>
    intro y h
    rw [List.cons_append, List.suffix_cons_iff] at h
    rcases h with h | h
    · exact Or.inl ⟨c :: t, List.suffix_refl _, by simp, by simpa using h⟩
    · rcases ih h with ⟨x', hx', hne, heq⟩ | h2
      · exact Or.inl ⟨x', hx'.trans (List.suffix_cons c t), hne, heq⟩
      · exact Or.inr h2

/-- A prefix through an append is in particular a prefix of the shorter
front pattern. -/
theorem isPrefixOf_append_left {a b s : Str}
    (h : (a ++ b).isPrefixOf s = true) : a.isPrefixOf s = true := by
  induction a generalizing s with
  | nil => cases s <;> rfl
  | cons c t ih =>
    cases s with
    | nil => cases h
    | cons x xs =>
      have h2 : (c == x && (t ++ b).isPrefixOf xs) = true := h
      rw [Bool.and_eq_true] at h2
      show (c == x && t.isPrefixOf xs) = true
      rw [Bool.and_eq_true]
      exact ⟨h2.1, ih h2.2⟩

/-- A prefix relation transfers along a longer prefix. -/
theorem isPrefixOf_trans {a b s : Str} (h1 : a.isPrefixOf b = true)
    (h2 : b.isPrefixOf s = true) : a.isPrefixOf s = true :=
  List.isPrefixOf_iff_prefix.mpr
    ((List.isPrefixOf_iff_prefix.mp h1).trans (List.isPrefixOf_iff_prefix.mp h2))

theorem take_isPrefixOf (n : Nat) (p : Str) : (p.take n).isPrefixOf p = true :=
  List.isPrefixOf_iff_prefix.mpr (List.take_prefix n p)

/-- Occurrence of a sub-pattern transfers along a prefix relation. -/
theorem occurs_of_isPrefixOf {a p s : Str} (ha : occurs a p = true)
    (hp : p.isPrefixOf s = true) : occurs a s = true :=
  (occurs_iff_isInfix a s).mpr
    (((occurs_iff_isInfix a p).mp ha).trans
      (List.isPrefixOf_iff_prefix.mp hp).isInfix)

/-- Occurrence of a sub-pattern transfers along a suffix relation. -/
theorem occurs_of_isSuffix {a p s : Str} (ha : occurs a p = true)
    (hp : p <:+ s) : occurs a s = true :=
  (occurs_iff_isInfix a s).mpr (((occurs_iff_isInfix a p).mp ha).trans hp.isInfix)

/-- Finders that consume at least one character whenever they fire. -/
def FinderConsumes (finder : Str → Option (Str × Str)) : Prop :=
  ∀ s r rest, finder s = some (r, rest) → rest.length < s.length

/-- Fuel irrelevance for the generic scanner, provided the finder always
consumes. -/
theorem rewriteGo_fuel {finder : Str → Option (Str × Str)}
    (hf : FinderConsumes finder) :
    ∀ f1 : Nat, ∀ {f2 : Nat} {s : Str}, s.length ≤ f1 → s.length ≤ f2 →
      rewriteGo finder f1 s = rewriteGo finder f2 s := by
  intro f1
  induction f1 with
  | zero =>
    intro f2 s h1 _
    have hs : s = [] := List.length_eq_zero.mp (Nat.le_zero.mp h1)
    subst hs
    cases f2 <;> rfl
  | succ f ih =>
    intro f2 s h1 h2
    cases s with
    | nil => cases f2 <;> rfl
    | cons c t =>
      cases f2 with
      | zero => exact absurd h2 (by simp)
      | succ g =>
        cases hfind : finder (c :: t) with
        | none =>
          simp only [rewriteGo, hfind]
          have ht1 : t.length ≤ f := by
            simp only [List.length_cons] at h1; omega
          have ht2 : t.length ≤ g := by
            simp only [List.length_cons] at h2; omega
          rw [ih ht1 ht2]
        | some pr =>
          obtain ⟨r, rest⟩ := pr
          simp only [rewriteGo, hfind]
          have hlt := hf _ _ _ hfind
          have ht1 : rest.length ≤ f := by
            simp only [List.length_cons] at hlt h1
            omega
          have ht2 : rest.length ≤ g := by
            simp only [List.length_cons] at hlt h2
            omega
          rw [ih ht1 ht2]

theorem rewriteGo_eq_rewrite {finder : Str → Option (Str × Str)}
    (hf : FinderConsumes finder) (f : Nat) (s : Str) (h : s.length ≤ f) :
    rewriteGo finder f s = rewrite finder s :=
  rewriteGo_fuel hf f h (Nat.le_succ _)

/-- If the finder fails at every position inside the chunk `t` (the tail
extending into `R`), the scanner copies `t` verbatim and continues on
`R`. -/
theorem rewrite_chunk {finder : Str → Option (Str × Str)}
    (hf : FinderConsumes finder) (t R : Str)
    (hnone : ∀ t', t' <:+ t → t' ≠ [] → finder (t' ++ R) = none) :
    rewrite finder (t ++ R) = t ++ rewrite finder R := by
  induction t with
  | nil => simp
  | cons c t' ih =>
    have hcur : finder ((c :: t') ++ R) = none :=
      hnone (c :: t') (List.suffix_refl _) (by simp)
    show rewriteGo finder (((c :: t') ++ R).length + 1) ((c :: t') ++ R) = _
    rw [List.cons_append]
    rw [List.cons_append] at hcur
    simp only [rewriteGo, hcur, List.length_cons, List.length_append]
    rw [rewriteGo_eq_rewrite hf _ _ (by simp [List.length_append])]
    rw [ih (fun u hu hne => hnone u (hu.trans (List.suffix_cons c t')) hne)]
    simp

/-- If the finder fires at the start of the string, the replacement is
emitted and scanning continues after the match. -/
theorem rewrite_match {finder : Str → Option (Str × Str)}
    (hf : FinderConsumes finder) {s R r : Str}
    (hs : s ≠ []) (hfind : finder (s ++ R) = some (r, R)) :
    rewrite finder (s ++ R) = r ++ rewrite finder R := by
  cases s with
  | nil => exact absurd rfl hs
  | cons c t =>
    show rewriteGo finder (((c :: t) ++ R).length + 1) ((c :: t) ++ R) = _
    rw [List.cons_append]
    rw [List.cons_append] at hfind
    simp only [rewriteGo, hfind, List.length_cons, List.length_append]
    rw [rewriteGo_eq_rewrite hf _ _ (by omega)]

theorem rewrite_nil (finder : Str → Option (Str × Str)) :
    rewrite finder [] = [] := rfl

/-- A scanner on which the finder fails at every nonempty suffix is the
identity. -/
theorem rewrite_id_of_none {finder : Str → Option (Str × Str)}
    (hf : FinderConsumes finder) (s : Str)
    (hnone : ∀ t', t' <:+ s → t' ≠ [] → finder t' = none) :
    rewrite finder s = s := by
  have h := rewrite_chunk hf s [] (fun u hu hne => by
    rw [List.append_nil]; exact hnone u hu hne)
  simpa [rewrite_nil] using h

/-- `replaceAll` as an instance of the generic scanner. -/
def replFinder (pat rep : Str) (s : Str) : Option (Str × Str) :=
  if pat ≠ [] ∧ pat.isPrefixOf s = true then some (rep, s.drop pat.length)
  else none

theorem replFinder_consumes (pat rep : Str) :
    FinderConsumes (replFinder pat rep) := by
  intro s r rest h
  unfold replFinder at h
  split at h
  · rename_i hc
    cases h
    have hlen := (List.isPrefixOf_iff_prefix.mp hc.2).length_le
    have hp : 0 < pat.length := List.length_pos.mpr hc.1
    simp only [List.length_drop]
    omega
  · cases h

theorem replaceAllGo_eq_rewriteGo (pat rep : Str) (hp : pat ≠ []) :
    ∀ f s, replaceAllGo pat rep f s = rewriteGo (replFinder pat rep) f s := by
  intro f
  induction f with
  | zero => intro s; cases s <;> rfl
  | succ f ih =>
    intro s
    cases s with
    | nil => rfl
    | cons c t =>
      by_cases hpre : pat.isPrefixOf (c :: t) = true
      · have hfind : replFinder pat rep (c :: t) =
            some (rep, (c :: t).drop pat.length) := by
          unfold replFinder
          rw [if_pos ⟨hp, hpre⟩]
        show (if pat ≠ [] ∧ pat.isPrefixOf (c :: t) then
            rep ++ replaceAllGo pat rep f (List.drop (pat.length - 1) t)
          else c :: replaceAllGo pat rep f t) = _
        rw [if_pos ⟨hp, by simpa using hpre⟩]
        simp only [rewriteGo, hfind]
        congr 1
        rw [ih]
        congr 1
        cases pat with
        | nil => exact absurd rfl hp
        | cons p ps => simp
      · have hfind : replFinder pat rep (c :: t) = none := by
          unfold replFinder
          rw [if_neg (by intro hc; exact hpre hc.2)]
        show (if pat ≠ [] ∧ pat.isPrefixOf (c :: t) then
            rep ++ replaceAllGo pat rep f (List.drop (pat.length - 1) t)
          else c :: replaceAllGo pat rep f t) = _
        rw [if_neg (by intro hc; exact hpre (by simpa using hc.2))]
        simp only [rewriteGo, hfind]
        rw [ih]

theorem replaceAll_eq_rewrite (pat rep s : Str) (hp : pat ≠ []) :
    replaceAll pat rep s = rewrite (replFinder pat rep) s := by
  unfold replaceAll
  rw [replaceAllGo_eq_rewriteGo pat rep hp]
  exact rewriteGo_eq_rewrite (replFinder_consumes pat rep) _ _ (Nat.le_refl _)

theorem digitChar_isDigit (n : Nat) : (digitChar n).isDigit = true := by
  unfold digitChar
  split <;> decide

theorem digit_ne {c : Char} (h : c.isDigit = true) (x : Char)
    (hx : x.isDigit = false) : ¬ c = x := by
  intro heq
  subst heq
  rw [h] at hx
  cases hx

theorem natReprGo_digits :
    ∀ (f n : Nat) (acc : Str), (∀ c ∈ acc, c.isDigit = true) →
      ∀ c ∈ natReprGo f n acc, c.isDigit = true := by
  intro f
  induction f with
  | zero => intro n acc hacc c hc; exact hacc c hc
  | succ f ih =>
    intro n acc hacc c hc
    unfold natReprGo at hc
    split at hc
    · rcases List.mem_cons.mp hc with h | h
      · subst h; exact digitChar_isDigit n
      · exact hacc c h
    · refine ih (n / 10) _ ?_ c hc
      intro x hx
      rcases List.mem_cons.mp hx with h | h
      · subst h; exact digitChar_isDigit _
      · exact hacc x h

theorem natRepr_digits (n : Nat) : ∀ c ∈ natRepr n, c.isDigit = true :=
  natReprGo_digits (n + 1) n [] (by intro c hc; cases hc)

theorem natReprGo_head :
    ∀ (f n : Nat) (acc : Str), n + 1 ≤ f →
      ∃ d t, natReprGo f n acc = d :: t ∧ d.isDigit = true := by
  intro f
  induction f with
  | zero =>
    intro n acc h
    exact absurd h (by omega)
  | succ f ih =>
    intro n acc h
    unfold natReprGo
    split
    · exact ⟨digitChar n, acc, rfl, digitChar_isDigit n⟩
    · rename_i hn
      refine ih (n / 10) _ ?_
      have hlt : n / 10 < n := Nat.div_lt_self (by omega) (by omega)
      omega

theorem natRepr_head (n : Nat) :
    ∃ d t, natRepr n = d :: t ∧ d.isDigit = true :=
  natReprGo_head (n + 1) n [] (Nat.le_refl _)

/-!
### The escaped-underscore shape of post-escape text

Every chunk that the generic escape pass emits has each of its underscores
immediately preceded by a backslash.  This is the property that prevents
restoration patterns (whose spellings contain bare underscores) from
matching inside or across ordinary escaped text.
-/

/-- Worker: `prev` is the previous character (`none` at the start). -/
def uEscGo : Option Char → Str → Bool
  | _, [] => true
  | prev, c :: t =>
    (decide (¬ c = '_') || decide (prev = some '\\')) && uEscGo (some c) t

/-- Every underscore is immediately preceded by a backslash. -/
def uEsc (t : Str) : Bool := uEscGo none t

/-- The escaped-underscore property restricts to prefixes (with the same
starting context). -/
theorem uEscGo_mono :
    ∀ (p : Str) (prev : Option Char) (t : Str), p.isPrefixOf t = true →
      uEscGo prev t = true → uEscGo prev p = true := by
  intro p
  induction p with
  | nil => intro prev t _ _; rfl
  | cons c p' ih =>
    intro prev t hp ht
    cases t with
    | nil => cases hp
    | cons x xs =>
      have h2 : (c == x && p'.isPrefixOf xs) = true := hp
      rw [Bool.and_eq_true, beq_iff_eq] at h2
      obtain ⟨hcx, hp'⟩ := h2
      subst hcx
      unfold uEscGo at ht ⊢
      rw [Bool.and_eq_true] at ht ⊢
      exact ⟨ht.1, ih (some c) xs hp' ht.2⟩

/-- Refute a prefix relation into escaped text via a concrete violating
sub-prefix. -/
theorem not_isPrefixOf_of_uEsc {p t : Str} (hu : uEsc t = true)
    (m : Nat) (hbad : uEscGo none (p.take m) = false) :
    p.isPrefixOf t = false := by
  cases hpre : p.isPrefixOf t with
  | false => rfl
  | true =>
    have h1 : (p.take m).isPrefixOf t = true :=
      isPrefixOf_trans (take_isPrefixOf m p) hpre
    have := uEscGo_mono (p.take m) none t h1 hu
    rw [this] at hbad
    cases hbad

theorem isPrefixOf_nil_elim {p : Str} (h : p.isPrefixOf [] = true) : p = [] := by
  cases p with
  | nil => rfl
  | cons c t => cases h

theorem isPrefixOf_cons_false {ph c : Char} (pt x : Str) (h : ¬ ph = c) :
    (ph :: pt).isPrefixOf (c :: x) = false := by
  show (ph == c && pt.isPrefixOf x) = false
  have : (ph == c) = false := by
    cases hb : ph == c with
    | false => rfl
    | true => exact absurd (by simpa using hb) h
  rw [this, Bool.false_and]

theorem isPrefixOf_append_self (a x : Str) : a.isPrefixOf (a ++ x) = true :=
  List.isPrefixOf_iff_prefix.mpr ⟨x, rfl⟩

theorem occurs_of_self_isPrefixOf {p s : Str} (h : p.isPrefixOf s = true)
    (hp : p ≠ []) : occurs p s = true := by
  cases s with
  | nil => exact absurd (isPrefixOf_nil_elim h) hp
  | cons c t =>
    unfold occurs
    rw [h, Bool.true_or]

/-- Refute a prefix into an append via a concrete mismatch inside the
first part. -/
theorem not_isPrefixOf_append {p x : Str} (R : Str) (m : Nat)
    (hlen : m ≤ x.length) (hm : (p.take m).isPrefixOf x = false) :
    p.isPrefixOf (x ++ R) = false := by
  cases h : p.isPrefixOf (x ++ R) with
  | false => rfl
  | true =>
    have h1 : (p.take m).isPrefixOf (x ++ R) = true :=
      isPrefixOf_trans (take_isPrefixOf m p) h
    rcases isPrefixOf_append_split h1 with ⟨_, h2⟩ | ⟨hlt, _, _⟩
    · rw [h2] at hm; cases hm
    · have : (p.take m).length ≤ m := by
        simp [List.length_take]
      omega

theorem not_isPrefixOf_of_left {a b s : Str} (h : a.isPrefixOf s = false) :
    (a ++ b).isPrefixOf s = false := by
  cases hh : (a ++ b).isPrefixOf s with
  | false => rfl
  | true => rw [isPrefixOf_append_left hh] at h; cases h

theorem isPrefixOf_append_drop {a b s : Str}
    (h : (a ++ b).isPrefixOf s = true) :
    b.isPrefixOf (s.drop a.length) = true := by
  obtain ⟨rest, hrest⟩ := List.isPrefixOf_iff_prefix.mp h
  subst hrest
  rw [List.append_assoc, List.drop_left]
  exact isPrefixOf_append_self b rest

/-!
### The placeholder-atom model of the post-escape intermediate string

The intermediate string handed to `restore_headings` is modelled as a
concatenation of atoms: ordinary post-escape text chunks, restored text
chunks (inserted by earlier restoration passes — they begin with `=`, `$`
or a newline), math placeholders, and heading placeholders.
-/

/-- The contiguous sentinel letters shared by every placeholder marker. -/
def TY : Str := lit "TYPST"

/-- A heading placeholder as inserted by `extract_headings`. -/
def headPH (d : Nat) (c : Str) : Str :=
  HEADING_START ++ [digitChar d] ++ c ++ HEADING_END

inductive Atom where
  | otext (t : Str)
  | stext (t : Str)
  | math (i : Nat)
  | head (d : Nat) (c : Str)

def renderAtom : Atom → Str
  | Atom.otext t => t
  | Atom.stext t => t
  | Atom.math i => mathPH i
  | Atom.head d c => headPH d c

def renderAtoms (atoms : List Atom) : Str := (atoms.map renderAtom).flatten

/-- Restored chunks begin with `=` (headings) or `$` / newline (math). -/
def safeStartB : Str → Bool
  | [] => false
  | c :: _ => c == '=' || c == '$' || c == '\n'

/-- Restored chunks either carry no backslash (restored heading text) or
end with `$` / newline (restored math). -/
def safeEndB (t : Str) : Bool :=
  decide ('\\' ∉ t) ||
    (match t.getLast? with
     | some c => c == '$' || c == '\n'
     | none => false)

def atomOK (n : Nat) : Atom → Prop
  | Atom.otext t => t ≠ [] ∧ occurs TY t = false ∧ uEsc t = true
  | Atom.stext t => occurs TY t = false ∧ safeStartB t = true ∧ safeEndB t = true
  | Atom.math i => i < n
  | Atom.head d c => 1 ≤ d ∧ d ≤ 4 ∧ occurs TY c = false ∧
      ('\n' ∉ c) ∧ ('\\' ∉ c) ∧ trim c = c

/-- No two adjacent ordinary text atoms (placeholders separate the chunks
the escape pass emits). -/
def sepB : List Atom → Bool
  | Atom.otext _ :: Atom.otext _ :: _ => false
  | _ :: rest => sepB rest
  | [] => true

def wfList (n : Nat) (atoms : List Atom) : Prop :=
  (∀ a ∈ atoms, atomOK n a) ∧ sepB atoms = true

/-- The tail of a well-formed list is well-formed. -/
theorem wfList_tail {n : Nat} {a : Atom} {rest : List Atom}
    (h : wfList n (a :: rest)) : wfList n rest := by
  refine ⟨fun x hx => h.1 x (List.mem_cons_of_mem a hx), ?_⟩
  have hs := h.2
  cases a with
  | otext t =>
    cases rest with
    | nil => rfl
    | cons b rest' =>
      cases b with
      | otext u => exact absurd hs (by simp [sepB])
      | stext u => exact hs
      | math i => exact hs
      | head d c => exact hs
  | stext t => exact hs
  | math i => exact hs
  | head d c => exact hs

/-- The head atom of a well-formed list is well-formed. -/
theorem wfList_head {n : Nat} {a : Atom} {rest : List Atom}
    (h : wfList n (a :: rest)) : atomOK n a :=
  h.1 a (List.mem_cons_self a rest)

/-- Whether a list does not begin with an ordinary text atom. -/
def notOtextHead : List Atom → Prop
  | Atom.otext _ :: _ => False
  | _ => True

theorem sepB_notOtextHead {t : Str} {rest : List Atom}
    (h : sepB (Atom.otext t :: rest) = true) : notOtextHead rest := by
  cases rest with
  | nil => trivial
  | cons b rest' =>
    cases b with
    | otext u => exact absurd h (by simp [sepB])
    | stext u => trivial
    | math i => trivial
    | head d c => trivial

theorem renderAtoms_nil : renderAtoms [] = [] := rfl

theorem renderAtoms_cons (a : Atom) (atoms : List Atom) :
    renderAtoms (a :: atoms) = renderAtom a ++ renderAtoms atoms := by
  simp [renderAtoms]

theorem isPrefixOf_cons_eq (a b : Char) (as bs : Str) :
    (a :: as).isPrefixOf (b :: bs) = (a == b && as.isPrefixOf bs) := rfl

theorem uEscGo_cons_underscore {prev : Option Char} (t' : Str)
    (hprev : ¬ prev = some '\\') : uEscGo prev ('_' :: t') = false := by
  simp [uEscGo, hprev]

theorem uEscGo_tail {prev : Option Char} {c : Char} {t' : Str}
    (h : uEscGo prev (c :: t') = true) : uEscGo (some c) t' = true := by
  unfold uEscGo at h
  rw [Bool.and_eq_true] at h
  exact h.2

/-- Existence of a scanning context for a suffix of escaped text. -/
theorem uEscGo_suffix :
    ∀ (t : Str) (prev : Option Char), uEscGo prev t = true →
      ∀ a', a' <:+ t → ∃ pv, uEscGo pv a' = true := by
  intro t
  induction t with
  | nil =>
    intro prev h a' ha
    have : a' = [] := List.suffix_nil.mp ha
    exact ⟨none, by rw [this]; rfl⟩
  | cons c t' ih =>
    intro prev h a' ha
    rcases List.suffix_cons_iff.mp ha with h2 | h2
    · exact ⟨prev, by rw [h2]; exact h⟩
    · exact ih (some c) (uEscGo_tail h) a' h2

/-- Decomposing the drop of a pattern sharing the 9 initial sentinel
characters. -/
theorem drop_of_take9 {p : Str} (hp : p.take 9 = lit "___TYPST_")
    {j : Nat} (hj : j ≤ 9) :
    p.drop j = (lit "___TYPST_").drop j ++ p.drop 9 := by
  conv_lhs => rw [← List.take_append_drop 9 p]
  rw [List.drop_append_of_le_length (by rw [hp]; exact le_trans hj (by decide))]
  rw [hp]

theorem sharedDrop_head :
    ∀ j, 1 ≤ j → j ≤ 8 → ∃ ph pt, (lit "___TYPST_").drop j = ph :: pt ∧
      ¬ ph = '=' ∧ ¬ ph = '$' ∧ ¬ ph = '\n' := by
  intro j h1 h2
  interval_cases j
  · exact ⟨'_', lit "_TYPST_", by decide, by decide, by decide, by decide⟩
  · exact ⟨'_', lit "TYPST_", by decide, by decide, by decide, by decide⟩
  · exact ⟨'T', lit "YPST_", by decide, by decide, by decide, by decide⟩
  · exact ⟨'Y', lit "PST_", by decide, by decide, by decide, by decide⟩
  · exact ⟨'P', lit "ST_", by decide, by decide, by decide, by decide⟩
  · exact ⟨'S', lit "T_", by decide, by decide, by decide, by decide⟩
  · exact ⟨'T', lit "_", by decide, by decide, by decide, by decide⟩
  · exact ⟨'_', [], by decide, by decide, by decide, by decide⟩

/-- Character-by-character scan of a sentinel-pattern tail (positions 1-8,
all within the shared `___TYPST_` prefix) through an escaped-underscore
chunk: the underscore at pattern position 8 (or 1, 2) can never be matched
because its predecessor in the pattern is not a backslash, so the match
either dies inside the chunk or passes, still within positions 1-8, into
the following material, where the given facts refute it. -/
theorem chainShared (p : Str) (hp : p.take 9 = lit "___TYPST_") :
    ∀ (t : Str) (j : Nat) (prev : Option Char) (R : Str),
      1 ≤ j → j ≤ 8 → ¬ prev = some '\\' →
      uEscGo prev t = true →
      (∀ j', 1 ≤ j' → j' ≤ 8 → (p.drop j').isPrefixOf R = false) →
      (p.drop j).isPrefixOf (t ++ R) = false := by
  intro t
  induction t with
  | nil =>
    intro j prev R hj1 hj2 _ _ hR
    simpa using hR j hj1 hj2
  | cons c t' ih =>
    intro j prev R hj1 hj2 hprev hu hR
    rw [drop_of_take9 hp (by omega), List.cons_append]
    interval_cases j
    · by_cases hc : c = '_'
      · subst hc
        rw [uEscGo_cons_underscore t' hprev] at hu
        cases hu
      · rw [show (lit "___TYPST_").drop 1 = '_' :: (lit "___TYPST_").drop 2
            from by decide, List.cons_append]
        exact isPrefixOf_cons_false _ _ (fun h => hc h.symm)
    · by_cases hc : c = '_'
      · subst hc
        rw [uEscGo_cons_underscore t' hprev] at hu
        cases hu
      · rw [show (lit "___TYPST_").drop 2 = '_' :: (lit "___TYPST_").drop 3
            from by decide, List.cons_append]
        exact isPrefixOf_cons_false _ _ (fun h => hc h.symm)
    · by_cases hc : c = 'T'
      · subst hc
        rw [show (lit "___TYPST_").drop 3 = 'T' :: (lit "___TYPST_").drop 4
            from by decide, List.cons_append, isPrefixOf_cons_eq]
        have h4 : ((lit "___TYPST_").drop 4 ++ p.drop 9).isPrefixOf (t' ++ R) = false := by
          rw [← drop_of_take9 hp (by omega)]
          exact ih 4 (some 'T') R (by omega) (by omega) (by simp)
            (uEscGo_tail hu) hR
        simp [h4]
      · rw [show (lit "___TYPST_").drop 3 = 'T' :: (lit "___TYPST_").drop 4
            from by decide, List.cons_append]
        exact isPrefixOf_cons_false _ _ (fun h => hc h.symm)
    · by_cases hc : c = 'Y'
      · subst hc
        rw [show (lit "___TYPST_").drop 4 = 'Y' :: (lit "___TYPST_").drop 5
            from by decide, List.cons_append, isPrefixOf_cons_eq]
        have h5 : ((lit "___TYPST_").drop 5 ++ p.drop 9).isPrefixOf (t' ++ R) = false := by
          rw [← drop_of_take9 hp (by omega)]
          exact ih 5 (some 'Y') R (by omega) (by omega) (by simp)
            (uEscGo_tail hu) hR
        simp [h5]
      · rw [show (lit "___TYPST_").drop 4 = 'Y' :: (lit "___TYPST_").drop 5
            from by decide, List.cons_append]
        exact isPrefixOf_cons_false _ _ (fun h => hc h.symm)
    · by_cases hc : c = 'P'
      · subst hc
        rw [show (lit "___TYPST_").drop 5 = 'P' :: (lit "___TYPST_").drop 6
            from by decide, List.cons_append, isPrefixOf_cons_eq]
        have h6 : ((lit "___TYPST_").drop 6 ++ p.drop 9).isPrefixOf (t' ++ R) = false := by
          rw [← drop_of_take9 hp (by omega)]
          exact ih 6 (some 'P') R (by omega) (by omega) (by simp)
            (uEscGo_tail hu) hR
        simp [h6]
      · rw [show (lit "___TYPST_").drop 5 = 'P' :: (lit "___TYPST_").drop 6
            from by decide, List.cons_append]
        exact isPrefixOf_cons_false _ _ (fun h => hc h.symm)
    · by_cases hc : c = 'S'
      · subst hc
        rw [show (lit "___TYPST_").drop 6 = 'S' :: (lit "___TYPST_").drop 7
            from by decide, List.cons_append, isPrefixOf_cons_eq]
        have h7 : ((lit "___TYPST_").drop 7 ++ p.drop 9).isPrefixOf (t' ++ R) = false := by
          rw [← drop_of_take9 hp (by omega)]
          exact ih 7 (some 'S') R (by omega) (by omega) (by simp)
            (uEscGo_tail hu) hR
        simp [h7]
      · rw [show (lit "___TYPST_").drop 6 = 'S' :: (lit "___TYPST_").drop 7
            from by decide, List.cons_append]
        exact isPrefixOf_cons_false _ _ (fun h => hc h.symm)
    · by_cases hc : c = 'T'
      · subst hc
        rw [show (lit "___TYPST_").drop 7 = 'T' :: (lit "___TYPST_").drop 8
            from by decide, List.cons_append, isPrefixOf_cons_eq]
        have h8 : ((lit "___TYPST_").drop 8 ++ p.drop 9).isPrefixOf (t' ++ R) = false := by
          rw [← drop_of_take9 hp (by omega)]
          exact ih 8 (some 'T') R (by omega) (by omega) (by simp)
            (uEscGo_tail hu) hR
        simp [h8]
      · rw [show (lit "___TYPST_").drop 7 = 'T' :: (lit "___TYPST_").drop 8
            from by decide, List.cons_append]
        exact isPrefixOf_cons_false _ _ (fun h => hc h.symm)
    · by_cases hc : c = '_'
      · subst hc
        rw [uEscGo_cons_underscore t' hprev] at hu
        cases hu
      · rw [show (lit "___TYPST_").drop 8 = '_' :: (lit "___TYPST_").drop 9
            from by decide, List.cons_append]
        exact isPrefixOf_cons_false _ _ (fun h => hc h.symm)

/-- No tail of a sentinel pattern (positions 1-8) is a prefix of the
rendering of a well-formed atom list.  This is the junction fact: a
partially matched sentinel can never be completed by the following
atoms. -/
theorem spillShared (p : Str) (hp : p.take 9 = lit "___TYPST_")
    (c9 : Char) (rest9 : Str) (hp9 : p.drop 9 = c9 :: rest9)
    (hc9 : ¬ c9 = '_') (n : Nat) :
    ∀ (atoms : List Atom), wfList n atoms →
      ∀ j, 1 ≤ j → j ≤ 8 →
        (p.drop j).isPrefixOf (renderAtoms atoms) = false := by
  have hb9 : (c9 == '_') = false := by simpa using hc9
  have hlen9 : 9 ≤ p.length := by
    have := congrArg List.length hp
    simp only [List.length_take] at this
    have h2 : (lit "___TYPST_").length = 9 := by decide
    omega
  have hlen10 : 10 ≤ p.length := by
    have := congrArg List.length hp9
    simp only [List.length_drop, List.length_cons] at this
    omega
  intro atoms
  induction atoms with
  | nil =>
    intro _ j hj1 hj2
    rw [renderAtoms_nil]
    cases h : (p.drop j).isPrefixOf [] with
    | false => rfl
    | true =>
      have h2 := congrArg List.length (isPrefixOf_nil_elim h)
      simp only [List.length_drop, List.length_nil] at h2
      omega
  | cons a rest ih =>
    intro hwf j hj1 hj2
    have hwfr := wfList_tail hwf
    have hR : ∀ j', 1 ≤ j' → j' ≤ 8 →
        (p.drop j').isPrefixOf (renderAtoms rest) = false :=
      fun j' h1 h2 => ih hwfr j' h1 h2
    have hok := wfList_head hwf
    rw [renderAtoms_cons]
    cases a with
    | otext t =>
      obtain ⟨htne, hTY, hu⟩ := hok
      exact chainShared p hp t j none _ hj1 hj2 (by simp) hu hR
    | stext t =>
      obtain ⟨hTY, hstart, hend⟩ := hok
      cases t with
      | nil => exact absurd hstart (by simp [safeStartB])
      | cons c t2 =>
        show (p.drop j).isPrefixOf ((c :: t2) ++ renderAtoms rest) = false
        rw [drop_of_take9 hp (by omega)]
        obtain ⟨ph, pt, he, h1, h2, h3⟩ := sharedDrop_head j hj1 hj2
        rw [he, List.cons_append, List.cons_append]
        refine isPrefixOf_cons_false _ _ ?_
        have hcor : (c = '=' ∨ c = '$') ∨ c = '\n' := by
          simpa [safeStartB] using hstart
        rw [or_assoc] at hcor
        rcases hcor with h | h | h <;> subst h
        · exact h1
        · exact h2
        · exact h3
    | math i =>
      show (p.drop j).isPrefixOf (mathPH i ++ renderAtoms rest) = false
      rw [show mathPH i ++ renderAtoms rest =
        MATH_START ++ (natRepr i ++ MATH_END ++ renderAtoms rest) from by
          rw [mathPH]; simp [List.append_assoc]]
      rw [drop_of_take9 hp (by omega), hp9]
      interval_cases j
      · refine not_isPrefixOf_append _ 3 (by decide) ?_
        rw [List.take_append_of_le_length (by decide)]
        decide
      · refine not_isPrefixOf_append _ 2 (by decide) ?_
        rw [List.take_append_of_le_length (by decide)]
        decide
      · refine not_isPrefixOf_append _ 1 (by decide) ?_
        rw [List.take_append_of_le_length (by decide)]
        decide
      · refine not_isPrefixOf_append _ 1 (by decide) ?_
        rw [List.take_append_of_le_length (by decide)]
        decide
      · refine not_isPrefixOf_append _ 1 (by decide) ?_
        rw [List.take_append_of_le_length (by decide)]
        decide
      · refine not_isPrefixOf_append _ 1 (by decide) ?_
        rw [List.take_append_of_le_length (by decide)]
        decide
      · refine not_isPrefixOf_append _ 1 (by decide) ?_
        rw [List.take_append_of_le_length (by decide)]
        decide
      · refine not_isPrefixOf_append _ 2 (by decide) ?_
        rw [show (lit "___TYPST_").drop 8 = ['_'] from by decide]
        rw [show (['_'] ++ c9 :: rest9).take 2 = ['_', c9] from by
          simp [List.take_succ_cons]]
        rw [show MATH_START = '_' :: '_' :: lit "_TYPST_MATH_" from by decide]
        rw [isPrefixOf_cons_eq, isPrefixOf_cons_eq, hb9]
        simp
    | head d c =>
      show (p.drop j).isPrefixOf (headPH d c ++ renderAtoms rest) = false
      rw [show headPH d c ++ renderAtoms rest =
        HEADING_START ++ ([digitChar d] ++ (c ++ (HEADING_END ++ renderAtoms rest)))
          from by rw [headPH]; simp [List.append_assoc]]
      rw [drop_of_take9 hp (by omega), hp9]
      interval_cases j
      · refine not_isPrefixOf_append _ 3 (by decide) ?_
        rw [List.take_append_of_le_length (by decide)]
        decide
      · refine not_isPrefixOf_append _ 2 (by decide) ?_
        rw [List.take_append_of_le_length (by decide)]
        decide
      · refine not_isPrefixOf_append _ 1 (by decide) ?_
        rw [List.take_append_of_le_length (by decide)]
        decide
      · refine not_isPrefixOf_append _ 1 (by decide) ?_
        rw [List.take_append_of_le_length (by decide)]
        decide
      · refine not_isPrefixOf_append _ 1 (by decide) ?_
        rw [List.take_append_of_le_length (by decide)]
        decide
      · refine not_isPrefixOf_append _ 1 (by decide) ?_
        rw [List.take_append_of_le_length (by decide)]
        decide
      · refine not_isPrefixOf_append _ 1 (by decide) ?_
        rw [List.take_append_of_le_length (by decide)]
        decide
      · refine not_isPrefixOf_append _ 2 (by decide) ?_
        rw [show (lit "___TYPST_").drop 8 = ['_'] from by decide]
        rw [show (['_'] ++ c9 :: rest9).take 2 = ['_', c9] from by
          simp [List.take_succ_cons]]
        rw [show HEADING_START = '_' :: '_' :: lit "_TYPST_H" from by decide]
        rw [isPrefixOf_cons_eq, isPrefixOf_cons_eq, hb9]
        simp

/-- `TYPST` occurs in any long enough take of a pattern starting with
`___TYPST`. -/
theorem occurs_TY_take {X : Str} (h8 : X.take 8 = lit "___TYPST")
    {k : Nat} (hk : 8 ≤ k) : occurs TY (X.take k) = true := by
  have hp : (X.take 8).isPrefixOf (X.take k) = true := by
    have h := take_isPrefixOf 8 (X.take k)
    rwa [List.take_take, Nat.min_eq_left hk] at h
  exact occurs_of_isPrefixOf (by rw [h8]; decide) hp

/-- The heading-restoration opener never matches starting inside an
ordinary escaped text chunk. -/
theorem noPrefOpn_otext (dc : Char) (t : Str) (hu : uEsc t = true)
    (R : Str)
    (hR : ∀ j', 1 ≤ j' → j' ≤ 8 →
      (HEADING_START.drop j').isPrefixOf R = false) :
    ∀ s', s' <:+ t → s' ≠ [] →
      (HEADING_START ++ [dc]).isPrefixOf (s' ++ R) = false := by
  intro s' hs hne
  apply not_isPrefixOf_of_left
  cases s' with
  | nil => exact absurd rfl hne
  | cons c t2 =>
    rw [show HEADING_START = '_' :: (lit "__TYPST_H") from by decide,
      List.cons_append]
    by_cases hc : c = '_'
    · subst hc
      rw [isPrefixOf_cons_eq]
      obtain ⟨pv, hpv⟩ := uEscGo_suffix t none hu _ hs
      have htail : (lit "__TYPST_H").isPrefixOf (t2 ++ R) = false := by
        rw [show lit "__TYPST_H" = HEADING_START.drop 1 from by decide]
        exact chainShared HEADING_START (by decide) t2 1 (some '_') R
          (by omega) (by omega) (by simp) (uEscGo_tail hpv) hR
      simp [htail]
    · exact isPrefixOf_cons_false _ _ (fun h => hc h.symm)

/-- The heading-restoration opener never matches starting inside a
restored text chunk. -/
theorem noPrefOpn_stext (dc : Char) (t : Str) (hTY : occurs TY t = false)
    (R : Str)
    (hR : ∀ j', 1 ≤ j' → j' ≤ 8 →
      (HEADING_START.drop j').isPrefixOf R = false) :
    ∀ s', s' <:+ t → s' ≠ [] →
      (HEADING_START ++ [dc]).isPrefixOf (s' ++ R) = false := by
  intro s' hs hne
  cases h : (HEADING_START ++ [dc]).isPrefixOf (s' ++ R) with
  | false => rfl
  | true =>
    exfalso
    rcases isPrefixOf_append_split h with ⟨hlen, hfit⟩ | ⟨hlt, htake, hcont⟩
    · have h1 : occurs TY (HEADING_START ++ [dc]) = true :=
        occurs_of_isPrefixOf (by decide : occurs TY HEADING_START = true)
          (isPrefixOf_append_self _ _)
      have h2 : occurs TY t = true :=
        occurs_of_isSuffix (occurs_of_isPrefixOf h1 hfit) hs
      rw [h2] at hTY
      cases hTY
    · have hol : (HEADING_START ++ [dc]).length = 11 := by
        rw [List.length_append, show HEADING_START.length = 10 from by decide]
        rfl
      rw [hol] at hlt
      have hk1 : 1 ≤ s'.length := by
        cases s' with
        | nil => exact absurd rfl hne
        | cons a b => simp
      by_cases hk8 : 8 ≤ s'.length
      · have h1 : occurs TY ((HEADING_START ++ [dc]).take s'.length) = true :=
          occurs_TY_take (by rw [List.take_append_of_le_length (by decide)]; decide) hk8
        rw [htake] at h1
        have h2 : occurs TY t = true := occurs_of_isSuffix h1 hs
        rw [h2] at hTY
        cases hTY
      · have hHSl : HEADING_START.length = 10 := by decide
        have hdrop : (HEADING_START ++ [dc]).drop s'.length =
            HEADING_START.drop s'.length ++ [dc] :=
          List.drop_append_of_le_length (by omega)
        rw [hdrop] at hcont
        have h2 := isPrefixOf_append_left hcont
        rw [hR s'.length hk1 (by omega)] at h2
        cases h2

/-- Continuations of the heading opener after matching one, two or three
trailing underscores of a placeholder die on the following material. -/
theorem noPrefOpn_under3 (dc : Char) (R : Str)
    (hR : ∀ j', 1 ≤ j' → j' ≤ 8 →
      (HEADING_START.drop j').isPrefixOf R = false) :
    (HEADING_START ++ [dc]).isPrefixOf (['_', '_', '_'] ++ R) = false := by
  cases h : (HEADING_START ++ [dc]).isPrefixOf (['_', '_', '_'] ++ R) with
  | false => rfl
  | true =>
    exfalso
    rw [show HEADING_START = ['_', '_', '_'] ++ lit "TYPST_H" from by decide,
      List.append_assoc] at h
    have h2 := isPrefixOf_append_drop h
    rw [show (['_', '_', '_'] : Str).length = 3 from by decide,
      List.drop_append_of_le_length (by decide)] at h2
    rw [show (['_', '_', '_'] : Str).drop 3 = ([] : Str) from by decide,
      List.nil_append] at h2
    have h3 := isPrefixOf_append_left h2
    rw [show lit "TYPST_H" = HEADING_START.drop 3 from by decide] at h3
    rw [hR 3 (by omega) (by omega)] at h3
    cases h3

theorem noPrefOpn_under2 (dc : Char) (R : Str)
    (hR : ∀ j', 1 ≤ j' → j' ≤ 8 →
      (HEADING_START.drop j').isPrefixOf R = false) :
    (HEADING_START ++ [dc]).isPrefixOf (['_', '_'] ++ R) = false := by
  cases h : (HEADING_START ++ [dc]).isPrefixOf (['_', '_'] ++ R) with
  | false => rfl
  | true =>
    exfalso
    rw [show HEADING_START = ['_', '_'] ++ lit "_TYPST_H" from by decide,
      List.append_assoc] at h
    have h2 := isPrefixOf_append_drop h
    rw [show (['_', '_'] : Str).length = 2 from by decide,
      List.drop_append_of_le_length (by decide)] at h2
    rw [show (['_', '_'] : Str).drop 2 = ([] : Str) from by decide,
      List.nil_append] at h2
    have h3 := isPrefixOf_append_left h2
    rw [show lit "_TYPST_H" = HEADING_START.drop 2 from by decide] at h3
    rw [hR 2 (by omega) (by omega)] at h3
    cases h3

theorem noPrefOpn_under1 (dc : Char) (R : Str)
    (hR : ∀ j', 1 ≤ j' → j' ≤ 8 →
      (HEADING_START.drop j').isPrefixOf R = false) :
    (HEADING_START ++ [dc]).isPrefixOf (['_'] ++ R) = false := by
  cases h : (HEADING_START ++ [dc]).isPrefixOf (['_'] ++ R) with
  | false => rfl
  | true =>
    exfalso
    rw [show HEADING_START = ['_'] ++ lit "__TYPST_H" from by decide,
      List.append_assoc] at h
    have h2 := isPrefixOf_append_drop h
    rw [show (['_'] : Str).length = 1 from by decide,
      List.drop_append_of_le_length (by decide)] at h2
    rw [show (['_'] : Str).drop 1 = ([] : Str) from by decide,
      List.nil_append] at h2
    have h3 := isPrefixOf_append_left h2
    rw [show lit "__TYPST_H" = HEADING_START.drop 1 from by decide] at h3
    rw [hR 1 (by omega) (by omega)] at h3
    cases h3

/-- The heading-restoration opener never matches starting at a suffix of
`MATH_END`. -/
theorem noPrefOpn_meSuffix (dc : Char) (R : Str)
    (hR : ∀ j', 1 ≤ j' → j' ≤ 8 →
      (HEADING_START.drop j').isPrefixOf R = false) :
    ∀ s', s' <:+ MATH_END → s' ≠ [] →
      (HEADING_START ++ [dc]).isPrefixOf (s' ++ R) = false := by
  intro s' hs hne
  have hm : s' ∈ MATH_END.tails := (List.mem_tails _ _).mpr hs
  fin_cases hm
  · refine not_isPrefixOf_append _ 2 (by decide) ?_
    rw [List.take_append_of_le_length (by decide)]
    decide
  · refine not_isPrefixOf_append _ 1 (by decide) ?_
    rw [List.take_append_of_le_length (by decide)]
    decide
  · refine not_isPrefixOf_append _ 1 (by decide) ?_
    rw [List.take_append_of_le_length (by decide)]
    decide
  · refine not_isPrefixOf_append _ 1 (by decide) ?_
    rw [List.take_append_of_le_length (by decide)]
    decide
  · refine not_isPrefixOf_append _ 1 (by decide) ?_
    rw [List.take_append_of_le_length (by decide)]
    decide
  · refine not_isPrefixOf_append _ 1 (by decide) ?_
    rw [List.take_append_of_le_length (by decide)]
    decide
  · refine not_isPrefixOf_append _ 2 (by decide) ?_
    rw [List.take_append_of_le_length (by decide)]
    decide
  · refine not_isPrefixOf_append _ 1 (by decide) ?_
    rw [List.take_append_of_le_length (by decide)]
    decide
  · refine not_isPrefixOf_append _ 1 (by decide) ?_
    rw [List.take_append_of_le_length (by decide)]
    decide
  · refine not_isPrefixOf_append _ 1 (by decide) ?_
    rw [List.take_append_of_le_length (by decide)]
    decide
  · refine not_isPrefixOf_append _ 1 (by decide) ?_
    rw [List.take_append_of_le_length (by decide)]
    decide
  · exact noPrefOpn_under3 dc R hR
  · exact noPrefOpn_under2 dc R hR
  · exact noPrefOpn_under1 dc R hR
  · exact absurd rfl hne

/-- The heading-restoration opener never matches starting inside a math
placeholder. -/
theorem noPrefOpn_math (dc : Char) (i : Nat) (R : Str)
    (hR : ∀ j', 1 ≤ j' → j' ≤ 8 →
      (HEADING_START.drop j').isPrefixOf R = false) :
    ∀ s', s' <:+ mathPH i → s' ≠ [] →
      (HEADING_START ++ [dc]).isPrefixOf (s' ++ R) = false := by
  intro s' hs hne
  rw [mathPH] at hs
  rcases suffix_append_split hs with ⟨xsuf, hxsuf, hxne, heq⟩ | hs2
  · subst heq
    rw [List.append_assoc]
    rcases suffix_append_split hxsuf with ⟨msuf, hmsuf, hmne, heq2⟩ | hx2
    · subst heq2
      rw [List.append_assoc]
      have hm : msuf ∈ MATH_START.tails := (List.mem_tails _ _).mpr hmsuf
      fin_cases hm
      · refine not_isPrefixOf_append _ 10 (by decide) ?_
        rw [List.take_append_of_le_length (by decide)]
        decide
      · refine not_isPrefixOf_append _ 3 (by decide) ?_
        rw [List.take_append_of_le_length (by decide)]
        decide
      · refine not_isPrefixOf_append _ 2 (by decide) ?_
        rw [List.take_append_of_le_length (by decide)]
        decide
      · refine not_isPrefixOf_append _ 1 (by decide) ?_
        rw [List.take_append_of_le_length (by decide)]
        decide
      · refine not_isPrefixOf_append _ 1 (by decide) ?_
        rw [List.take_append_of_le_length (by decide)]
        decide
      · refine not_isPrefixOf_append _ 1 (by decide) ?_
        rw [List.take_append_of_le_length (by decide)]
        decide
      · refine not_isPrefixOf_append _ 1 (by decide) ?_
        rw [List.take_append_of_le_length (by decide)]
        decide
      · refine not_isPrefixOf_append _ 1 (by decide) ?_
        rw [List.take_append_of_le_length (by decide)]
        decide
      · refine not_isPrefixOf_append _ 2 (by decide) ?_
        rw [List.take_append_of_le_length (by decide)]
        decide
      · refine not_isPrefixOf_append _ 1 (by decide) ?_
        rw [List.take_append_of_le_length (by decide)]
        decide
      · refine not_isPrefixOf_append _ 1 (by decide) ?_
        rw [List.take_append_of_le_length (by decide)]
        decide
      · refine not_isPrefixOf_append _ 1 (by decide) ?_
        rw [List.take_append_of_le_length (by decide)]
        decide
      · refine not_isPrefixOf_append _ 1 (by decide) ?_
        rw [List.take_append_of_le_length (by decide)]
        decide
      · -- the final "_" of MATH_START: the continuation meets the digits
        rw [show HEADING_START = '_' :: lit "__TYPST_H" from by decide,
          List.cons_append]
        rw [show (['_'] : Str) ++ (natRepr i ++ (MATH_END ++ R)) =
          '_' :: (natRepr i ++ (MATH_END ++ R)) from rfl]
        rw [isPrefixOf_cons_eq]
        obtain ⟨d0, dt, hd0, hdig⟩ := natRepr_head i
        have htail : (lit "__TYPST_H" ++ [dc]).isPrefixOf
            (natRepr i ++ (MATH_END ++ R)) = false := by
          rw [hd0, List.cons_append,
            show lit "__TYPST_H" = '_' :: lit "_TYPST_H" from by decide,
            List.cons_append]
          exact isPrefixOf_cons_false _ _
            (fun h => digit_ne hdig '_' (by decide) h.symm)
        simp [htail]
      · exact absurd rfl hmne
    · cases xsuf with
      | nil => exact absurd rfl hxne
      | cons d dt =>
        have hdig : d.isDigit = true :=
          natRepr_digits i d (hx2.subset (List.mem_cons_self d dt))
        rw [List.cons_append,
          show HEADING_START = '_' :: lit "__TYPST_H" from by decide,
          List.cons_append]
        exact isPrefixOf_cons_false _ _
          (fun h => digit_ne hdig '_' (by decide) h.symm)
  · exact noPrefOpn_meSuffix dc R hR s' hs2 hne

/-- The heading-restoration opener never matches starting inside a
heading placeholder of another level. -/
theorem noPrefOpn_head (dc : Char) (hdc : dc.isDigit = true) (d' : Nat) (c' : Str)
    (hne2 : ¬ digitChar d' = dc) (hTYc : occurs TY c' = false)
    (R : Str)
    (hR : ∀ j', 1 ≤ j' → j' ≤ 8 →
      (HEADING_START.drop j').isPrefixOf R = false) :
    ∀ s', s' <:+ headPH d' c' → s' ≠ [] →
      (HEADING_START ++ [dc]).isPrefixOf (s' ++ R) = false := by
  intro s' hs hne
  rw [headPH] at hs
  rcases suffix_append_split hs with ⟨ysuf, hysuf, hyne, heq⟩ | hsHE
  · subst heq
    rw [List.append_assoc]
    rcases suffix_append_split hysuf with ⟨zsuf, hzsuf, hzne, heq2⟩ | hyc
    · subst heq2
      rw [List.append_assoc]
      rcases suffix_append_split hzsuf with ⟨hsuf, hhsuf, hhne, heq3⟩ | hzd
      · subst heq3
        rw [List.append_assoc]
        have hm : hsuf ∈ HEADING_START.tails := (List.mem_tails _ _).mpr hhsuf
        fin_cases hm
        · -- full HEADING_START: the level digits disagree
          cases h : (HEADING_START ++ [dc]).isPrefixOf
              (('_' :: '_' :: '_' :: 'T' :: 'Y' :: 'P' :: 'S' :: 'T' :: '_' :: 'H' :: []) ++
                ([digitChar d'] ++ (c' ++ (HEADING_END ++ R)))) with
          | false => rfl
          | true =>
            exfalso
            have h2 := isPrefixOf_append_drop h
            rw [show HEADING_START.length = 10 from by decide,
              List.drop_append_of_le_length (by decide)] at h2
            rw [show (('_' :: '_' :: '_' :: 'T' :: 'Y' :: 'P' :: 'S' :: 'T' :: '_' :: 'H' :: []) : Str).drop 10 = ([] : Str)
              from by decide, List.nil_append, List.singleton_append,
              isPrefixOf_cons_eq] at h2
            rw [Bool.and_eq_true] at h2
            have hdd : dc = digitChar d' := by simpa using h2.1
            exact hne2 hdd.symm
        · refine not_isPrefixOf_append _ 3 (by decide) ?_
          rw [List.take_append_of_le_length (by decide)]
          decide
        · refine not_isPrefixOf_append _ 2 (by decide) ?_
          rw [List.take_append_of_le_length (by decide)]
          decide
        · refine not_isPrefixOf_append _ 1 (by decide) ?_
          rw [List.take_append_of_le_length (by decide)]
          decide
        · refine not_isPrefixOf_append _ 1 (by decide) ?_
          rw [List.take_append_of_le_length (by decide)]
          decide
        · refine not_isPrefixOf_append _ 1 (by decide) ?_
          rw [List.take_append_of_le_length (by decide)]
          decide
        · refine not_isPrefixOf_append _ 1 (by decide) ?_
          rw [List.take_append_of_le_length (by decide)]
          decide
        · refine not_isPrefixOf_append _ 1 (by decide) ?_
          rw [List.take_append_of_le_length (by decide)]
          decide
        · refine not_isPrefixOf_append _ 2 (by decide) ?_
          rw [List.take_append_of_le_length (by decide)]
          decide
        · refine not_isPrefixOf_append _ 1 (by decide) ?_
          rw [List.take_append_of_le_length (by decide)]
          decide
        · exact absurd rfl hhne
      · -- suffix starting at the level digit
        rcases List.suffix_cons_iff.mp hzd with heq3 | hz2
        · subst heq3
          rw [show HEADING_START = '_' :: lit "__TYPST_H" from by decide,
            List.cons_append]
          exact isPrefixOf_cons_false _ _
            (fun h => digit_ne (digitChar_isDigit d') '_' (by decide) h.symm)
        · have : zsuf = [] := List.suffix_nil.mp hz2
          exact absurd this hzne
    · -- suffix starting inside the heading content
      cases h : (HEADING_START ++ [dc]).isPrefixOf
          (ysuf ++ (HEADING_END ++ R)) with
      | false => rfl
      | true =>
        exfalso
        rcases isPrefixOf_append_split h with ⟨hlen, hfit⟩ | ⟨hlt, htake, hcont⟩
        · have h1 : occurs TY (HEADING_START ++ [dc]) = true :=
            occurs_of_isPrefixOf (by decide : occurs TY HEADING_START = true)
              (isPrefixOf_append_self _ _)
          have h2 : occurs TY c' = true :=
            occurs_of_isSuffix (occurs_of_isPrefixOf h1 hfit) hyc
          rw [h2] at hTYc
          cases hTYc
        · have hol : (HEADING_START ++ [dc]).length = 11 := by
            rw [List.length_append, show HEADING_START.length = 10 from by decide]
            rfl
          rw [hol] at hlt
          have hk1 : 1 ≤ ysuf.length := by
            cases ysuf with
            | nil => exact absurd rfl hyne
            | cons a b => simp
          by_cases hk8 : 8 ≤ ysuf.length
          · have h1 : occurs TY ((HEADING_START ++ [dc]).take ysuf.length) = true :=
              occurs_TY_take
                (by rw [List.take_append_of_le_length (by decide)]; decide) hk8
            rw [htake] at h1
            have h2 : occurs TY c' = true := occurs_of_isSuffix h1 hyc
            rw [h2] at hTYc
            cases hTYc
          · have hHSl : HEADING_START.length = 10 := by decide
            have hdrop : (HEADING_START ++ [dc]).drop ysuf.length =
                HEADING_START.drop ysuf.length ++ [dc] :=
              List.drop_append_of_le_length (by omega)
            rw [hdrop] at hcont
            set k := ysuf.length with hk
            interval_cases k
            · rw [show HEADING_START.drop 1 = lit "__TYPST_H" from by decide] at hcont
              have := not_isPrefixOf_append (p := lit "__TYPST_H" ++ [dc])
                (x := HEADING_END) R 2 (by decide)
                (by rw [List.take_append_of_le_length (by decide)]; decide)
              rw [this] at hcont
              cases hcont
            · -- pattern tail _TYPST_H matches the start of HEADING_END:
              -- the digit meets the E
              rw [show HEADING_START.drop 2 = lit "_TYPST_H" from by decide] at hcont
              have h2 := isPrefixOf_append_drop hcont
              rw [show (lit "_TYPST_H").length = 8 from by decide,
                List.drop_append_of_le_length (by decide)] at h2
              rw [show HEADING_END.drop 8 = 'E' :: lit "ADING___" from by decide,
                List.cons_append, isPrefixOf_cons_eq] at h2
              simp only [List.isPrefixOf, Bool.and_true] at h2
              have hdcE : dc = 'E' := by simpa using h2
              exact digit_ne hdc 'E' (by decide) hdcE
            · rw [show HEADING_START.drop 3 = lit "TYPST_H" from by decide] at hcont
              have := not_isPrefixOf_append (p := lit "TYPST_H" ++ [dc])
                (x := HEADING_END) R 1 (by decide)
                (by rw [List.take_append_of_le_length (by decide)]; decide)
              rw [this] at hcont
              cases hcont
            · rw [show HEADING_START.drop 4 = lit "YPST_H" from by decide] at hcont
              have := not_isPrefixOf_append (p := lit "YPST_H" ++ [dc])
                (x := HEADING_END) R 1 (by decide)
                (by rw [List.take_append_of_le_length (by decide)]; decide)
              rw [this] at hcont
              cases hcont
            · rw [show HEADING_START.drop 5 = lit "PST_H" from by decide] at hcont
              have := not_isPrefixOf_append (p := lit "PST_H" ++ [dc])
                (x := HEADING_END) R 1 (by decide)
                (by rw [List.take_append_of_le_length (by decide)]; decide)
              rw [this] at hcont
              cases hcont
            · rw [show HEADING_START.drop 6 = lit "ST_H" from by decide] at hcont
              have := not_isPrefixOf_append (p := lit "ST_H" ++ [dc])
                (x := HEADING_END) R 1 (by decide)
                (by rw [List.take_append_of_le_length (by decide)]; decide)
              rw [this] at hcont
              cases hcont
            · rw [show HEADING_START.drop 7 = lit "T_H" from by decide] at hcont
              have := not_isPrefixOf_append (p := lit "T_H" ++ [dc])
                (x := HEADING_END) R 1 (by decide)
                (by rw [List.take_append_of_le_length (by decide)]; decide)
              rw [this] at hcont
              cases hcont
  · -- suffix of HEADING_END
    have hm : s' ∈ HEADING_END.tails := (List.mem_tails _ _).mpr hsHE
    fin_cases hm
    · refine not_isPrefixOf_append _ 2 (by decide) ?_
      rw [List.take_append_of_le_length (by decide)]
      decide
    · refine not_isPrefixOf_append _ 1 (by decide) ?_
      rw [List.take_append_of_le_length (by decide)]
      decide
    · refine not_isPrefixOf_append _ 1 (by decide) ?_
      rw [List.take_append_of_le_length (by decide)]
      decide
    · refine not_isPrefixOf_append _ 1 (by decide) ?_
      rw [List.take_append_of_le_length (by decide)]
      decide
    · refine not_isPrefixOf_append _ 1 (by decide) ?_
      rw [List.take_append_of_le_length (by decide)]
      decide
    · refine not_isPrefixOf_append _ 1 (by decide) ?_
      rw [List.take_append_of_le_length (by decide)]
      decide
    · refine not_isPrefixOf_append _ 2 (by decide) ?_
      rw [List.take_append_of_le_length (by decide)]
      decide
    · refine not_isPrefixOf_append _ 1 (by decide) ?_
      rw [List.take_append_of_le_length (by decide)]
      decide
    · refine not_isPrefixOf_append _ 1 (by decide) ?_
      rw [List.take_append_of_le_length (by decide)]
      decide
    · refine not_isPrefixOf_append _ 1 (by decide) ?_
      rw [List.take_append_of_le_length (by decide)]
      decide
    · refine not_isPrefixOf_append _ 1 (by decide) ?_
      rw [List.take_append_of_le_length (by decide)]
      decide
    · refine not_isPrefixOf_append _ 1 (by decide) ?_
      rw [List.take_append_of_le_length (by decide)]
      decide
    · refine not_isPrefixOf_append _ 1 (by decide) ?_
      rw [List.take_append_of_le_length (by decide)]
      decide
    · refine not_isPrefixOf_append _ 1 (by decide) ?_
      rw [List.take_append_of_le_length (by decide)]
      decide
    · exact noPrefOpn_under3 dc R hR
    · exact noPrefOpn_under2 dc R hR
    · exact noPrefOpn_under1 dc R hR
    · exact absurd rfl hne

theorem occurs_TY_take_mono {X : Str} {m k : Nat}
    (hm : occurs TY (X.take m) = true) (hk : m ≤ k) :
    occurs TY (X.take k) = true := by
  have hp : (X.take m).isPrefixOf (X.take k) = true := by
    have h := take_isPrefixOf m (X.take k)
    rwa [List.take_take, Nat.min_eq_left hk] at h
  exact occurs_of_isPrefixOf hm hp

theorem findClose_length (cls : Str) (minLen : Nat) (charOk : Char → Bool) :
    ∀ (f : Nat) (acc s content rest : Str),
      findClose cls minLen charOk f acc s = some (content, rest) →
      rest.length ≤ s.length := by
  intro f
  induction f with
  | zero => intro acc s content rest h; cases h
  | succ f ih =>
    intro acc s content rest h
    unfold findClose at h
    split at h
    · cases h
      simp only [List.length_drop]
      omega
    · cases s with
      | nil => cases h
      | cons c t =>
        have h2 : (if charOk c = true then
            findClose cls minLen charOk f (c :: acc) t else none) =
            some (content, rest) := h
        by_cases hok : charOk c = true
        · rw [if_pos hok] at h2
          have := ih _ _ _ _ h2
          simp only [List.length_cons]
          omega
        · rw [if_neg hok] at h2
          cases h2

theorem headRestoreFinder_consumes (opn cls eqs : Str) (hopn : opn ≠ []) :
    FinderConsumes (headRestoreFinder opn cls eqs) := by
  intro s r rest h
  unfold headRestoreFinder at h
  split at h
  · rename_i hpre
    split at h
    · rename_i content rest' hfc
      cases h
      have h1 := findClose_length _ _ _ _ _ _ _ _ hfc
      have h2 : opn.length ≤ s.length :=
        (List.isPrefixOf_iff_prefix.mp hpre).length_le
      have h3 : 0 < opn.length := List.length_pos.mpr hopn
      simp only [List.length_drop] at h1
      omega
    · cases h
  · cases h

theorem headRestoreFinder_none {opn cls eqs s : Str}
    (h : opn.isPrefixOf s = false) :
    headRestoreFinder opn cls eqs s = none := by
  unfold headRestoreFinder
  rw [h]
  rfl

/-- The lazy search for `HEADING_END` inside a heading placeholder
captures exactly the recorded content: the content carries no sentinel
letters, so no premature close can fire. -/
theorem findClose_heading (R : Str) :
    ∀ (c : Str), occurs TY c = false → ('\n' ∉ c) →
    ∀ (f : Nat) (acc : Str), c.length < f →
      findClose HEADING_END 0 (fun ch => ¬ ch = '\n') f acc
          (c ++ (HEADING_END ++ R)) =
        some (acc.reverse ++ c, R) := by
  intro c
  induction c with
  | nil =>
    intro _ _ f acc hf
    cases f with
    | zero => omega
    | succ f =>
      unfold findClose
      rw [List.nil_append]
      rw [if_pos ⟨by omega, isPrefixOf_append_self _ _⟩]
      rw [show HEADING_END.length = 17 from by decide]
      rw [show (HEADING_END ++ R).drop 17 = R from by
        rw [show (17 : Nat) = HEADING_END.length from by decide, List.drop_left]]
      simp
  | cons ch ct ih =>
    intro hTYc hnl f acc hf
    cases f with
    | zero => simp at hf
    | succ f =>
      have claim : HEADING_END.isPrefixOf
          ((ch :: ct) ++ (HEADING_END ++ R)) = false := by
        cases hcl : HEADING_END.isPrefixOf ((ch :: ct) ++ (HEADING_END ++ R)) with
        | false => rfl
        | true =>
          exfalso
          rcases isPrefixOf_append_split hcl with ⟨hlen, hfit⟩ | ⟨hlt, htake, hcont⟩
          · have h2 : occurs TY (ch :: ct) = true :=
              occurs_of_isPrefixOf (by decide : occurs TY HEADING_END = true) hfit
            rw [h2] at hTYc
            cases hTYc
          · have hk1 : 1 ≤ (ch :: ct).length := by simp
            by_cases hk6 : 6 ≤ (ch :: ct).length
            · have h1 : occurs TY (HEADING_END.take (ch :: ct).length) = true :=
                occurs_TY_take_mono (m := 6) (by decide) hk6
              rw [htake] at h1
              rw [h1] at hTYc
              cases hTYc
            · rw [show HEADING_END.length = 17 from by decide] at hlt
              set k := (ch :: ct).length with hkdef
              interval_cases k
              · rw [show HEADING_END.drop 1 = lit "TYPST_HEADING___" from by decide] at hcont
                rw [not_isPrefixOf_append _ 1 (by decide) (by decide)] at hcont
                cases hcont
              · rw [show HEADING_END.drop 2 = lit "YPST_HEADING___" from by decide] at hcont
                rw [not_isPrefixOf_append _ 1 (by decide) (by decide)] at hcont
                cases hcont
              · rw [show HEADING_END.drop 3 = lit "PST_HEADING___" from by decide] at hcont
                rw [not_isPrefixOf_append _ 1 (by decide) (by decide)] at hcont
                cases hcont
              · rw [show HEADING_END.drop 4 = lit "ST_HEADING___" from by decide] at hcont
                rw [not_isPrefixOf_append _ 1 (by decide) (by decide)] at hcont
                cases hcont
              · rw [show HEADING_END.drop 5 = lit "T_HEADING___" from by decide] at hcont
                rw [not_isPrefixOf_append _ 1 (by decide) (by decide)] at hcont
                cases hcont
      unfold findClose
      rw [List.cons_append]
      have hcond : ¬ ((0 : Nat) ≤ acc.length ∧ HEADING_END.isPrefixOf
          (ch :: (ct ++ (HEADING_END ++ R))) = true) := by
        intro hcon
        rw [← List.cons_append, claim] at hcon
        exact Bool.false_ne_true hcon.2
      rw [if_neg hcond]
      have hch : ch ≠ '\n' := fun h => hnl (h ▸ List.mem_cons_self ch ct)
      show (if (decide (¬ ch = '\n')) = true then
          findClose HEADING_END 0 (fun c => decide (¬ c = '\n')) f (ch :: acc)
            (ct ++ (HEADING_END ++ R))
        else none) = some (acc.reverse ++ ch :: ct, R)
      have hd : (decide (¬ ch = '\n')) = true := by simp [hch]
      rw [hd, if_pos rfl]
      have hTYct : occurs TY ct = false := (occurs_cons_false hTYc).2
      have hnlct : '\n' ∉ ct := fun h => hnl (List.mem_cons_of_mem ch h)
      rw [ih hTYct hnlct f (ch :: acc) (by simp at hf ⊢; omega)]
      simp

theorem headPH_ne_nil (d : Nat) (c : Str) : headPH d c ≠ [] := by
  intro h
  have h2 := congrArg List.length h
  rw [headPH] at h2
  simp only [List.length_append, List.length_nil, List.length_cons] at h2
  have h3 : HEADING_START.length = 10 := by decide
  omega

/-- At a heading placeholder of the matching level, the restoration
finder fires and captures exactly the recorded content. -/
theorem headRestoreFinder_match (dc : Char) (eqs : Str) (d : Nat) (c : Str)
    (hdd : digitChar d = dc) (hTYc : occurs TY c = false) (hnl : '\n' ∉ c)
    (R : Str) :
    headRestoreFinder (HEADING_START ++ [dc]) HEADING_END eqs
        (headPH d c ++ R) =
      some (eqs ++ lit " " ++ trim (unescape_typst_content c), R) := by
  subst hdd
  have hsA : headPH d c ++ R =
      (HEADING_START ++ [digitChar d]) ++ (c ++ (HEADING_END ++ R)) := by
    rw [headPH]
    simp [List.append_assoc]
  unfold headRestoreFinder
  rw [hsA]
  rw [if_pos (isPrefixOf_append_self _ _)]
  rw [List.drop_left]
  rw [findClose_heading R c hTYc hnl _ [] (by
    simp only [List.length_append]
    omega)]
  simp

/-- One plain heading-restoration pass at the atom level: every heading
placeholder of the matching level becomes restored text, everything else
is copied. -/
def mapHeadC (dc : Char) (eqs : Str) : List Atom → List Atom :=
  List.map (fun a => match a with
    | Atom.head d' c' =>
      if digitChar d' = dc then Atom.stext (eqs ++ ' ' :: c')
      else Atom.head d' c'
    | a => a)

theorem occurs_TY_cons_ne (c : Char) (hc : ¬ 'T' = c) (s : Str)
    (h : occurs TY s = false) : occurs TY (c :: s) = false := by
  rw [occurs_cons, h, Bool.or_false]
  rw [show TY = 'T' :: lit "YPST" from by decide]
  exact isPrefixOf_cons_false _ _ hc

theorem occurs_TY_stext (eqs : Str) (heqs : ∀ ch ∈ eqs, ch = '=')
    (c' : Str) (h : occurs TY c' = false) :
    occurs TY (eqs ++ ' ' :: c') = false := by
  induction eqs with
  | nil =>
    rw [List.nil_append]
    exact occurs_TY_cons_ne ' ' (by decide) c' h
  | cons e et ih =>
    have he : e = '=' := heqs e (List.mem_cons_self e et)
    subst he
    rw [List.cons_append]
    exact occurs_TY_cons_ne '=' (by decide) _
      (ih (fun ch hch => heqs ch (List.mem_cons_of_mem _ hch)))

/-- The plain heading-restoration pass, characterised on atom lists. -/
theorem headPass (dc : Char) (hdc : dc.isDigit = true) (eqs : Str) (n : Nat) :
    ∀ (atoms : List Atom), wfList n atoms →
      rewrite (headRestoreFinder (HEADING_START ++ [dc]) HEADING_END eqs)
          (renderAtoms atoms) =
        renderAtoms (mapHeadC dc eqs atoms) := by
  have hcons := headRestoreFinder_consumes (HEADING_START ++ [dc])
    HEADING_END eqs (by simp)
  intro atoms
  induction atoms with
  | nil => intro _; rfl
  | cons a rest ih =>
    intro hwf
    have hwfr := wfList_tail hwf
    have hok := wfList_head hwf
    have hR : ∀ j', 1 ≤ j' → j' ≤ 8 →
        (HEADING_START.drop j').isPrefixOf (renderAtoms rest) = false :=
      spillShared HEADING_START (by decide) 'H' [] (by decide) (by decide)
        n rest hwfr
    rw [renderAtoms_cons]
    cases a with
    | otext t =>
      obtain ⟨htne, hTY, hu⟩ := hok
      show rewrite _ (t ++ renderAtoms rest) = _
      rw [rewrite_chunk hcons t (renderAtoms rest) (fun t' ht' hne =>
        headRestoreFinder_none
          (noPrefOpn_otext dc t hu (renderAtoms rest) hR t' ht' hne))]
      rw [ih hwfr]
      simp [mapHeadC, renderAtoms_cons, renderAtom]
    | stext t =>
      obtain ⟨hTY, hstart, hend⟩ := hok
      show rewrite _ (t ++ renderAtoms rest) = _
      rw [rewrite_chunk hcons t (renderAtoms rest) (fun t' ht' hne =>
        headRestoreFinder_none
          (noPrefOpn_stext dc t hTY (renderAtoms rest) hR t' ht' hne))]
      rw [ih hwfr]
      simp [mapHeadC, renderAtoms_cons, renderAtom]
    | math i =>
      rw [show renderAtom (Atom.math i) = mathPH i from rfl]
      rw [rewrite_chunk hcons (mathPH i) (renderAtoms rest) (fun t' ht' hne =>
        headRestoreFinder_none
          (noPrefOpn_math dc i (renderAtoms rest) hR t' ht' hne))]
      rw [ih hwfr]
      simp [mapHeadC, renderAtoms_cons, renderAtom]
    | head d' c' =>
      obtain ⟨hd1, hd2, hTYc, hnlc, hbsc, htr⟩ := hok
      rw [show renderAtom (Atom.head d' c') = headPH d' c' from rfl]
      by_cases hdd : digitChar d' = dc
      · have hfind := headRestoreFinder_match dc eqs d' c' hdd hTYc hnlc
          (renderAtoms rest)
        rw [rewrite_match hcons (headPH_ne_nil d' c') hfind]
        rw [ih hwfr]
        rw [unescape_id c' hbsc, htr]
        simp [mapHeadC, renderAtoms_cons, renderAtom, hdd, lit,
          List.append_assoc]
      · rw [rewrite_chunk hcons (headPH d' c') (renderAtoms rest)
          (fun t' ht' hne => headRestoreFinder_none
            (noPrefOpn_head dc hdc d' c' (fun h => hdd h) hTYc
              (renderAtoms rest) hR t' ht' hne))]
        rw [ih hwfr]
        simp [mapHeadC, renderAtoms_cons, renderAtom, hdd]

theorem sepB_cons_of_not_otext {a : Atom} (h : notOtextHead [a])
    (rest : List Atom) : sepB (a :: rest) = sepB rest := by
  cases a with
  | otext t => exact absurd h (by simp [notOtextHead])
  | stext t => rfl
  | math i => rfl
  | head d c => rfl

theorem sepB_mapHeadC (dc : Char) (eqs : Str) :
    ∀ atoms, sepB atoms = true → sepB (mapHeadC dc eqs atoms) = true := by
  intro atoms
  induction atoms with
  | nil => intro _; rfl
  | cons a rest ih =>
    intro h
    cases a with
    | otext t =>
      cases rest with
      | nil => rfl
      | cons b rest2 =>
        cases b with
        | otext u => exact absurd h (by simp [sepB])
        | stext u =>
          have h2 : sepB (Atom.stext u :: rest2) = true := h
          exact ih h2
        | math i =>
          have h2 : sepB (Atom.math i :: rest2) = true := h
          have h3 := ih h2
          show sepB (Atom.otext t :: Atom.math i :: mapHeadC dc eqs rest2) = true
          exact h3
        | head d' c' =>
          have h2 : sepB (Atom.head d' c' :: rest2) = true := h
          show sepB (Atom.otext t ::
            (if digitChar d' = dc then Atom.stext (eqs ++ ' ' :: c')
             else Atom.head d' c') :: mapHeadC dc eqs rest2) = true
          by_cases hdd : digitChar d' = dc
          · rw [if_pos hdd]
            have h4 : sepB ((if digitChar d' = dc then
                Atom.stext (eqs ++ ' ' :: c') else Atom.head d' c') ::
                mapHeadC dc eqs rest2) = true := ih h2
            rw [if_pos hdd] at h4
            exact h4
          · rw [if_neg hdd]
            have h4 : sepB ((if digitChar d' = dc then
                Atom.stext (eqs ++ ' ' :: c') else Atom.head d' c') ::
                mapHeadC dc eqs rest2) = true := ih h2
            rw [if_neg hdd] at h4
            exact h4
    | stext t => exact ih h
    | math i => exact ih h
    | head d' c' =>
      show sepB ((if digitChar d' = dc then Atom.stext (eqs ++ ' ' :: c')
          else Atom.head d' c') :: mapHeadC dc eqs rest) = true
      by_cases hdd : digitChar d' = dc
      · rw [if_pos hdd]
        exact ih h
      · rw [if_neg hdd]
        exact ih h

theorem wf_mapHeadC (dc : Char) (eqs : Str) (hene : eqs ≠ [])
    (heqs : ∀ ch ∈ eqs, ch = '=') (n : Nat) :
    ∀ atoms, wfList n atoms → wfList n (mapHeadC dc eqs atoms) := by
  intro atoms hwf
  refine ⟨?_, sepB_mapHeadC dc eqs atoms hwf.2⟩
  intro a ha
  obtain ⟨b, hb, hfb⟩ := List.mem_map.mp ha
  have hok := hwf.1 b hb
  cases b with
  | otext t => rw [← hfb]; exact hok
  | stext t => rw [← hfb]; exact hok
  | math i => rw [← hfb]; exact hok
  | head d' c' =>
    obtain ⟨hd1, hd2, hTYc, hnlc, hbsc, htr⟩ := hok
    have hfb2 : (if digitChar d' = dc then Atom.stext (eqs ++ ' ' :: c')
        else Atom.head d' c') = a := hfb
    by_cases hdd : digitChar d' = dc
    · rw [if_pos hdd] at hfb2
      rw [← hfb2]
      refine ⟨occurs_TY_stext eqs heqs c' hTYc, ?_, ?_⟩
      · cases eqs with
        | nil => exact absurd rfl hene
        | cons e et =>
          have he : e = '=' := heqs e (List.mem_cons_self e et)
          subst he
          rfl
      · unfold safeEndB
        have hbs : '\\' ∉ eqs ++ ' ' :: c' := by
          intro hmem
          rcases List.mem_append.mp hmem with h2 | h2
          · exact absurd (heqs _ h2) (by decide)
          · rcases List.mem_cons.mp h2 with h3 | h3
            · exact absurd h3 (by decide)
            · exact hbsc h3
        rw [decide_eq_true hbs, Bool.true_or]
    · rw [if_neg hdd] at hfb2
      rw [← hfb2]
      exact ⟨hd1, hd2, hTYc, hnlc, hbsc, htr⟩

theorem bs_not_mem_mathPH (i : Nat) : '\\' ∉ mathPH i := by
  intro h
  rw [mathPH] at h
  rcases List.mem_append.mp h with h2 | h2
  · rcases List.mem_append.mp h2 with h3 | h3
    · exact absurd h3 (by decide)
    · exact digit_ne (natRepr_digits i _ h3) '\\' (by decide) rfl
  · exact absurd h2 (by decide)

theorem bs_not_mem_headPH (d : Nat) (c : Str) (hbs : '\\' ∉ c) :
    '\\' ∉ headPH d c := by
  intro h
  rw [headPH] at h
  rcases List.mem_append.mp h with h2 | h2
  · rcases List.mem_append.mp h2 with h3 | h3
    · rcases List.mem_append.mp h3 with h4 | h4
      · exact absurd h4 (by decide)
      · rcases List.mem_cons.mp h4 with h5 | h5
        · exact digit_ne (digitChar_isDigit d) '\\' (by decide) h5.symm
        · cases h5
    · exact hbs h3
  · exact absurd h2 (by decide)

/-- A match of a pattern with a known head character puts that character
at the front of the (nonempty) first part. -/
theorem head_mem_of_isPrefixOf_append {c : Char} {pt a' R : Str}
    (h : (c :: pt).isPrefixOf (a' ++ R) = true) (hne : a' ≠ []) :
    c ∈ a' := by
  cases a' with
  | nil => exact absurd rfl hne
  | cons x xs =>
    rw [List.cons_append, isPrefixOf_cons_eq, Bool.and_eq_true] at h
    have : c = x := by simpa using h.1
    rw [this]
    exact List.mem_cons_self x xs

theorem getLast?_append_right :
    ∀ (l1 l2 : Str), l2 ≠ [] → (l1 ++ l2).getLast? = l2.getLast? := by
  intro l1
  induction l1 with
  | nil => intro l2 _; rw [List.nil_append]
  | cons c t ih =>
    intro l2 h2
    rw [List.cons_append]
    cases hty : t ++ l2 with
    | nil =>
      exact absurd (List.append_eq_nil.mp hty).2 h2
    | cons y ys =>
      rw [List.getLast?_cons_cons]
      rw [← hty]
      exact ih l2 h2

theorem getLast?_suffix {a' t : Str} (h : a' <:+ t) (hne : a' ≠ []) :
    t.getLast? = a'.getLast? := by
  obtain ⟨pre, hpre⟩ := h
  rw [← hpre]
  exact getLast?_append_right pre a' hne

theorem mem_of_getLast?_eq :
    ∀ {l : Str} {c : Char}, l.getLast? = some c → c ∈ l := by
  intro l
  induction l with
  | nil => intro c h; cases h
  | cons a t ih =>
    intro c h
    cases t with
    | nil =>
      have : a = c := by simpa using h
      rw [this]
      exact List.mem_cons_self c []
    | cons b t2 =>
      rw [List.getLast?_cons_cons] at h
      exact List.mem_cons_of_mem a (ih h)

theorem escDrop_head :
    ∀ k, 1 ≤ k → k ≤ 13 → ∃ ph pt, escapedHS.drop k = ph :: pt ∧
      ¬ ph = '=' ∧ ¬ ph = '$' ∧ ¬ ph = '\n' := by
  intro k h1 h2
  interval_cases k
  · exact ⟨'_', lit "\\_\\_TYPST\\_H", by decide, by decide, by decide, by decide⟩
  · exact ⟨'\\', lit "_\\_TYPST\\_H", by decide, by decide, by decide, by decide⟩
  · exact ⟨'_', lit "\\_TYPST\\_H", by decide, by decide, by decide, by decide⟩
  · exact ⟨'\\', lit "_TYPST\\_H", by decide, by decide, by decide, by decide⟩
  · exact ⟨'_', lit "TYPST\\_H", by decide, by decide, by decide, by decide⟩
  · exact ⟨'T', lit "YPST\\_H", by decide, by decide, by decide, by decide⟩
  · exact ⟨'Y', lit "PST\\_H", by decide, by decide, by decide, by decide⟩
  · exact ⟨'P', lit "ST\\_H", by decide, by decide, by decide, by decide⟩
  · exact ⟨'S', lit "T\\_H", by decide, by decide, by decide, by decide⟩
  · exact ⟨'T', lit "\\_H", by decide, by decide, by decide, by decide⟩
  · exact ⟨'\\', lit "_H", by decide, by decide, by decide, by decide⟩
  · exact ⟨'_', lit "H", by decide, by decide, by decide, by decide⟩
  · exact ⟨'H', ([] : Str), by decide, by decide, by decide, by decide⟩

/-- Tails of the escaped heading opener never continue into the rendering
of a well-formed list not starting with ordinary text. -/
theorem spillEsc (n : Nat) (rest : List Atom) (hwf : wfList n rest)
    (hno : notOtextHead rest) :
    ∀ k, 1 ≤ k → k ≤ 13 →
      (escapedHS.drop k).isPrefixOf (renderAtoms rest) = false := by
  intro k hk1 hk2
  have hlen : escapedHS.length = 14 := by decide
  cases rest with
  | nil =>
    rw [renderAtoms_nil]
    cases h : (escapedHS.drop k).isPrefixOf [] with
    | false => rfl
    | true =>
      have h2 := congrArg List.length (isPrefixOf_nil_elim h)
      simp only [List.length_drop, List.length_nil] at h2
      omega
  | cons b rest2 =>
    have hok := wfList_head hwf
    rw [renderAtoms_cons]
    cases b with
    | otext t => exact absurd hno (by simp [notOtextHead])
    | stext t =>
      obtain ⟨hTY, hstart, hend⟩ := hok
      cases t with
      | nil => exact absurd hstart (by simp [safeStartB])
      | cons c t2 =>
        show (escapedHS.drop k).isPrefixOf ((c :: t2) ++ renderAtoms rest2) = false
        obtain ⟨ph, pt, he, h1, h2, h3⟩ := escDrop_head k hk1 hk2
        rw [he, List.cons_append]
        refine isPrefixOf_cons_false _ _ ?_
        have hcor : (c = '=' ∨ c = '$') ∨ c = '\n' := by
          simpa [safeStartB] using hstart
        rw [or_assoc] at hcor
        rcases hcor with h | h | h <;> subst h
        · exact h1
        · exact h2
        · exact h3
    | math i =>
      show (escapedHS.drop k).isPrefixOf (mathPH i ++ renderAtoms rest2) = false
      rw [show mathPH i ++ renderAtoms rest2 =
        MATH_START ++ (natRepr i ++ MATH_END ++ renderAtoms rest2) from by
          rw [mathPH]; simp [List.append_assoc]]
      interval_cases k <;>
        · refine not_isPrefixOf_append _ 2 (by decide) ?_
          decide
    | head d c =>
      show (escapedHS.drop k).isPrefixOf (headPH d c ++ renderAtoms rest2) = false
      rw [show headPH d c ++ renderAtoms rest2 =
        HEADING_START ++ ([digitChar d] ++ (c ++ (HEADING_END ++ renderAtoms rest2)))
          from by rw [headPH]; simp [List.append_assoc]]
      interval_cases k <;>
        · refine not_isPrefixOf_append _ 2 (by decide) ?_
          decide

/-- The escaped heading opener (which begins with a backslash) never
matches anywhere in the rendering of a well-formed atom list: placeholders
carry no backslash, restored chunks with backslashes end in `$` or a
newline, and inside escaped text the partially matched opener dies on the
following material. -/
theorem noPrefEsc (dc : Char) (hdc : dc.isDigit = true) (n : Nat) :
    ∀ atoms, wfList n atoms → ∀ s', s' <:+ renderAtoms atoms → s' ≠ [] →
      (escapedHS ++ [dc]).isPrefixOf s' = false := by
  intro atoms
  induction atoms with
  | nil =>
    intro _ s' hs hne
    rw [renderAtoms_nil] at hs
    exact absurd (List.suffix_nil.mp hs) hne
  | cons a rest ih =>
    intro hwf s' hs hne
    have hwfr := wfList_tail hwf
    have hok := wfList_head hwf
    rw [renderAtoms_cons] at hs
    rcases suffix_append_split hs with ⟨a', ha', hane, heq⟩ | hs2
    · subst heq
      cases h : (escapedHS ++ [dc]).isPrefixOf (a' ++ renderAtoms rest) with
      | false => rfl
      | true =>
        exfalso
        have hTYe : occurs TY (escapedHS ++ [dc]) = true :=
          occurs_of_isPrefixOf (by decide : occurs TY escapedHS = true)
            (isPrefixOf_append_self _ _)
        have hlene : (escapedHS ++ [dc]).length = 15 := by
          rw [List.length_append, show escapedHS.length = 14 from by decide]
          rfl
        have hconsrw : escapedHS ++ [dc] =
            '\\' :: (lit "_\\_\\_TYPST\\_H" ++ [dc]) := by
          rw [show escapedHS = '\\' :: lit "_\\_\\_TYPST\\_H" from by decide,
            List.cons_append]
        cases a with
        | otext t =>
          obtain ⟨htne, hTY, hu⟩ := hok
          have hsub : a' <:+ t := ha'
          rcases isPrefixOf_append_split h with ⟨hlen, hfit⟩ | ⟨hlt, htake, hcont⟩
          · have h2 : occurs TY t = true :=
              occurs_of_isSuffix (occurs_of_isPrefixOf hTYe hfit) hsub
            rw [h2] at hTY
            cases hTY
          · rw [hlene] at hlt
            have hk1 : 1 ≤ a'.length := by
              cases a' with
              | nil => exact absurd rfl hane
              | cons x y => simp
            by_cases hk11 : 11 ≤ a'.length
            · have h1 : occurs TY ((escapedHS ++ [dc]).take a'.length) = true := by
                refine occurs_TY_take_mono (m := 11) ?_ hk11
                rw [List.take_append_of_le_length (by decide)]
                decide
              rw [htake] at h1
              have h2 : occurs TY t = true := occurs_of_isSuffix h1 hsub
              rw [h2] at hTY
              cases hTY
            · have hdrop : (escapedHS ++ [dc]).drop a'.length =
                  escapedHS.drop a'.length ++ [dc] :=
                List.drop_append_of_le_length (by
                  rw [show escapedHS.length = 14 from by decide]; omega)
              rw [hdrop] at hcont
              have h2 := isPrefixOf_append_left hcont
              have hno : notOtextHead rest := sepB_notOtextHead hwf.2
              rw [spillEsc n rest hwfr hno a'.length hk1 (by omega)] at h2
              cases h2
        | stext t =>
          obtain ⟨hTY, hstart, hend⟩ := hok
          have hsub : a' <:+ t := ha'
          rcases isPrefixOf_append_split h with ⟨hlen, hfit⟩ | ⟨hlt, htake, hcont⟩
          · have h2 : occurs TY t = true :=
              occurs_of_isSuffix (occurs_of_isPrefixOf hTYe hfit) hsub
            rw [h2] at hTY
            cases hTY
          · have hbsA : '\\' ∈ a' := by
              rw [hconsrw] at h
              exact head_mem_of_isPrefixOf_append h hane
            have hbst : '\\' ∈ t := hsub.subset hbsA
            unfold safeEndB at hend
            rw [Bool.or_eq_true] at hend
            rcases hend with h1 | h1
            · exact (of_decide_eq_true h1) hbst
            · cases hlast : t.getLast? with
              | none => rw [hlast] at h1; cases h1
              | some c0 =>
                rw [hlast] at h1
                have hc0or : c0 = '$' ∨ c0 = '\n' := by simpa using h1
                have hgl : t.getLast? = a'.getLast? := getLast?_suffix hsub hane
                have hc0a : c0 ∈ a' := mem_of_getLast?_eq (by rw [← hgl, hlast])
                rw [← htake] at hc0a
                have hc0e : c0 ∈ escapedHS ++ [dc] := List.take_subset _ _ hc0a
                rcases List.mem_append.mp hc0e with h2 | h2
                · rcases hc0or with h3 | h3 <;> subst h3
                  · exact absurd h2 (by decide)
                  · exact absurd h2 (by decide)
                · rcases List.mem_cons.mp h2 with h3 | h3
                  · rcases hc0or with h4 | h4 <;> rw [h4] at h3
                    · exact digit_ne hdc '$' (by decide) h3.symm
                    · exact digit_ne hdc '\n' (by decide) h3.symm
                  · cases h3
        | math i =>
          rw [hconsrw] at h
          have hbsA : '\\' ∈ a' := head_mem_of_isPrefixOf_append h hane
          have hsub : a' <:+ mathPH i := ha'
          exact bs_not_mem_mathPH i (hsub.subset hbsA)
        | head d c =>
          obtain ⟨hd1, hd2, hTYc, hnlc, hbsc, htr⟩ := hok
          rw [hconsrw] at h
          have hbsA : '\\' ∈ a' := head_mem_of_isPrefixOf_append h hane
          have hsub : a' <:+ headPH d c := ha'
          exact bs_not_mem_headPH d c hbsc (hsub.subset hbsA)
    · exact ih hwfr s' hs2 hne

/-- The escaped heading-restoration pass is the identity on well-formed
renderings. -/
theorem escHeadPass (dc : Char) (hdc : dc.isDigit = true) (eqs : Str)
    (n : Nat) (atoms : List Atom) (hwf : wfList n atoms) :
    rewrite (headRestoreFinder (escapedHS ++ [dc]) escapedHE eqs)
        (renderAtoms atoms) = renderAtoms atoms := by
  refine rewrite_id_of_none
    (headRestoreFinder_consumes _ _ _ (by simp)) _ (fun t' ht' hne => ?_)
  exact headRestoreFinder_none (noPrefEsc dc hdc n atoms hwf t' ht' hne)

/-- One heading-restoration level on a rendering: the plain-marker pass
replaces the matching `head` atoms, the escaped-marker pass is the
identity. -/
theorem restoreLevel_atoms (dc : Char) (hdc : dc.isDigit = true) (eqs : Str)
    (hene : eqs ≠ []) (heqs : ∀ ch ∈ eqs, ch = '=') (n : Nat)
    (atoms : List Atom) (hwf : wfList n atoms) :
    restoreHeadingLevel dc eqs (renderAtoms atoms) =
      renderAtoms (mapHeadC dc eqs atoms) := by
  show rewrite (headRestoreFinder (escapedHS ++ [dc]) escapedHE eqs)
      (rewrite (headRestoreFinder (HEADING_START ++ [dc]) HEADING_END eqs)
        (renderAtoms atoms)) = _
  rw [headPass dc hdc eqs n atoms hwf]
  exact escHeadPass dc hdc eqs n (mapHeadC dc eqs atoms)
    (wf_mapHeadC dc eqs hene heqs n atoms hwf)

/-- The atom-level effect of `restore_headings`: the four level maps
applied in source order. -/
def mapHeads (atoms : List Atom) : List Atom :=
  mapHeadC '4' (lit "====") (mapHeadC '3' (lit "===")
    (mapHeadC '2' (lit "==") (mapHeadC '1' (lit "=") atoms)))

theorem wf_mapHeads (n : Nat) (atoms : List Atom) (hwf : wfList n atoms) :
    wfList n (mapHeads atoms) :=
  wf_mapHeadC '4' (lit "====") (by decide) (by decide) n _
    (wf_mapHeadC '3' (lit "===") (by decide) (by decide) n _
      (wf_mapHeadC '2' (lit "==") (by decide) (by decide) n _
        (wf_mapHeadC '1' (lit "=") (by decide) (by decide) n atoms hwf)))

theorem restore_headings_atoms (n : Nat) (atoms : List Atom)
    (hwf : wfList n atoms) :
    restore_headings (renderAtoms atoms) = renderAtoms (mapHeads atoms) := by
  have hwf1 := wf_mapHeadC '1' (lit "=") (by decide) (by decide) n atoms hwf
  have hwf2 := wf_mapHeadC '2' (lit "==") (by decide) (by decide) n _ hwf1
  have hwf3 := wf_mapHeadC '3' (lit "===") (by decide) (by decide) n _ hwf2
  unfold restore_headings
  rw [restoreLevel_atoms '1' (by decide) (lit "=") (by decide) (by decide)
    n atoms hwf]
  rw [restoreLevel_atoms '2' (by decide) (lit "==") (by decide) (by decide)
    n _ hwf1]
  rw [restoreLevel_atoms '3' (by decide) (lit "===") (by decide) (by decide)
    n _ hwf2]
  rw [restoreLevel_atoms '4' (by decide) (lit "====") (by decide) (by decide)
    n _ hwf3]
  rfl

/-- Whether an atom is an unrestored heading placeholder. -/
def isHead : Atom → Bool
  | Atom.head _ _ => true
  | _ => false

theorem head_mem_mapHeadC {dc : Char} {eqs : Str} {atoms : List Atom}
    {d : Nat} {c : Str} (h : Atom.head d c ∈ mapHeadC dc eqs atoms) :
    Atom.head d c ∈ atoms ∧ ¬ digitChar d = dc := by
  obtain ⟨b, hb, hfb⟩ := List.mem_map.mp h
  cases b with
  | otext t =>
    have h2 : Atom.otext t = Atom.head d c := hfb
    exact Atom.noConfusion h2
  | stext t =>
    have h2 : Atom.stext t = Atom.head d c := hfb
    exact Atom.noConfusion h2
  | math i =>
    have h2 : Atom.math i = Atom.head d c := hfb
    exact Atom.noConfusion h2
  | head d' c' =>
    have h2 : (if digitChar d' = dc then Atom.stext (eqs ++ ' ' :: c')
        else Atom.head d' c') = Atom.head d c := hfb
    by_cases hdd : digitChar d' = dc
    · rw [if_pos hdd] at h2
      exact Atom.noConfusion h2
    · rw [if_neg hdd] at h2
      injection h2 with h3 h4
      subst h3
      subst h4
      exact ⟨hb, hdd⟩

/-- After all four levels of heading restoration, no heading placeholder
atom remains: every well-formed heading level lies in 1..4 and is caught
by its level's pass. -/
theorem noHead_mapHeads (n : Nat) (atoms : List Atom) (hwf : wfList n atoms) :
    ∀ a ∈ mapHeads atoms, isHead a = false := by
  intro a ha
  cases a with
  | otext t => rfl
  | stext t => rfl
  | math i => rfl
  | head d c =>
    exfalso
    have ha4 : Atom.head d c ∈ mapHeadC '4' (lit "====")
        (mapHeadC '3' (lit "===") (mapHeadC '2' (lit "==")
          (mapHeadC '1' (lit "=") atoms))) := ha
    obtain ⟨h3m, hne4⟩ := head_mem_mapHeadC ha4
    obtain ⟨h2m, hne3⟩ := head_mem_mapHeadC h3m
    obtain ⟨h1m, hne2⟩ := head_mem_mapHeadC h2m
    obtain ⟨h0m, hne1⟩ := head_mem_mapHeadC h1m
    obtain ⟨hd1, hd2, -, -, -, -⟩ := hwf.1 _ h0m
    interval_cases d
    · exact hne1 (by decide)
    · exact hne2 (by decide)
    · exact hne3 (by decide)
    · exact hne4 (by decide)

/-!
### The math-restoration phase
-/

/-- `MATH_START` with every underscore escaped. -/
def eMS : Str := lit "\\_\\_\\_TYPST\\_MATH\\_"

/-- `MATH_END` with every underscore escaped. -/
def eME : Str := lit "\\_TYPST\\_MATH\\_\\_\\_"

theorem cmap_id_of (f : Char → Str) :
    ∀ (s : Str), (∀ ch ∈ s, f ch = [ch]) → cmap f s = s := by
  intro s
  induction s with
  | nil => intro _; rfl
  | cons c t ih =>
    intro h
    show f c ++ cmap f t = c :: t
    rw [h c (List.mem_cons_self c t),
      ih (fun ch hch => h ch (List.mem_cons_of_mem c hch))]
    rfl

/-- The underscore-escaped math placeholder, decomposed: the escape map
distributes over the sentinel parts and leaves the digits unchanged. -/
theorem eph_eq (i : Nat) :
    replaceAll (lit "_") (lit "\\_") (mathPH i) = eMS ++ (natRepr i ++ eME) := by
  rw [show (lit "_" : Str) = ['_'] from rfl, replaceAll_single_eq]
  rw [mathPH, cmap_append, cmap_append]
  rw [cmap_id_of _ (natRepr i) (fun ch hch => by
    rw [if_neg (fun h => absurd (natRepr_digits i ch hch) (by rw [h]; decide))])]
  rw [show cmap (fun x => if x = '_' then lit "\\_" else [x]) MATH_START = eMS
    from by decide]
  rw [show cmap (fun x => if x = '_' then lit "\\_" else [x]) MATH_END = eME
    from by decide]
  rw [List.append_assoc]

theorem replFinder_none {pat rep s : Str} (h : pat.isPrefixOf s = false) :
    replFinder pat rep s = none := by
  unfold replFinder
  split
  · rename_i hc
    rw [hc.2] at h
    cases h
  · rfl

theorem eMSDrop_head :
    ∀ k, 1 ≤ k → k ≤ 10 → ∃ ph pt, eMS.drop k = ph :: pt ∧
      ¬ ph = '=' ∧ ¬ ph = '$' ∧ ¬ ph = '\n' := by
  intro k h1 h2
  interval_cases k
  · exact ⟨'_', lit "\\_\\_TYPST\\_MATH\\_", by decide, by decide, by decide,
      by decide⟩
  · exact ⟨'\\', lit "_\\_TYPST\\_MATH\\_", by decide, by decide, by decide,
      by decide⟩
  · exact ⟨'_', lit "\\_TYPST\\_MATH\\_", by decide, by decide, by decide,
      by decide⟩
  · exact ⟨'\\', lit "_TYPST\\_MATH\\_", by decide, by decide, by decide,
      by decide⟩
  · exact ⟨'_', lit "TYPST\\_MATH\\_", by decide, by decide, by decide,
      by decide⟩
  · exact ⟨'T', lit "YPST\\_MATH\\_", by decide, by decide, by decide,
      by decide⟩
  · exact ⟨'Y', lit "PST\\_MATH\\_", by decide, by decide, by decide,
      by decide⟩
  · exact ⟨'P', lit "ST\\_MATH\\_", by decide, by decide, by decide,
      by decide⟩
  · exact ⟨'S', lit "T\\_MATH\\_", by decide, by decide, by decide,
      by decide⟩
  · exact ⟨'T', lit "\\_MATH\\_", by decide, by decide, by decide,
      by decide⟩

/-- Tails of the escaped math opener never continue into the rendering of
a well-formed list not starting with ordinary text. -/
theorem spillEph (n : Nat) (rest : List Atom) (hwf : wfList n rest)
    (hno : notOtextHead rest) :
    ∀ k, 1 ≤ k → k ≤ 10 →
      (eMS.drop k).isPrefixOf (renderAtoms rest) = false := by
  intro k hk1 hk2
  have hlen : eMS.length = 19 := by decide
  cases rest with
  | nil =>
    rw [renderAtoms_nil]
    cases h : (eMS.drop k).isPrefixOf [] with
    | false => rfl
    | true =>
      have h2 := congrArg List.length (isPrefixOf_nil_elim h)
      simp only [List.length_drop, List.length_nil] at h2
      omega
  | cons b rest2 =>
    have hok := wfList_head hwf
    rw [renderAtoms_cons]
    cases b with
    | otext t => exact absurd hno (by simp [notOtextHead])
    | stext t =>
      obtain ⟨hTY, hstart, hend⟩ := hok
      cases t with
      | nil => exact absurd hstart (by simp [safeStartB])
      | cons c t2 =>
        show (eMS.drop k).isPrefixOf ((c :: t2) ++ renderAtoms rest2) = false
        obtain ⟨ph, pt, he, h1, h2, h3⟩ := eMSDrop_head k hk1 hk2
        rw [he, List.cons_append]
        refine isPrefixOf_cons_false _ _ ?_
        have hcor : (c = '=' ∨ c = '$') ∨ c = '\n' := by
          simpa [safeStartB] using hstart
        rw [or_assoc] at hcor
        rcases hcor with h | h | h <;> subst h
        · exact h1
        · exact h2
        · exact h3
    | math i =>
      show (eMS.drop k).isPrefixOf (mathPH i ++ renderAtoms rest2) = false
      rw [show mathPH i ++ renderAtoms rest2 =
        MATH_START ++ (natRepr i ++ MATH_END ++ renderAtoms rest2) from by
          rw [mathPH]; simp [List.append_assoc]]
      interval_cases k <;>
        · refine not_isPrefixOf_append _ 2 (by decide) ?_
          decide
    | head d c =>
      show (eMS.drop k).isPrefixOf (headPH d c ++ renderAtoms rest2) = false
      rw [show headPH d c ++ renderAtoms rest2 =
        HEADING_START ++ ([digitChar d] ++ (c ++ (HEADING_END ++ renderAtoms rest2)))
          from by rw [headPH]; simp [List.append_assoc]]
      interval_cases k <;>
        · refine not_isPrefixOf_append _ 2 (by decide) ?_
          decide

/-- The escaped math placeholder (which begins with a backslash) never
matches anywhere in the rendering of a well-formed atom list. -/
theorem noPrefEph (i : Nat) (n : Nat) :
    ∀ atoms, wfList n atoms → ∀ s', s' <:+ renderAtoms atoms → s' ≠ [] →
      (eMS ++ (natRepr i ++ eME)).isPrefixOf s' = false := by
  intro atoms
  induction atoms with
  | nil =>
    intro _ s' hs hne
    rw [renderAtoms_nil] at hs
    exact absurd (List.suffix_nil.mp hs) hne
  | cons a rest ih =>
    intro hwf s' hs hne
    have hwfr := wfList_tail hwf
    have hok := wfList_head hwf
    rw [renderAtoms_cons] at hs
    rcases suffix_append_split hs with ⟨a', ha', hane, heq⟩ | hs2
    · subst heq
      cases h : (eMS ++ (natRepr i ++ eME)).isPrefixOf (a' ++ renderAtoms rest) with
      | false => rfl
      | true =>
        exfalso
        have hTYe : occurs TY (eMS ++ (natRepr i ++ eME)) = true :=
          occurs_of_isPrefixOf (by decide : occurs TY eMS = true)
            (isPrefixOf_append_self _ _)
        have hconsrw : eMS ++ (natRepr i ++ eME) =
            '\\' :: (lit "_\\_\\_TYPST\\_MATH\\_" ++ (natRepr i ++ eME)) := by
          rw [show eMS = '\\' :: lit "_\\_\\_TYPST\\_MATH\\_" from by decide,
            List.cons_append]
        cases a with
        | otext t =>
          obtain ⟨htne, hTY, hu⟩ := hok
          have hsub : a' <:+ t := ha'
          rcases isPrefixOf_append_split h with ⟨hlen, hfit⟩ | ⟨hlt, htake, hcont⟩
          · have h2 : occurs TY t = true :=
              occurs_of_isSuffix (occurs_of_isPrefixOf hTYe hfit) hsub
            rw [h2] at hTY
            cases hTY
          · have hk1 : 1 ≤ a'.length := by
              cases a' with
              | nil => exact absurd rfl hane
              | cons x y => simp
            by_cases hk11 : 11 ≤ a'.length
            · have h1 : occurs TY ((eMS ++ (natRepr i ++ eME)).take a'.length) = true := by
                refine occurs_TY_take_mono (m := 11) ?_ hk11
                rw [List.take_append_of_le_length (by decide)]
                decide
              rw [htake] at h1
              have h2 : occurs TY t = true := occurs_of_isSuffix h1 hsub
              rw [h2] at hTY
              cases hTY
            · have hdrop : (eMS ++ (natRepr i ++ eME)).drop a'.length =
                  eMS.drop a'.length ++ (natRepr i ++ eME) :=
                List.drop_append_of_le_length (by
                  rw [show eMS.length = 19 from by decide]; omega)
              rw [hdrop] at hcont
              have h2 := isPrefixOf_append_left hcont
              have hno : notOtextHead rest := sepB_notOtextHead hwf.2
              rw [spillEph n rest hwfr hno a'.length hk1 (by omega)] at h2
              cases h2
        | stext t =>
          obtain ⟨hTY, hstart, hend⟩ := hok
          have hsub : a' <:+ t := ha'
          rcases isPrefixOf_append_split h with ⟨hlen, hfit⟩ | ⟨hlt, htake, hcont⟩
          · have h2 : occurs TY t = true :=
              occurs_of_isSuffix (occurs_of_isPrefixOf hTYe hfit) hsub
            rw [h2] at hTY
            cases hTY
          · have hbsA : '\\' ∈ a' := by
              rw [hconsrw] at h
              exact head_mem_of_isPrefixOf_append h hane
            have hbst : '\\' ∈ t := hsub.subset hbsA
            unfold safeEndB at hend
            rw [Bool.or_eq_true] at hend
            rcases hend with h1 | h1
            · exact (of_decide_eq_true h1) hbst
            · cases hlast : t.getLast? with
              | none => rw [hlast] at h1; cases h1
              | some c0 =>
                rw [hlast] at h1
                have hc0or : c0 = '$' ∨ c0 = '\n' := by simpa using h1
                have hgl : t.getLast? = a'.getLast? := getLast?_suffix hsub hane
                have hc0a : c0 ∈ a' := mem_of_getLast?_eq (by rw [← hgl, hlast])
                rw [← htake] at hc0a
                have hc0e : c0 ∈ eMS ++ (natRepr i ++ eME) :=
                  List.take_subset _ _ hc0a
                rcases List.mem_append.mp hc0e with h2 | h2
                · rcases hc0or with h3 | h3 <;> subst h3
                  · exact absurd h2 (by decide)
                  · exact absurd h2 (by decide)
                · rcases List.mem_append.mp h2 with h3 | h3
                  · have hdig := natRepr_digits i c0 h3
                    rcases hc0or with h4 | h4 <;> rw [h4] at hdig
                    · exact absurd hdig (by decide)
                    · exact absurd hdig (by decide)
                  · rcases hc0or with h4 | h4 <;> subst h4
                    · exact absurd h3 (by decide)
                    · exact absurd h3 (by decide)
        | math i2 =>
          rw [hconsrw] at h
          have hbsA : '\\' ∈ a' := head_mem_of_isPrefixOf_append h hane
          have hsub : a' <:+ mathPH i2 := ha'
          exact bs_not_mem_mathPH i2 (hsub.subset hbsA)
        | head d c =>
          obtain ⟨hd1, hd2, hTYc, hnlc, hbsc, htr⟩ := hok
          rw [hconsrw] at h
          have hbsA : '\\' ∈ a' := head_mem_of_isPrefixOf_append h hane
          have hsub : a' <:+ headPH d c := ha'
          exact bs_not_mem_headPH d c hbsc (hsub.subset hbsA)
    · exact ih hwfr s' hs2 hne

/-- The escaped-placeholder pass of one `restore_math` iteration is the
identity on well-formed renderings. -/
theorem escMathPass (i : Nat) (repl : Str) (n : Nat) (atoms : List Atom)
    (hwf : wfList n atoms) :
    replaceAll (replaceAll (lit "_") (lit "\\_") (mathPH i)) repl
        (renderAtoms atoms) = renderAtoms atoms := by
  rw [eph_eq]
  have hpne : eMS ++ (natRepr i ++ eME) ≠ [] := by
    intro hc
    have hl := congrArg List.length hc
    rw [List.length_append] at hl
    have h19 : eMS.length = 19 := by decide
    simp only [List.length_nil] at hl
    omega
  rw [replaceAll_eq_rewrite _ _ _ hpne]
  refine rewrite_id_of_none (replFinder_consumes _ _) _ (fun t' ht' hne => ?_)
  exact replFinder_none (noPrefEph i n atoms hwf t' ht' hne)

theorem mathPH_ne_nil (i : Nat) : mathPH i ≠ [] := by
  intro hc
  have hl := congrArg List.length hc
  rw [mathPH, List.length_append, List.length_append] at hl
  have h1 : MATH_START.length = 14 := by decide
  simp only [List.length_nil] at hl
  omega

theorem mathPH_cons (i : Nat) :
    mathPH i = '_' :: (lit "__TYPST_MATH_" ++ (natRepr i ++ MATH_END)) := by
  rw [mathPH, show MATH_START = '_' :: lit "__TYPST_MATH_" from by decide]
  simp [List.cons_append, List.append_assoc]

theorem mathPH_take9 (i : Nat) : (mathPH i).take 9 = lit "___TYPST_" := by
  rw [mathPH, List.append_assoc, List.take_append_of_le_length (by decide)]
  decide

theorem occurs_TY_mathPH (i : Nat) : occurs TY (mathPH i) = true := by
  rw [mathPH, List.append_assoc]
  exact occurs_of_isPrefixOf (by decide : occurs TY MATH_START = true)
    (isPrefixOf_append_self _ _)

/-- A pattern whose first `m` characters are underscores cannot match at
`m` trailing placeholder underscores when its continuation dies on the
following material. -/
theorem noPref_underN (p R : Str) (m : Nat) (hm : m ≤ p.length)
    (htake : p.take m = List.replicate m '_')
    (hR : (p.drop m).isPrefixOf R = false) :
    p.isPrefixOf (List.replicate m '_' ++ R) = false := by
  cases h : p.isPrefixOf (List.replicate m '_' ++ R) with
  | false => rfl
  | true =>
    exfalso
    rw [← List.take_append_drop m p] at h
    have h2 := isPrefixOf_append_drop h
    have hlt : (p.take m).length = m := by
      rw [List.length_take]
      omega
    have hdr : (List.replicate m '_' ++ R).drop m = R := by
      rw [List.drop_append_of_le_length (by simp)]
      simp
    rw [hlt, hdr, hR] at h2
    cases h2

theorem noPrefPh_under (i : Nat) (R : Str) (m : Nat) (hm1 : 1 ≤ m)
    (hm3 : m ≤ 3)
    (hR : ∀ j', 1 ≤ j' → j' ≤ 8 →
      ((mathPH i).drop j').isPrefixOf R = false) :
    (mathPH i).isPrefixOf (List.replicate m '_' ++ R) = false := by
  refine noPref_underN _ R m ?_ ?_ (hR m hm1 (by omega))
  · rw [mathPH, List.length_append, List.length_append,
      show MATH_START.length = 14 from by decide]
    omega
  · rw [mathPH, List.append_assoc, List.take_append_of_le_length (by
      rw [show MATH_START.length = 14 from by decide]; omega)]
    interval_cases m
    · decide
    · decide
    · decide

/-- Two digit strings followed by an underscore agree when one such shape
prefixes the other. -/
theorem digits_eq_of_isPrefixOf :
    ∀ (a b : Str), (∀ ch ∈ a, ch.isDigit = true) →
      (∀ ch ∈ b, ch.isDigit = true) → ∀ (u v : Str),
      (a ++ '_' :: u).isPrefixOf (b ++ '_' :: v) = true → a = b := by
  intro a
  induction a with
  | nil =>
    intro b _ hb u v h
    cases b with
    | nil => rfl
    | cons e b2 =>
      exfalso
      have hde : e.isDigit = true := hb e (List.mem_cons_self e b2)
      have h2 : ('_' :: u).isPrefixOf (e :: (b2 ++ '_' :: v)) = true := h
      rw [isPrefixOf_cons_eq, Bool.and_eq_true] at h2
      have h3 : '_' = e := by simpa using h2.1
      rw [← h3] at hde
      exact absurd hde (by decide)
  | cons d a2 iha =>
    intro b hay hb u v h
    cases b with
    | nil =>
      exfalso
      have hdd : d.isDigit = true := hay d (List.mem_cons_self d a2)
      have h3 : (d :: (a2 ++ '_' :: u)).isPrefixOf ('_' :: v) = true := h
      rw [isPrefixOf_cons_eq, Bool.and_eq_true] at h3
      have h4 : d = '_' := by simpa using h3.1
      rw [h4] at hdd
      exact absurd hdd (by decide)
    | cons e b2 =>
      have h2 : (d :: (a2 ++ '_' :: u)).isPrefixOf (e :: (b2 ++ '_' :: v)) =
          true := h
      rw [isPrefixOf_cons_eq, Bool.and_eq_true] at h2
      have h3 : d = e := by simpa using h2.1
      have h4 := iha b2 (fun ch hch => hay ch (List.mem_cons_of_mem d hch))
        (fun ch hch => hb ch (List.mem_cons_of_mem e hch)) u v h2.2
      rw [h3, h4]

/-- The plain-placeholder finder fires exactly on the matching math
placeholder. -/
theorem replFinder_math_match (i j : Nat) (repl : Str) (R : Str)
    (hij : natRepr j = natRepr i) :
    replFinder (mathPH i) repl (mathPH j ++ R) = some (repl, R) := by
  have hphe : mathPH j = mathPH i := by rw [mathPH, mathPH, hij]
  rw [hphe]
  unfold replFinder
  rw [if_pos ⟨mathPH_ne_nil i, isPrefixOf_append_self _ _⟩]
  rw [List.drop_left]

/-- The math placeholder never matches starting inside an ordinary
escaped text chunk. -/
theorem noPrefPh_otext (i : Nat) (t : Str) (hu : uEsc t = true) (R : Str)
    (hR : ∀ j', 1 ≤ j' → j' ≤ 8 →
      ((mathPH i).drop j').isPrefixOf R = false) :
    ∀ s', s' <:+ t → s' ≠ [] →
      (mathPH i).isPrefixOf (s' ++ R) = false := by
  intro s' hs hne
  cases s' with
  | nil => exact absurd rfl hne
  | cons c t2 =>
    by_cases hc : c = '_'
    · subst hc
      rw [mathPH_cons i, List.cons_append, isPrefixOf_cons_eq]
      obtain ⟨pv, hpv⟩ := uEscGo_suffix t none hu _ hs
      have htail : (lit "__TYPST_MATH_" ++ (natRepr i ++ MATH_END)).isPrefixOf
          (t2 ++ R) = false := by
        rw [show lit "__TYPST_MATH_" ++ (natRepr i ++ MATH_END) =
          (mathPH i).drop 1 from by rw [mathPH_cons i]; rfl]
        exact chainShared (mathPH i) (mathPH_take9 i) t2 1 (some '_') R
          (by omega) (by omega) (by simp) (uEscGo_tail hpv) hR
      simp [htail]
    · rw [mathPH_cons i, List.cons_append]
      exact isPrefixOf_cons_false _ _ (fun h => hc h.symm)

/-- The math placeholder never matches starting inside a restored text
chunk. -/
theorem noPrefPh_stext (i : Nat) (t : Str) (hTY : occurs TY t = false)
    (R : Str)
    (hR : ∀ j', 1 ≤ j' → j' ≤ 8 →
      ((mathPH i).drop j').isPrefixOf R = false) :
    ∀ s', s' <:+ t → s' ≠ [] →
      (mathPH i).isPrefixOf (s' ++ R) = false := by
  intro s' hs hne
  cases h : (mathPH i).isPrefixOf (s' ++ R) with
  | false => rfl
  | true =>
    exfalso
    rcases isPrefixOf_append_split h with ⟨hlen, hfit⟩ | ⟨hlt, htake, hcont⟩
    · have h2 : occurs TY t = true :=
        occurs_of_isSuffix (occurs_of_isPrefixOf (occurs_TY_mathPH i) hfit) hs
      rw [h2] at hTY
      cases hTY
    · have hk1 : 1 ≤ s'.length := by
        cases s' with
        | nil => exact absurd rfl hne
        | cons a b => simp
      by_cases hk8 : 8 ≤ s'.length
      · have h1 : occurs TY ((mathPH i).take s'.length) = true :=
          occurs_TY_take (by
            rw [mathPH, List.append_assoc,
              List.take_append_of_le_length (by decide)]
            decide) hk8
        rw [htake] at h1
        have h2 : occurs TY t = true := occurs_of_isSuffix h1 hs
        rw [h2] at hTY
        cases hTY
      · rw [hR s'.length hk1 (by omega)] at hcont
        cases hcont

/-- The math placeholder for index `i` never matches starting inside the
placeholder of a different recorded index. -/
theorem noPrefPh_math (i j : Nat) (hij : ¬ natRepr j = natRepr i) (R : Str)
    (hR : ∀ j', 1 ≤ j' → j' ≤ 8 →
      ((mathPH i).drop j').isPrefixOf R = false) :
    ∀ s', s' <:+ mathPH j → s' ≠ [] →
      (mathPH i).isPrefixOf (s' ++ R) = false := by
  intro s' hs hne
  rw [mathPH] at hs
  rcases suffix_append_split hs with ⟨xsuf, hxsuf, hxne, heq⟩ | hs2
  · subst heq
    rw [List.append_assoc]
    rcases suffix_append_split hxsuf with ⟨msuf, hmsuf, hmne, heq2⟩ | hx2
    · subst heq2
      rw [List.append_assoc]
      have hm : msuf ∈ MATH_START.tails := (List.mem_tails _ _).mpr hmsuf
      fin_cases hm
      · -- the full MATH_START: the recorded indices must agree
        refine Bool.eq_false_iff.mpr (fun h => ?_)
        rw [mathPH, List.append_assoc] at h
        have h2 := isPrefixOf_append_drop h
        rw [show MATH_START.length = 14 from by decide,
          List.drop_append_of_le_length (by decide)] at h2
        rw [show (('_' :: '_' :: '_' :: 'T' :: 'Y' :: 'P' :: 'S' :: 'T' ::
            '_' :: 'M' :: 'A' :: 'T' :: 'H' :: '_' :: []) : Str).drop 14 =
            ([] : Str) from by decide, List.nil_append] at h2
        rw [show MATH_END = '_' :: lit "TYPST_MATH___" from by decide] at h2
        rw [List.cons_append] at h2
        exact hij (digits_eq_of_isPrefixOf (natRepr i) (natRepr j)
          (natRepr_digits i) (natRepr_digits j) _ _ h2).symm
      · refine not_isPrefixOf_append _ 3 (by decide) ?_
        rw [mathPH, List.append_assoc, List.take_append_of_le_length (by decide)]
        decide
      · refine not_isPrefixOf_append _ 2 (by decide) ?_
        rw [mathPH, List.append_assoc, List.take_append_of_le_length (by decide)]
        decide
      · refine not_isPrefixOf_append _ 1 (by decide) ?_
        rw [mathPH, List.append_assoc, List.take_append_of_le_length (by decide)]
        decide
      · refine not_isPrefixOf_append _ 1 (by decide) ?_
        rw [mathPH, List.append_assoc, List.take_append_of_le_length (by decide)]
        decide
      · refine not_isPrefixOf_append _ 1 (by decide) ?_
        rw [mathPH, List.append_assoc, List.take_append_of_le_length (by decide)]
        decide
      · refine not_isPrefixOf_append _ 1 (by decide) ?_
        rw [mathPH, List.append_assoc, List.take_append_of_le_length (by decide)]
        decide
      · refine not_isPrefixOf_append _ 1 (by decide) ?_
        rw [mathPH, List.append_assoc, List.take_append_of_le_length (by decide)]
        decide
      · refine not_isPrefixOf_append _ 2 (by decide) ?_
        rw [mathPH, List.append_assoc, List.take_append_of_le_length (by decide)]
        decide
      · refine not_isPrefixOf_append _ 1 (by decide) ?_
        rw [mathPH, List.append_assoc, List.take_append_of_le_length (by decide)]
        decide
      · refine not_isPrefixOf_append _ 1 (by decide) ?_
        rw [mathPH, List.append_assoc, List.take_append_of_le_length (by decide)]
        decide
      · refine not_isPrefixOf_append _ 1 (by decide) ?_
        rw [mathPH, List.append_assoc, List.take_append_of_le_length (by decide)]
        decide
      · refine not_isPrefixOf_append _ 1 (by decide) ?_
        rw [mathPH, List.append_assoc, List.take_append_of_le_length (by decide)]
        decide
      · -- the final "_" of MATH_START: the continuation meets the digits
        rw [mathPH_cons i, List.singleton_append, isPrefixOf_cons_eq]
        obtain ⟨d0, dt, hd0, hdig⟩ := natRepr_head j
        have htail : (lit "__TYPST_MATH_" ++ (natRepr i ++ MATH_END)).isPrefixOf
            (natRepr j ++ (MATH_END ++ R)) = false := by
          rw [hd0, List.cons_append,
            show lit "__TYPST_MATH_" = '_' :: lit "_TYPST_MATH_" from by decide,
            List.cons_append]
          exact isPrefixOf_cons_false _ _
            (fun h => digit_ne hdig '_' (by decide) h.symm)
        simp [htail]
      · exact absurd rfl hmne
    · -- suffix starting inside the digits
      cases xsuf with
      | nil => exact absurd rfl hxne
      | cons d dt =>
        have hdig : d.isDigit = true :=
          natRepr_digits j d (hx2.subset (List.mem_cons_self d dt))
        rw [mathPH_cons i, List.cons_append]
        exact isPrefixOf_cons_false _ _
          (fun h => digit_ne hdig '_' (by decide) h.symm)
  · -- suffix of MATH_END
    have hm : s' ∈ MATH_END.tails := (List.mem_tails _ _).mpr hs2
    fin_cases hm
    · refine not_isPrefixOf_append _ 2 (by decide) ?_
      rw [mathPH, List.append_assoc, List.take_append_of_le_length (by decide)]
      decide
    · refine not_isPrefixOf_append _ 1 (by decide) ?_
      rw [mathPH, List.append_assoc, List.take_append_of_le_length (by decide)]
      decide
    · refine not_isPrefixOf_append _ 1 (by decide) ?_
      rw [mathPH, List.append_assoc, List.take_append_of_le_length (by decide)]
      decide
    · refine not_isPrefixOf_append _ 1 (by decide) ?_
      rw [mathPH, List.append_assoc, List.take_append_of_le_length (by decide)]
      decide
    · refine not_isPrefixOf_append _ 1 (by decide) ?_
      rw [mathPH, List.append_assoc, List.take_append_of_le_length (by decide)]
      decide
    · refine not_isPrefixOf_append _ 1 (by decide) ?_
      rw [mathPH, List.append_assoc, List.take_append_of_le_length (by decide)]
      decide
    · refine not_isPrefixOf_append _ 2 (by decide) ?_
      rw [mathPH, List.append_assoc, List.take_append_of_le_length (by decide)]
      decide
    · refine not_isPrefixOf_append _ 1 (by decide) ?_
      rw [mathPH, List.append_assoc, List.take_append_of_le_length (by decide)]
      decide
    · refine not_isPrefixOf_append _ 1 (by decide) ?_
      rw [mathPH, List.append_assoc, List.take_append_of_le_length (by decide)]
      decide
    · refine not_isPrefixOf_append _ 1 (by decide) ?_
      rw [mathPH, List.append_assoc, List.take_append_of_le_length (by decide)]
      decide
    · refine not_isPrefixOf_append _ 1 (by decide) ?_
      rw [mathPH, List.append_assoc, List.take_append_of_le_length (by decide)]
      decide
    · rw [show (['_', '_', '_'] : Str) = List.replicate 3 '_' from by decide]
      exact noPrefPh_under i R 3 (by omega) (by omega) hR
    · rw [show (['_', '_'] : Str) = List.replicate 2 '_' from by decide]
      exact noPrefPh_under i R 2 (by omega) (by omega) hR
    · rw [show (['_'] : Str) = List.replicate 1 '_' from by decide]
      exact noPrefPh_under i R 1 (by omega) (by omega) hR
    · exact absurd rfl hne

/-- The atom-level effect of one plain math-restoration pass: the math
atoms whose recorded index prints like `i` become restored text. -/
def mapMath (i : Nat) (repl : Str) : List Atom → List Atom :=
  List.map (fun a => match a with
    | Atom.math j =>
      if natRepr j = natRepr i then Atom.stext repl else Atom.math j
    | a => a)

/-- The plain-placeholder pass of one `restore_math` iteration on a
rendering of a heading-free well-formed list. -/
theorem mathRestorePass (i : Nat) (repl : Str) (n : Nat) :
    ∀ (atoms : List Atom), wfList n atoms →
      (∀ a ∈ atoms, isHead a = false) →
      rewrite (replFinder (mathPH i) repl) (renderAtoms atoms) =
        renderAtoms (mapMath i repl atoms) := by
  have hcons := replFinder_consumes (mathPH i) repl
  intro atoms
  induction atoms with
  | nil => intro _ _; rfl
  | cons a rest ih =>
    intro hwf hnh
    have hwfr := wfList_tail hwf
    have hok := wfList_head hwf
    have hnhr : ∀ a ∈ rest, isHead a = false :=
      fun a ha => hnh a (List.mem_cons_of_mem _ ha)
    have hR : ∀ j', 1 ≤ j' → j' ≤ 8 →
        ((mathPH i).drop j').isPrefixOf (renderAtoms rest) = false :=
      spillShared (mathPH i) (mathPH_take9 i) 'M'
        (lit "ATH_" ++ (natRepr i ++ MATH_END)) (by
          rw [mathPH, List.append_assoc, List.drop_append_of_le_length (by decide),
            show MATH_START.drop 9 = 'M' :: lit "ATH_" from by decide,
            List.cons_append]) (by decide) n rest hwfr
    rw [renderAtoms_cons]
    cases a with
    | otext t =>
      obtain ⟨htne, hTY, hu⟩ := hok
      show rewrite _ (t ++ renderAtoms rest) = _
      rw [rewrite_chunk hcons t (renderAtoms rest) (fun t' ht' hne =>
        replFinder_none
          (noPrefPh_otext i t hu (renderAtoms rest) hR t' ht' hne))]
      rw [ih hwfr hnhr]
      simp [mapMath, renderAtoms_cons, renderAtom]
    | stext t =>
      obtain ⟨hTY, hstart, hend⟩ := hok
      show rewrite _ (t ++ renderAtoms rest) = _
      rw [rewrite_chunk hcons t (renderAtoms rest) (fun t' ht' hne =>
        replFinder_none
          (noPrefPh_stext i t hTY (renderAtoms rest) hR t' ht' hne))]
      rw [ih hwfr hnhr]
      simp [mapMath, renderAtoms_cons, renderAtom]
    | math j =>
      rw [show renderAtom (Atom.math j) = mathPH j from rfl]
      by_cases hij : natRepr j = natRepr i
      · have hfind := replFinder_math_match i j repl (renderAtoms rest) hij
        rw [rewrite_match hcons (mathPH_ne_nil j) hfind]
        rw [ih hwfr hnhr]
        simp [mapMath, renderAtoms_cons, renderAtom, hij]
      · rw [rewrite_chunk hcons (mathPH j) (renderAtoms rest)
          (fun t' ht' hne => replFinder_none
            (noPrefPh_math i j hij (renderAtoms rest) hR t' ht' hne))]
        rw [ih hwfr hnhr]
        simp [mapMath, renderAtoms_cons, renderAtom, hij]
    | head d' c' =>
      exact Bool.noConfusion (hnh (Atom.head d' c') (List.mem_cons_self _ _))

theorem sepB_mapMath (i : Nat) (repl : Str) :
    ∀ atoms, sepB atoms = true → sepB (mapMath i repl atoms) = true := by
  intro atoms
  induction atoms with
  | nil => intro _; rfl
  | cons a rest ih =>
    intro h
    cases a with
    | otext t =>
      cases rest with
      | nil => rfl
      | cons b rest2 =>
        cases b with
        | otext u => exact absurd h (by simp [sepB])
        | stext u =>
          have h2 : sepB (Atom.stext u :: rest2) = true := h
          exact ih h2
        | math j =>
          have h2 : sepB (Atom.math j :: rest2) = true := h
          show sepB (Atom.otext t ::
            (if natRepr j = natRepr i then Atom.stext repl else Atom.math j) ::
            mapMath i repl rest2) = true
          by_cases hjj : natRepr j = natRepr i
          · rw [if_pos hjj]
            have h4 : sepB ((if natRepr j = natRepr i then Atom.stext repl
                else Atom.math j) :: mapMath i repl rest2) = true := ih h2
            rw [if_pos hjj] at h4
            exact h4
          · rw [if_neg hjj]
            have h4 : sepB ((if natRepr j = natRepr i then Atom.stext repl
                else Atom.math j) :: mapMath i repl rest2) = true := ih h2
            rw [if_neg hjj] at h4
            exact h4
        | head d' c' =>
          have h2 : sepB (Atom.head d' c' :: rest2) = true := h
          have h3 := ih h2
          show sepB (Atom.otext t :: Atom.head d' c' :: mapMath i repl rest2) =
            true
          exact h3
    | stext t => exact ih h
    | math j =>
      show sepB ((if natRepr j = natRepr i then Atom.stext repl
          else Atom.math j) :: mapMath i repl rest) = true
      by_cases hjj : natRepr j = natRepr i
      · rw [if_pos hjj]
        exact ih h
      · rw [if_neg hjj]
        exact ih h
    | head d' c' => exact ih h

theorem wf_mapMath (i : Nat) (repl : Str) (hTYr : occurs TY repl = false)
    (hsr : safeStartB repl = true) (her : safeEndB repl = true) (n : Nat) :
    ∀ atoms, wfList n atoms → wfList n (mapMath i repl atoms) := by
  intro atoms hwf
  refine ⟨?_, sepB_mapMath i repl atoms hwf.2⟩
  intro a ha
  obtain ⟨b, hb, hfb⟩ := List.mem_map.mp ha
  have hok := hwf.1 b hb
  cases b with
  | otext t => rw [← hfb]; exact hok
  | stext t => rw [← hfb]; exact hok
  | math j =>
    have hfb2 : (if natRepr j = natRepr i then Atom.stext repl
        else Atom.math j) = a := hfb
    by_cases hjj : natRepr j = natRepr i
    · rw [if_pos hjj] at hfb2
      rw [← hfb2]
      exact ⟨hTYr, hsr, her⟩
    · rw [if_neg hjj] at hfb2
      rw [← hfb2]
      exact hok
  | head d' c' => rw [← hfb]; exact hok

theorem noHead_mapMath (i : Nat) (repl : Str) (atoms : List Atom)
    (hnh : ∀ a ∈ atoms, isHead a = false) :
    ∀ a ∈ mapMath i repl atoms, isHead a = false := by
  intro a ha
  obtain ⟨b, hb, hfb⟩ := List.mem_map.mp ha
  cases b with
  | otext t => rw [← hfb]; rfl
  | stext t => rw [← hfb]; rfl
  | math j =>
    have hfb2 : (if natRepr j = natRepr i then Atom.stext repl
        else Atom.math j) = a := hfb
    by_cases hjj : natRepr j = natRepr i
    · rw [if_pos hjj] at hfb2
      rw [← hfb2]
      rfl
    · rw [if_neg hjj] at hfb2
      rw [← hfb2]
      rfl
  | head d' c' => exact Bool.noConfusion (hnh (Atom.head d' c') hb)

theorem math_mem_mapMath {i : Nat} {repl : Str} {atoms : List Atom} {j : Nat}
    (h : Atom.math j ∈ mapMath i repl atoms) :
    Atom.math j ∈ atoms ∧ ¬ natRepr j = natRepr i := by
  obtain ⟨b, hb, hfb⟩ := List.mem_map.mp h
  cases b with
  | otext t =>
    have h2 : Atom.otext t = Atom.math j := hfb
    exact Atom.noConfusion h2
  | stext t =>
    have h2 : Atom.stext t = Atom.math j := hfb
    exact Atom.noConfusion h2
  | head d' c' =>
    have h2 : Atom.head d' c' = Atom.math j := hfb
    exact Atom.noConfusion h2
  | math j' =>
    have h2 : (if natRepr j' = natRepr i then Atom.stext repl
        else Atom.math j') = Atom.math j := hfb
    by_cases hjj : natRepr j' = natRepr i
    · rw [if_pos hjj] at h2
      exact Atom.noConfusion h2
    · rw [if_neg hjj] at h2
      injection h2 with h3
      subst h3
      exact ⟨hb, hjj⟩

/-- `occurs` is refuted by refuting a prefix match at every nonempty
suffix. -/
theorem occurs_eq_false_of_noPref {pat s : Str}
    (h : ∀ s', s' <:+ s → s' ≠ [] → pat.isPrefixOf s' = false)
    (hpat : pat ≠ []) : occurs pat s = false := by
  induction s with
  | nil =>
    show decide (pat = []) = false
    simp [hpat]
  | cons c t ih =>
    show (pat.isPrefixOf (c :: t) || occurs pat t) = false
    rw [h (c :: t) (List.suffix_refl _) (by simp),
      ih (fun s' hs hne => h s' (hs.trans (List.suffix_cons c t)) hne)]
    rfl

theorem noPref_of_occurs {pat s : Str} (hpat : pat ≠ [])
    (h : occurs pat s = false) :
    ∀ s', s' <:+ s → s' ≠ [] → pat.isPrefixOf s' = false := by
  intro s' hs _
  cases hp : pat.isPrefixOf s' with
  | false => rfl
  | true =>
    have h1 : occurs pat s' = true := occurs_of_self_isPrefixOf hp hpat
    rw [occurs_of_isSuffix h1 hs] at h
    cases h

/-- Occurrence in an append is refuted from occurrence-freedom of the
parts plus a junction condition. -/
theorem occurs_append_false {pat x y : Str} (hpat : pat ≠ [])
    (hx : occurs pat x = false) (hy : occurs pat y = false)
    (hspan : ∀ k, 1 ≤ k → k < pat.length →
      (pat.take k).isSuffixOf x = false ∨ (pat.drop k).isPrefixOf y = false) :
    occurs pat (x ++ y) = false := by
  refine occurs_eq_false_of_noPref (fun s' hs hne => ?_) hpat
  rcases suffix_append_split hs with ⟨x', hx', hxne, heq⟩ | hs2
  · subst heq
    cases h : pat.isPrefixOf (x' ++ y) with
    | false => rfl
    | true =>
      exfalso
      rcases isPrefixOf_append_split h with ⟨hlen, hfit⟩ | ⟨hlt, htake, hcont⟩
      · have h2 : occurs pat x = true :=
          occurs_of_isSuffix (occurs_of_self_isPrefixOf hfit hpat) hx'
        rw [h2] at hx
        cases hx
      · have hk1 : 1 ≤ x'.length := by
          cases x' with
          | nil => exact absurd rfl hxne
          | cons a b => simp
        rcases hspan x'.length hk1 hlt with hleft | hright
        · have h2 : (pat.take x'.length).isSuffixOf x = true := by
            rw [htake]
            exact List.isSuffixOf_iff_suffix.mpr hx'
          rw [h2] at hleft
          cases hleft
        · rw [hright] at hcont
          cases hcont
  · exact noPref_of_occurs hpat hy s' hs2 hne

/-- The replacement text of one `restore_math` iteration. -/
def replOf (p : Nat × (Bool × Str)) : Str :=
  if p.2.1 then lit "\n$ " ++ latex_to_typst_math p.2.2 ++ lit " $\n"
  else lit "$" ++ latex_to_typst_math p.2.2 ++ lit "$"

theorem occurs_TY_replOf (b : Bool) (typst : Str)
    (h : occurs TY typst = false) :
    occurs TY (if b then lit "\n$ " ++ typst ++ lit " $\n"
               else lit "$" ++ typst ++ lit "$") = false := by
  cases b
  · show occurs TY ((lit "$" ++ typst) ++ lit "$") = false
    refine occurs_append_false (by decide) ?_ (by decide) ?_
    · refine occurs_append_false (by decide) (by decide) h ?_
      intro k h1 h2
      rw [show TY.length = 5 from by decide] at h2
      left
      interval_cases k <;> decide
    · intro k h1 h2
      rw [show TY.length = 5 from by decide] at h2
      right
      interval_cases k <;> decide
  · show occurs TY ((lit "\n$ " ++ typst) ++ lit " $\n") = false
    refine occurs_append_false (by decide) ?_ (by decide) ?_
    · refine occurs_append_false (by decide) (by decide) h ?_
      intro k h1 h2
      rw [show TY.length = 5 from by decide] at h2
      left
      interval_cases k <;> decide
    · intro k h1 h2
      rw [show TY.length = 5 from by decide] at h2
      right
      interval_cases k <;> decide

theorem safeStartB_replOf (b : Bool) (typst : Str) :
    safeStartB (if b then lit "\n$ " ++ typst ++ lit " $\n"
                else lit "$" ++ typst ++ lit "$") = true := by
  cases b
  · rfl
  · rfl

theorem safeEndB_replOf (b : Bool) (typst : Str) :
    safeEndB (if b then lit "\n$ " ++ typst ++ lit " $\n"
              else lit "$" ++ typst ++ lit "$") = true := by
  cases b
  · show safeEndB ((lit "$" ++ typst) ++ lit "$") = true
    unfold safeEndB
    rw [getLast?_append_right _ _ (by decide)]
    rw [show (lit "$" : Str).getLast? = some '$' from by decide]
    simp
  · show safeEndB ((lit "\n$ " ++ typst) ++ lit " $\n") = true
    unfold safeEndB
    rw [getLast?_append_right _ _ (by decide)]
    rw [show (lit " $\n" : Str).getLast? = some '\n' from by decide]
    simp

/-- The atom-level effect of the whole `restore_math` fold. -/
def foldMath (l : List (Nat × (Bool × Str))) (atoms : List Atom) :
    List Atom :=
  l.foldl (fun acc p => mapMath p.1 (replOf p) acc) atoms

/-- `restore_math` on a rendering of a heading-free well-formed list is
the rendering of the atom-level fold. -/
theorem restore_math_fold (n : Nat) :
    ∀ (l : List (Nat × (Bool × Str))) (atoms : List Atom), wfList n atoms →
      (∀ a ∈ atoms, isHead a = false) →
      (∀ p ∈ l, occurs TY (latex_to_typst_math p.2.2) = false) →
      List.foldl (fun res p =>
        let typst := latex_to_typst_math p.2.2
        let ph := mathPH p.1
        let eph := replaceAll (lit "_") (lit "\\_") ph
        let repl := if p.2.1 then lit "\n$ " ++ typst ++ lit " $\n"
                    else lit "$" ++ typst ++ lit "$"
        replaceAll ph repl (replaceAll eph repl res)) (renderAtoms atoms) l =
      renderAtoms (foldMath l atoms) := by
  intro l
  induction l with
  | nil => intro atoms _ _ _; rfl
  | cons p l2 ih =>
    intro atoms hwf hnh hb
    have hTYr : occurs TY (replOf p) = false :=
      occurs_TY_replOf p.2.1 _ (hb p (List.mem_cons_self p l2))
    have hstep : replaceAll (mathPH p.1) (replOf p)
        (replaceAll (replaceAll (lit "_") (lit "\\_") (mathPH p.1)) (replOf p)
          (renderAtoms atoms)) =
        renderAtoms (mapMath p.1 (replOf p) atoms) := by
      rw [escMathPass p.1 (replOf p) n atoms hwf]
      rw [replaceAll_eq_rewrite _ _ _ (mathPH_ne_nil p.1)]
      exact mathRestorePass p.1 (replOf p) n atoms hwf hnh
    rw [List.foldl_cons]
    show List.foldl _ (replaceAll (mathPH p.1) (replOf p)
        (replaceAll (replaceAll (lit "_") (lit "\\_") (mathPH p.1)) (replOf p)
          (renderAtoms atoms))) l2 = _
    rw [hstep]
    exact ih (mapMath p.1 (replOf p) atoms)
      (wf_mapMath p.1 (replOf p) hTYr (safeStartB_replOf p.2.1 _)
        (safeEndB_replOf p.2.1 _) n atoms hwf)
      (noHead_mapMath p.1 (replOf p) atoms hnh)
      (fun q hq => hb q (List.mem_cons_of_mem p hq))

theorem wf_foldMath (n : Nat) :
    ∀ (l : List (Nat × (Bool × Str))) (atoms : List Atom), wfList n atoms →
      (∀ p ∈ l, occurs TY (latex_to_typst_math p.2.2) = false) →
      wfList n (foldMath l atoms) := by
  intro l
  induction l with
  | nil => intro atoms hwf _; exact hwf
  | cons p l2 ih =>
    intro atoms hwf hb
    exact ih (mapMath p.1 (replOf p) atoms)
      (wf_mapMath p.1 (replOf p)
        (occurs_TY_replOf p.2.1 _ (hb p (List.mem_cons_self p l2)))
        (safeStartB_replOf p.2.1 _) (safeEndB_replOf p.2.1 _) n atoms hwf)
      (fun q hq => hb q (List.mem_cons_of_mem p hq))

theorem noHead_foldMath :
    ∀ (l : List (Nat × (Bool × Str))) (atoms : List Atom),
      (∀ a ∈ atoms, isHead a = false) →
      ∀ a ∈ foldMath l atoms, isHead a = false := by
  intro l
  induction l with
  | nil => intro atoms hnh; exact hnh
  | cons p l2 ih =>
    intro atoms hnh
    exact ih (mapMath p.1 (replOf p) atoms)
      (noHead_mapMath p.1 (replOf p) atoms hnh)

theorem math_mem_foldMath :
    ∀ (l : List (Nat × (Bool × Str))) (atoms : List Atom) (j : Nat),
      Atom.math j ∈ foldMath l atoms →
      Atom.math j ∈ atoms ∧ ∀ p ∈ l, ¬ natRepr j = natRepr p.1 := by
  intro l
  induction l with
  | nil =>
    intro atoms j h
    exact ⟨h, fun p hp => absurd hp (List.not_mem_nil p)⟩
  | cons p l2 ih =>
    intro atoms j h
    obtain ⟨hmem, hall⟩ := ih (mapMath p.1 (replOf p) atoms) j h
    obtain ⟨hmem2, hne⟩ := math_mem_mapMath hmem
    refine ⟨hmem2, fun q hq => ?_⟩
    rcases List.mem_cons.mp hq with rfl | hq2
    · exact hne
    · exact hall q hq2

theorem exists_mem_enumFrom {α : Type} :
    ∀ (l : List α) (o j : Nat), j < l.length →
      ∃ b, (o + j, b) ∈ l.enumFrom o := by
  intro l
  induction l with
  | nil => intro o j h; exact absurd h (by simp)
  | cons x xs ih =>
    intro o j h
    cases j with
    | zero => exact ⟨x, by simp [List.enumFrom]⟩
    | succ j2 =>
      obtain ⟨b, hb⟩ := ih (o + 1) j2 (by simpa using h)
      refine ⟨b, ?_⟩
      have he : o + (j2 + 1) = (o + 1) + j2 := by omega
      rw [he]
      have hb2 : ((o + 1) + j2, b) ∈ (o, x) :: xs.enumFrom (o + 1) :=
        List.mem_cons_of_mem _ hb
      exact hb2

theorem exists_mem_enum {α : Type} (l : List α) (j : Nat)
    (h : j < l.length) : ∃ b, (j, b) ∈ l.enum := by
  obtain ⟨b, hb⟩ := exists_mem_enumFrom l 0 j h
  rw [Nat.zero_add] at hb
  exact ⟨b, hb⟩

theorem snd_mem_of_mem_enumFrom {α : Type} :
    ∀ (l : List α) (o : Nat) (p : Nat × α), p ∈ l.enumFrom o → p.2 ∈ l := by
  intro l
  induction l with
  | nil =>
    intro o p h
    exact absurd h (by simp [List.enumFrom])
  | cons x xs ih =>
    intro o p h
    have h2 : p ∈ (o, x) :: xs.enumFrom (o + 1) := h
    rcases List.mem_cons.mp h2 with rfl | h3
    · exact List.mem_cons_self _ _
    · exact List.mem_cons_of_mem _ (ih (o + 1) p h3)

/-- Whether an atom is a text chunk (not a placeholder). -/
def isText : Atom → Bool
  | Atom.otext _ => true
  | Atom.stext _ => true
  | _ => false

/-- A list of text chunks only: the restored state after both restoration
phases. -/
def textOnly (atoms : List Atom) : Prop := ∀ a ∈ atoms, isText a = true

theorem textOnly_tail {a : Atom} {rest : List Atom}
    (h : textOnly (a :: rest)) : textOnly rest :=
  fun x hx => h x (List.mem_cons_of_mem a hx)

theorem textOnly_of (atoms : List Atom)
    (hh : ∀ a ∈ atoms, isHead a = false)
    (hm : ∀ j, ¬ Atom.math j ∈ atoms) : textOnly atoms := by
  intro a ha
  cases a with
  | otext t => rfl
  | stext t => rfl
  | math j => exact absurd ha (hm j)
  | head d c => exact Bool.noConfusion (hh _ ha)

/-- Tails of a marker die on the rendering of a text-only list that does
not start with ordinary text. -/
theorem spillT2 (pe : Str) (K2 : Nat) (hlenK : K2 < pe.length)
    (hheads : ∀ k, 1 ≤ k → k ≤ K2 → ∃ c cs, pe.drop k = c :: cs ∧
      ¬ c = '=' ∧ ¬ c = '$' ∧ ¬ c = '\n')
    (n : Nat) (rest : List Atom) (hwf : wfList n rest)
    (htx : textOnly rest) (hno : notOtextHead rest) :
    ∀ k, 1 ≤ k → k ≤ K2 →
      (pe.drop k).isPrefixOf (renderAtoms rest) = false := by
  intro k hk1 hk2
  cases rest with
  | nil =>
    rw [renderAtoms_nil]
    cases h : (pe.drop k).isPrefixOf [] with
    | false => rfl
    | true =>
      have h2 := congrArg List.length (isPrefixOf_nil_elim h)
      simp only [List.length_drop, List.length_nil] at h2
      omega
  | cons b rest2 =>
    have hok := wfList_head hwf
    rw [renderAtoms_cons]
    cases b with
    | otext t => exact absurd hno (by simp [notOtextHead])
    | stext t =>
      obtain ⟨hTY, hstart, hend⟩ := hok
      cases t with
      | nil => exact absurd hstart (by simp [safeStartB])
      | cons c t2 =>
        show (pe.drop k).isPrefixOf ((c :: t2) ++ renderAtoms rest2) = false
        obtain ⟨ph, pt, he, h1, h2, h3⟩ := hheads k hk1 hk2
        rw [he, List.cons_append]
        refine isPrefixOf_cons_false _ _ ?_
        have hcor : (c = '=' ∨ c = '$') ∨ c = '\n' := by
          simpa [safeStartB] using hstart
        rw [or_assoc] at hcor
        rcases hcor with h | h | h <;> subst h
        · exact h1
        · exact h2
        · exact h3
    | math i => exact Bool.noConfusion (htx _ (List.mem_cons_self _ _))
    | head d c => exact Bool.noConfusion (htx _ (List.mem_cons_self _ _))

/-- Tails of a raw marker die on the rendering of any text-only list:
inside ordinary escaped text the tail hits an unescaped underscore or the
sentinel letters, and the continuation after a partial text chunk falls to
`spillT2`. -/
theorem spillT1 (pe : Str) (T0 K2 : Nat) (hT0K : T0 - 1 ≤ K2)
    (hlenK : K2 < pe.length)
    (hheads : ∀ k, 1 ≤ k → k ≤ K2 → ∃ c cs, pe.drop k = c :: cs ∧
      ¬ c = '=' ∧ ¬ c = '$' ∧ ¬ c = '\n')
    (hbad : ∀ k, 1 ≤ k → k ≤ T0 - 1 → ∃ m, 1 ≤ m ∧ m + k ≤ K2 + 1 ∧
      (uEscGo none ((pe.drop k).take m) = false ∨
        occurs TY ((pe.drop k).take m) = true))
    (n : Nat) (rest : List Atom) (hwf : wfList n rest)
    (htx : textOnly rest) :
    ∀ k, 1 ≤ k → k ≤ T0 - 1 →
      (pe.drop k).isPrefixOf (renderAtoms rest) = false := by
  intro k hk1 hk2
  cases rest with
  | nil =>
    rw [renderAtoms_nil]
    cases h : (pe.drop k).isPrefixOf [] with
    | false => rfl
    | true =>
      have h2 := congrArg List.length (isPrefixOf_nil_elim h)
      simp only [List.length_drop, List.length_nil] at h2
      omega
  | cons b rest2 =>
    have hwfr := wfList_tail hwf
    have hok := wfList_head hwf
    rw [renderAtoms_cons]
    cases b with
    | otext t =>
      obtain ⟨htne, hTYt, hut⟩ := hok
      obtain ⟨m, hm1, hmk, hbadm⟩ := hbad k hk1 hk2
      show (pe.drop k).isPrefixOf (t ++ renderAtoms rest2) = false
      cases h : (pe.drop k).isPrefixOf (t ++ renderAtoms rest2) with
      | false => rfl
      | true =>
        exfalso
        rcases isPrefixOf_append_split h with ⟨hlen2, hfit⟩ | ⟨hlt, htake, hcont⟩
        · have hpm : ((pe.drop k).take m).isPrefixOf t = true :=
            isPrefixOf_trans (take_isPrefixOf m _) hfit
          rcases hbadm with hbu | hbT
          · have h2 := uEscGo_mono _ none t hpm hut
            rw [h2] at hbu
            cases hbu
          · have h2 : occurs TY t = true := occurs_of_isPrefixOf hbT hpm
            rw [h2] at hTYt
            cases hTYt
        · by_cases hjm : m ≤ t.length
          · have h1 : ((pe.drop k).take m).isPrefixOf t = true := by
              have h0 := take_isPrefixOf m ((pe.drop k).take t.length)
              rw [List.take_take, Nat.min_eq_left hjm] at h0
              rw [htake] at h0
              exact h0
            rcases hbadm with hbu | hbT
            · have h2 := uEscGo_mono _ none t h1 hut
              rw [h2] at hbu
              cases hbu
            · have h2 : occurs TY t = true := occurs_of_isPrefixOf hbT h1
              rw [h2] at hTYt
              cases hTYt
          · have hj1 : 1 ≤ t.length := by
              cases t with
              | nil => exact absurd rfl htne
              | cons a b => simp
            rw [List.drop_drop] at hcont
            have hno2 : notOtextHead rest2 := sepB_notOtextHead hwf.2
            rw [spillT2 pe K2 hlenK hheads n rest2 hwfr (textOnly_tail htx)
              hno2 (k + t.length) (by omega) (by omega)] at hcont
            cases hcont
    | stext t =>
      obtain ⟨hTY, hstart, hend⟩ := hok
      cases t with
      | nil => exact absurd hstart (by simp [safeStartB])
      | cons c t2 =>
        show (pe.drop k).isPrefixOf ((c :: t2) ++ renderAtoms rest2) = false
        obtain ⟨ph, pt, he, h1, h2, h3⟩ := hheads k hk1 (by omega)
        rw [he, List.cons_append]
        refine isPrefixOf_cons_false _ _ ?_
        have hcor : (c = '=' ∨ c = '$') ∨ c = '\n' := by
          simpa [safeStartB] using hstart
        rw [or_assoc] at hcor
        rcases hcor with h | h | h <;> subst h
        · exact h1
        · exact h2
        · exact h3
    | math i => exact Bool.noConfusion (htx _ (List.mem_cons_self _ _))
    | head d c => exact Bool.noConfusion (htx _ (List.mem_cons_self _ _))

/-- A raw marker never matches anywhere in the rendering of a text-only
well-formed list. -/
theorem noPrefTextMarker (pe : Str) (T0 K2 : Nat)
    (hT0K : T0 - 1 ≤ K2) (hlenK : K2 < pe.length)
    (hT0 : occurs TY (pe.take T0) = true)
    (hheads : ∀ k, 1 ≤ k → k ≤ K2 → ∃ c cs, pe.drop k = c :: cs ∧
      ¬ c = '=' ∧ ¬ c = '$' ∧ ¬ c = '\n')
    (hbad : ∀ k, 1 ≤ k → k ≤ T0 - 1 → ∃ m, 1 ≤ m ∧ m + k ≤ K2 + 1 ∧
      (uEscGo none ((pe.drop k).take m) = false ∨
        occurs TY ((pe.drop k).take m) = true))
    (n : Nat) :
    ∀ atoms, wfList n atoms → textOnly atoms →
      ∀ s', s' <:+ renderAtoms atoms → s' ≠ [] →
        pe.isPrefixOf s' = false := by
  have hTYpe : occurs TY pe = true :=
    occurs_of_isPrefixOf hT0 (take_isPrefixOf T0 pe)
  intro atoms
  induction atoms with
  | nil =>
    intro _ _ s' hs hne
    rw [renderAtoms_nil] at hs
    exact absurd (List.suffix_nil.mp hs) hne
  | cons a rest ih =>
    intro hwf htx s' hs hne
    have hwfr := wfList_tail hwf
    have hok := wfList_head hwf
    have htxr := textOnly_tail htx
    rw [renderAtoms_cons] at hs
    rcases suffix_append_split hs with ⟨a', ha', hane, heq⟩ | hs2
    · subst heq
      cases h : pe.isPrefixOf (a' ++ renderAtoms rest) with
      | false => rfl
      | true =>
        exfalso
        cases a with
        | otext t =>
          obtain ⟨htne, hTYt, hut⟩ := hok
          have hsub : a' <:+ t := ha'
          rcases isPrefixOf_append_split h with ⟨hlen2, hfit⟩ | ⟨hlt, htake, hcont⟩
          · have h2 : occurs TY t = true :=
              occurs_of_isSuffix (occurs_of_isPrefixOf hTYpe hfit) hsub
            rw [h2] at hTYt
            cases hTYt
          · have hk1 : 1 ≤ a'.length := by
              cases a' with
              | nil => exact absurd rfl hane
              | cons x y => simp
            by_cases hkT : T0 ≤ a'.length
            · have h1 : occurs TY (pe.take a'.length) = true :=
                occurs_TY_take_mono hT0 hkT
              rw [htake] at h1
              have h2 : occurs TY t = true := occurs_of_isSuffix h1 hsub
              rw [h2] at hTYt
              cases hTYt
            · have hno : notOtextHead rest := sepB_notOtextHead hwf.2
              rw [spillT2 pe K2 hlenK hheads n rest hwfr htxr hno a'.length
                hk1 (by omega)] at hcont
              cases hcont
        | stext t =>
          obtain ⟨hTYt, hstart, hend⟩ := hok
          have hsub : a' <:+ t := ha'
          rcases isPrefixOf_append_split h with ⟨hlen2, hfit⟩ | ⟨hlt, htake, hcont⟩
          · have h2 : occurs TY t = true :=
              occurs_of_isSuffix (occurs_of_isPrefixOf hTYpe hfit) hsub
            rw [h2] at hTYt
            cases hTYt
          · have hk1 : 1 ≤ a'.length := by
              cases a' with
              | nil => exact absurd rfl hane
              | cons x y => simp
            by_cases hkT : T0 ≤ a'.length
            · have h1 : occurs TY (pe.take a'.length) = true :=
                occurs_TY_take_mono hT0 hkT
              rw [htake] at h1
              have h2 : occurs TY t = true := occurs_of_isSuffix h1 hsub
              rw [h2] at hTYt
              cases hTYt
            · rw [spillT1 pe T0 K2 hT0K hlenK hheads hbad n rest hwfr htxr
                a'.length hk1 (by omega)] at hcont
              cases hcont
        | math i => exact Bool.noConfusion (htx _ (List.mem_cons_self _ _))
        | head d c => exact Bool.noConfusion (htx _ (List.mem_cons_self _ _))
    · exact ih hwfr htxr s' hs2 hne

/-- An underscore-escaped marker (which begins with a backslash) never
matches anywhere in the rendering of a text-only well-formed list. -/
theorem noPrefEscMarker (pe : Str) (pet : Str) (hpe : pe = '\\' :: pet)
    (T0 K2 : Nat) (hT0K : T0 - 1 ≤ K2) (hlenK : K2 < pe.length)
    (hT0 : occurs TY (pe.take T0) = true)
    (hheads : ∀ k, 1 ≤ k → k ≤ K2 → ∃ c cs, pe.drop k = c :: cs ∧
      ¬ c = '=' ∧ ¬ c = '$' ∧ ¬ c = '\n')
    (hds : ¬ '$' ∈ pe) (hnl : ¬ '\n' ∈ pe) (n : Nat) :
    ∀ atoms, wfList n atoms → textOnly atoms →
      ∀ s', s' <:+ renderAtoms atoms → s' ≠ [] →
        pe.isPrefixOf s' = false := by
  have hTYpe : occurs TY pe = true :=
    occurs_of_isPrefixOf hT0 (take_isPrefixOf T0 pe)
  intro atoms
  induction atoms with
  | nil =>
    intro _ _ s' hs hne
    rw [renderAtoms_nil] at hs
    exact absurd (List.suffix_nil.mp hs) hne
  | cons a rest ih =>
    intro hwf htx s' hs hne
    have hwfr := wfList_tail hwf
    have hok := wfList_head hwf
    have htxr := textOnly_tail htx
    rw [renderAtoms_cons] at hs
    rcases suffix_append_split hs with ⟨a', ha', hane, heq⟩ | hs2
    · subst heq
      cases h : pe.isPrefixOf (a' ++ renderAtoms rest) with
      | false => rfl
      | true =>
        exfalso
        cases a with
        | otext t =>
          obtain ⟨htne, hTYt, hut⟩ := hok
          have hsub : a' <:+ t := ha'
          rcases isPrefixOf_append_split h with ⟨hlen2, hfit⟩ | ⟨hlt, htake, hcont⟩
          · have h2 : occurs TY t = true :=
              occurs_of_isSuffix (occurs_of_isPrefixOf hTYpe hfit) hsub
            rw [h2] at hTYt
            cases hTYt
          · have hk1 : 1 ≤ a'.length := by
              cases a' with
              | nil => exact absurd rfl hane
              | cons x y => simp
            by_cases hkT : T0 ≤ a'.length
            · have h1 : occurs TY (pe.take a'.length) = true :=
                occurs_TY_take_mono hT0 hkT
              rw [htake] at h1
              have h2 : occurs TY t = true := occurs_of_isSuffix h1 hsub
              rw [h2] at hTYt
              cases hTYt
            · have hno : notOtextHead rest := sepB_notOtextHead hwf.2
              rw [spillT2 pe K2 hlenK hheads n rest hwfr htxr hno a'.length
                hk1 (by omega)] at hcont
              cases hcont
        | stext t =>
          obtain ⟨hTYt, hstart, hend⟩ := hok
          have hsub : a' <:+ t := ha'
          rcases isPrefixOf_append_split h with ⟨hlen2, hfit⟩ | ⟨hlt, htake, hcont⟩
          · have h2 : occurs TY t = true :=
              occurs_of_isSuffix (occurs_of_isPrefixOf hTYpe hfit) hsub
            rw [h2] at hTYt
            cases hTYt
          · have hbsA : '\\' ∈ a' := by
              rw [hpe] at h
              exact head_mem_of_isPrefixOf_append h hane
            have hbst : '\\' ∈ t := hsub.subset hbsA
            unfold safeEndB at hend
            rw [Bool.or_eq_true] at hend
            rcases hend with h1 | h1
            · exact (of_decide_eq_true h1) hbst
            · cases hlast : t.getLast? with
              | none => rw [hlast] at h1; cases h1
              | some c0 =>
                rw [hlast] at h1
                have hc0or : c0 = '$' ∨ c0 = '\n' := by simpa using h1
                have hgl : t.getLast? = a'.getLast? := getLast?_suffix hsub hane
                have hc0a : c0 ∈ a' := mem_of_getLast?_eq (by rw [← hgl, hlast])
                rw [← htake] at hc0a
                have hc0e : c0 ∈ pe := List.take_subset _ _ hc0a
                rcases hc0or with h3 | h3 <;> subst h3
                · exact hds hc0e
                · exact hnl hc0e
        | math i => exact Bool.noConfusion (htx _ (List.mem_cons_self _ _))
        | head d c => exact Bool.noConfusion (htx _ (List.mem_cons_self _ _))
    · exact ih hwfr htxr s' hs2 hne

theorem msHeads : ∀ k, 1 ≤ k → k ≤ 10 →
    ∃ c cs, MATH_START.drop k = c :: cs ∧
      ¬ c = '=' ∧ ¬ c = '$' ∧ ¬ c = '\n' := by
  intro k h1 h2
  interval_cases k
  · exact ⟨'_', lit "_TYPST_MATH_", by decide, by decide, by decide, by decide⟩
  · exact ⟨'_', lit "TYPST_MATH_", by decide, by decide, by decide, by decide⟩
  · exact ⟨'T', lit "YPST_MATH_", by decide, by decide, by decide, by decide⟩
  · exact ⟨'Y', lit "PST_MATH_", by decide, by decide, by decide, by decide⟩
  · exact ⟨'P', lit "ST_MATH_", by decide, by decide, by decide, by decide⟩
  · exact ⟨'S', lit "T_MATH_", by decide, by decide, by decide, by decide⟩
  · exact ⟨'T', lit "_MATH_", by decide, by decide, by decide, by decide⟩
  · exact ⟨'_', lit "MATH_", by decide, by decide, by decide, by decide⟩
  · exact ⟨'M', lit "ATH_", by decide, by decide, by decide, by decide⟩
  · exact ⟨'A', lit "TH_", by decide, by decide, by decide, by decide⟩

theorem hsHeads : ∀ k, 1 ≤ k → k ≤ 9 →
    ∃ c cs, HEADING_START.drop k = c :: cs ∧
      ¬ c = '=' ∧ ¬ c = '$' ∧ ¬ c = '\n' := by
  intro k h1 h2
  interval_cases k
  · exact ⟨'_', lit "_TYPST_H", by decide, by decide, by decide, by decide⟩
  · exact ⟨'_', lit "TYPST_H", by decide, by decide, by decide, by decide⟩
  · exact ⟨'T', lit "YPST_H", by decide, by decide, by decide, by decide⟩
  · exact ⟨'Y', lit "PST_H", by decide, by decide, by decide, by decide⟩
  · exact ⟨'P', lit "ST_H", by decide, by decide, by decide, by decide⟩
  · exact ⟨'S', lit "T_H", by decide, by decide, by decide, by decide⟩
  · exact ⟨'T', lit "_H", by decide, by decide, by decide, by decide⟩
  · exact ⟨'_', lit "H", by decide, by decide, by decide, by decide⟩
  · exact ⟨'H', ([] : Str), by decide, by decide, by decide, by decide⟩

theorem meHeads : ∀ k, 1 ≤ k → k ≤ 10 →
    ∃ c cs, MATH_END.drop k = c :: cs ∧
      ¬ c = '=' ∧ ¬ c = '$' ∧ ¬ c = '\n' := by
  intro k h1 h2
  interval_cases k
  · exact ⟨'T', lit "YPST_MATH___", by decide, by decide, by decide, by decide⟩
  · exact ⟨'Y', lit "PST_MATH___", by decide, by decide, by decide, by decide⟩
  · exact ⟨'P', lit "ST_MATH___", by decide, by decide, by decide, by decide⟩
  · exact ⟨'S', lit "T_MATH___", by decide, by decide, by decide, by decide⟩
  · exact ⟨'T', lit "_MATH___", by decide, by decide, by decide, by decide⟩
  · exact ⟨'_', lit "MATH___", by decide, by decide, by decide, by decide⟩
  · exact ⟨'M', lit "ATH___", by decide, by decide, by decide, by decide⟩
  · exact ⟨'A', lit "TH___", by decide, by decide, by decide, by decide⟩
  · exact ⟨'T', lit "H___", by decide, by decide, by decide, by decide⟩
  · exact ⟨'H', lit "___", by decide, by decide, by decide, by decide⟩

theorem heHeads : ∀ k, 1 ≤ k → k ≤ 10 →
    ∃ c cs, HEADING_END.drop k = c :: cs ∧
      ¬ c = '=' ∧ ¬ c = '$' ∧ ¬ c = '\n' := by
  intro k h1 h2
  interval_cases k
  · exact ⟨'T', lit "YPST_HEADING___", by decide, by decide, by decide, by decide⟩
  · exact ⟨'Y', lit "PST_HEADING___", by decide, by decide, by decide, by decide⟩
  · exact ⟨'P', lit "ST_HEADING___", by decide, by decide, by decide, by decide⟩
  · exact ⟨'S', lit "T_HEADING___", by decide, by decide, by decide, by decide⟩
  · exact ⟨'T', lit "_HEADING___", by decide, by decide, by decide, by decide⟩
  · exact ⟨'_', lit "HEADING___", by decide, by decide, by decide, by decide⟩
  · exact ⟨'H', lit "EADING___", by decide, by decide, by decide, by decide⟩
  · exact ⟨'E', lit "ADING___", by decide, by decide, by decide, by decide⟩
  · exact ⟨'A', lit "DING___", by decide, by decide, by decide, by decide⟩
  · exact ⟨'D', lit "ING___", by decide, by decide, by decide, by decide⟩

theorem emeHeads : ∀ k, 1 ≤ k → k ≤ 10 →
    ∃ c cs, eME.drop k = c :: cs ∧
      ¬ c = '=' ∧ ¬ c = '$' ∧ ¬ c = '\n' := by
  intro k h1 h2
  interval_cases k
  · exact ⟨'_', lit "TYPST\\_MATH\\_\\_\\_", by decide, by decide, by decide,
      by decide⟩
  · exact ⟨'T', lit "YPST\\_MATH\\_\\_\\_", by decide, by decide, by decide,
      by decide⟩
  · exact ⟨'Y', lit "PST\\_MATH\\_\\_\\_", by decide, by decide, by decide,
      by decide⟩
  · exact ⟨'P', lit "ST\\_MATH\\_\\_\\_", by decide, by decide, by decide,
      by decide⟩
  · exact ⟨'S', lit "T\\_MATH\\_\\_\\_", by decide, by decide, by decide,
      by decide⟩
  · exact ⟨'T', lit "\\_MATH\\_\\_\\_", by decide, by decide, by decide,
      by decide⟩
  · exact ⟨'\\', lit "_MATH\\_\\_\\_", by decide, by decide, by decide,
      by decide⟩
  · exact ⟨'_', lit "MATH\\_\\_\\_", by decide, by decide, by decide,
      by decide⟩
  · exact ⟨'M', lit "ATH\\_\\_\\_", by decide, by decide, by decide,
      by decide⟩
  · exact ⟨'A', lit "TH\\_\\_\\_", by decide, by decide, by decide,
      by decide⟩

theorem eheHeads : ∀ k, 1 ≤ k → k ≤ 10 →
    ∃ c cs, escapedHE.drop k = c :: cs ∧
      ¬ c = '=' ∧ ¬ c = '$' ∧ ¬ c = '\n' := by
  intro k h1 h2
  interval_cases k
  · exact ⟨'_', lit "TYPST\\_HEADING\\_\\_\\_", by decide, by decide, by decide,
      by decide⟩
  · exact ⟨'T', lit "YPST\\_HEADING\\_\\_\\_", by decide, by decide, by decide,
      by decide⟩
  · exact ⟨'Y', lit "PST\\_HEADING\\_\\_\\_", by decide, by decide, by decide,
      by decide⟩
  · exact ⟨'P', lit "ST\\_HEADING\\_\\_\\_", by decide, by decide, by decide,
      by decide⟩
  · exact ⟨'S', lit "T\\_HEADING\\_\\_\\_", by decide, by decide, by decide,
      by decide⟩
  · exact ⟨'T', lit "\\_HEADING\\_\\_\\_", by decide, by decide, by decide,
      by decide⟩
  · exact ⟨'\\', lit "_HEADING\\_\\_\\_", by decide, by decide, by decide,
      by decide⟩
  · exact ⟨'_', lit "HEADING\\_\\_\\_", by decide, by decide, by decide,
      by decide⟩
  · exact ⟨'H', lit "EADING\\_\\_\\_", by decide, by decide, by decide,
      by decide⟩
  · exact ⟨'E', lit "ADING\\_\\_\\_", by decide, by decide, by decide,
      by decide⟩

theorem msBad : ∀ k, 1 ≤ k → k ≤ 7 → ∃ m, 1 ≤ m ∧ m + k ≤ 11 ∧
    (uEscGo none ((MATH_START.drop k).take m) = false ∨
      occurs TY ((MATH_START.drop k).take m) = true) := by
  intro k h1 h2
  interval_cases k
  · exact ⟨1, by decide, by decide, Or.inl (by decide)⟩
  · exact ⟨1, by decide, by decide, Or.inl (by decide)⟩
  · exact ⟨5, by decide, by decide, Or.inr (by decide)⟩
  · exact ⟨5, by decide, by decide, Or.inl (by decide)⟩
  · exact ⟨4, by decide, by decide, Or.inl (by decide)⟩
  · exact ⟨3, by decide, by decide, Or.inl (by decide)⟩
  · exact ⟨2, by decide, by decide, Or.inl (by decide)⟩

theorem hsBad : ∀ k, 1 ≤ k → k ≤ 7 → ∃ m, 1 ≤ m ∧ m + k ≤ 10 ∧
    (uEscGo none ((HEADING_START.drop k).take m) = false ∨
      occurs TY ((HEADING_START.drop k).take m) = true) := by
  intro k h1 h2
  interval_cases k
  · exact ⟨1, by decide, by decide, Or.inl (by decide)⟩
  · exact ⟨1, by decide, by decide, Or.inl (by decide)⟩
  · exact ⟨5, by decide, by decide, Or.inr (by decide)⟩
  · exact ⟨5, by decide, by decide, Or.inl (by decide)⟩
  · exact ⟨4, by decide, by decide, Or.inl (by decide)⟩
  · exact ⟨3, by decide, by decide, Or.inl (by decide)⟩
  · exact ⟨2, by decide, by decide, Or.inl (by decide)⟩

theorem meBad : ∀ k, 1 ≤ k → k ≤ 5 → ∃ m, 1 ≤ m ∧ m + k ≤ 11 ∧
    (uEscGo none ((MATH_END.drop k).take m) = false ∨
      occurs TY ((MATH_END.drop k).take m) = true) := by
  intro k h1 h2
  interval_cases k
  · exact ⟨5, by decide, by decide, Or.inr (by decide)⟩
  · exact ⟨5, by decide, by decide, Or.inl (by decide)⟩
  · exact ⟨4, by decide, by decide, Or.inl (by decide)⟩
  · exact ⟨3, by decide, by decide, Or.inl (by decide)⟩
  · exact ⟨2, by decide, by decide, Or.inl (by decide)⟩

theorem heBad : ∀ k, 1 ≤ k → k ≤ 5 → ∃ m, 1 ≤ m ∧ m + k ≤ 11 ∧
    (uEscGo none ((HEADING_END.drop k).take m) = false ∨
      occurs TY ((HEADING_END.drop k).take m) = true) := by
  intro k h1 h2
  interval_cases k
  · exact ⟨5, by decide, by decide, Or.inr (by decide)⟩
  · exact ⟨5, by decide, by decide, Or.inl (by decide)⟩
  · exact ⟨4, by decide, by decide, Or.inl (by decide)⟩
  · exact ⟨3, by decide, by decide, Or.inl (by decide)⟩
  · exact ⟨2, by decide, by decide, Or.inl (by decide)⟩

theorem markerAbs_MS (n : Nat) (atoms : List Atom) (hwf : wfList n atoms)
    (htx : textOnly atoms) : occurs MATH_START (renderAtoms atoms) = false :=
  occurs_eq_false_of_noPref
    (noPrefTextMarker MATH_START 8 10 (by decide) (by decide) (by decide)
      msHeads msBad n atoms hwf htx) (by decide)

theorem markerAbs_HS (n : Nat) (atoms : List Atom) (hwf : wfList n atoms)
    (htx : textOnly atoms) : occurs HEADING_START (renderAtoms atoms) = false :=
  occurs_eq_false_of_noPref
    (noPrefTextMarker HEADING_START 8 9 (by decide) (by decide) (by decide)
      hsHeads hsBad n atoms hwf htx) (by decide)

theorem markerAbs_ME (n : Nat) (atoms : List Atom) (hwf : wfList n atoms)
    (htx : textOnly atoms) : occurs MATH_END (renderAtoms atoms) = false :=
  occurs_eq_false_of_noPref
    (noPrefTextMarker MATH_END 6 10 (by decide) (by decide) (by decide)
      meHeads meBad n atoms hwf htx) (by decide)

theorem markerAbs_HE (n : Nat) (atoms : List Atom) (hwf : wfList n atoms)
    (htx : textOnly atoms) : occurs HEADING_END (renderAtoms atoms) = false :=
  occurs_eq_false_of_noPref
    (noPrefTextMarker HEADING_END 6 10 (by decide) (by decide) (by decide)
      heHeads heBad n atoms hwf htx) (by decide)

theorem markerAbs_eMS (n : Nat) (atoms : List Atom) (hwf : wfList n atoms)
    (htx : textOnly atoms) : occurs eMS (renderAtoms atoms) = false :=
  occurs_eq_false_of_noPref
    (noPrefEscMarker eMS (lit "_\\_\\_TYPST\\_MATH\\_") (by decide) 11 10
      (by decide) (by decide) (by decide) eMSDrop_head (by decide) (by decide)
      n atoms hwf htx) (by decide)

theorem markerAbs_eME (n : Nat) (atoms : List Atom) (hwf : wfList n atoms)
    (htx : textOnly atoms) : occurs eME (renderAtoms atoms) = false :=
  occurs_eq_false_of_noPref
    (noPrefEscMarker eME (lit "_TYPST\\_MATH\\_\\_\\_") (by decide) 7 10
      (by decide) (by decide) (by decide) emeHeads (by decide) (by decide)
      n atoms hwf htx) (by decide)

theorem markerAbs_eHS (n : Nat) (atoms : List Atom) (hwf : wfList n atoms)
    (htx : textOnly atoms) : occurs escapedHS (renderAtoms atoms) = false :=
  occurs_eq_false_of_noPref
    (noPrefEscMarker escapedHS (lit "_\\_\\_TYPST\\_H") (by decide) 11 10
      (by decide) (by decide) (by decide)
      (fun k hk1 hk2 => escDrop_head k hk1 (by omega)) (by decide) (by decide)
      n atoms hwf htx) (by decide)

theorem markerAbs_eHE (n : Nat) (atoms : List Atom) (hwf : wfList n atoms)
    (htx : textOnly atoms) : occurs escapedHE (renderAtoms atoms) = false :=
  occurs_eq_false_of_noPref
    (noPrefEscMarker escapedHE (lit "_TYPST\\_HEADING\\_\\_\\_") (by decide) 7 10
      (by decide) (by decide) (by decide) eheHeads (by decide) (by decide)
      n atoms hwf htx) (by decide)

/-- A pending partial marker match never completes across the output of
the scanner when every emitted replacement consists of characters foreign
to the marker. -/
theorem prefRewriteGo {finder : Str → Option (Str × Str)} {M : Str}
    (hrc : ∀ s r rest, finder s = some (r, rest) →
      r ≠ [] ∧ ∀ c ∈ r, ¬ c ∈ M) :
    ∀ (f : Nat) (t M2 : Str), M2 ≠ [] → (∀ c ∈ M2, c ∈ M) →
      M2.isPrefixOf t = false →
      M2.isPrefixOf (rewriteGo finder f t) = false := by
  intro f
  induction f with
  | zero => intro t M2 _ _ h; exact h
  | succ f ih =>
    intro t M2 hne hsub h
    cases t with
    | nil =>
      cases M2 with
      | nil => exact absurd rfl hne
      | cons x xs => rfl
    | cons c t2 =>
      cases hfind : finder (c :: t2) with
      | some pr =>
        obtain ⟨r, rest⟩ := pr
        simp only [rewriteGo, hfind]
        obtain ⟨hrne, hrc2⟩ := hrc _ _ _ hfind
        cases M2 with
        | nil => exact absurd rfl hne
        | cons m ms =>
          obtain ⟨rc, rt, hr2⟩ : ∃ rc rt, r = rc :: rt := by
            cases r with
            | nil => exact absurd rfl hrne
            | cons a b => exact ⟨a, b, rfl⟩
          rw [hr2, List.cons_append]
          refine isPrefixOf_cons_false _ _ ?_
          intro hmeq
          exact hrc2 rc (by rw [hr2]; exact List.mem_cons_self rc rt)
            (hmeq ▸ hsub m (List.mem_cons_self m ms))
      | none =>
        simp only [rewriteGo, hfind]
        cases M2 with
        | nil => exact absurd rfl hne
        | cons m ms =>
          rw [isPrefixOf_cons_eq]
          by_cases hmc : m = c
          · have h3 : ((m :: ms) : Str).isPrefixOf (c :: t2) = false := h
            rw [isPrefixOf_cons_eq, hmc] at h3
            simp only [beq_self_eq_true, Bool.true_and] at h3
            have hmsne : ms ≠ [] := by
              intro hh
              rw [hh] at h3
              have h4 : ([] : Str).isPrefixOf t2 = true := by
                cases t2 <;> rfl
              rw [h4] at h3
              exact Bool.noConfusion h3
            have hpre := ih t2 ms hmsne
              (fun x hx => hsub x (List.mem_cons_of_mem m hx)) h3
            simp [hmc, hpre]
          · have hbc : (m == c) = false := by
              cases hb : m == c with
              | false => rfl
              | true => exact absurd (by simpa using hb) hmc
            rw [hbc, Bool.false_and]

/-- The scanner creates no marker occurrence when its replacements use
only characters foreign to the marker and it continues on suffixes of its
input. -/
theorem occursRewriteGo {finder : Str → Option (Str × Str)} {M : Str}
    (hM : M ≠ [])
    (hrc : ∀ s r rest, finder s = some (r, rest) →
      r ≠ [] ∧ ∀ c ∈ r, ¬ c ∈ M)
    (hrest : ∀ s r rest, finder s = some (r, rest) → rest <:+ s) :
    ∀ (f : Nat) (s : Str), occurs M s = false →
      occurs M (rewriteGo finder f s) = false := by
  intro f
  induction f with
  | zero => intro s h; exact h
  | succ f ih =>
    intro s h
    cases s with
    | nil => exact h
    | cons c t2 =>
      cases hfind : finder (c :: t2) with
      | some pr =>
        obtain ⟨r, rest⟩ := pr
        simp only [rewriteGo, hfind]
        have hrest2 : rest <:+ c :: t2 := hrest _ _ _ hfind
        have hro : occurs M rest = false := by
          cases ho : occurs M rest with
          | false => rfl
          | true => rw [occurs_of_isSuffix ho hrest2] at h; cases h
        have hout := ih rest hro
        obtain ⟨hrne, hrc2⟩ := hrc _ _ _ hfind
        refine occurs_eq_false_of_noPref (fun s' hs' hsne => ?_) hM
        rcases suffix_append_split hs' with ⟨r', hr', hrne', heq⟩ | hs2
        · subst heq
          cases M with
          | nil => exact absurd rfl hM
          | cons m ms =>
            obtain ⟨rc, rt, hr2⟩ : ∃ rc rt, r' = rc :: rt := by
              cases r' with
              | nil => exact absurd rfl hrne'
              | cons a b => exact ⟨a, b, rfl⟩
            rw [hr2, List.cons_append]
            refine isPrefixOf_cons_false _ _ ?_
            intro hmeq
            exact hrc2 rc (hr'.subset (by rw [hr2]; exact List.mem_cons_self rc rt))
              (hmeq ▸ List.mem_cons_self m ms)
        · exact noPref_of_occurs hM hout s' hs2 hsne
      | none =>
        simp only [rewriteGo, hfind]
        have h2 : M.isPrefixOf (c :: t2) = false ∧ occurs M t2 = false := by
          have h3 : (M.isPrefixOf (c :: t2) || occurs M t2) = false := h
          simpa using h3
        show (M.isPrefixOf (c :: rewriteGo finder f t2) ||
          occurs M (rewriteGo finder f t2)) = false
        rw [ih t2 h2.2, Bool.or_false]
        cases M with
        | nil => exact absurd rfl hM
        | cons m ms =>
          rw [isPrefixOf_cons_eq]
          by_cases hmc : m = c
          · have h3 := h2.1
            rw [isPrefixOf_cons_eq, hmc] at h3
            simp only [beq_self_eq_true, Bool.true_and] at h3
            have hmsne : ms ≠ [] := by
              intro hh
              rw [hh] at h3
              have h4 : ([] : Str).isPrefixOf t2 = true := by
                cases t2 <;> rfl
              rw [h4] at h3
              exact Bool.noConfusion h3
            have hpre := prefRewriteGo hrc f t2 ms hmsne
              (fun x hx => List.mem_cons_of_mem m hx) h3
            simp [hmc, hpre]
          · have hbc : (m == c) = false := by
              cases hb : m == c with
              | false => rfl
              | true => exact absurd (by simpa using hb) hmc
            rw [hbc, Bool.false_and]

theorem occurs_rewrite_false {finder : Str → Option (Str × Str)} {M : Str}
    (hM : M ≠ [])
    (hrc : ∀ s r rest, finder s = some (r, rest) →
      r ≠ [] ∧ ∀ c ∈ r, ¬ c ∈ M)
    (hrest : ∀ s r rest, finder s = some (r, rest) → rest <:+ s)
    (s : Str) (h : occurs M s = false) :
    occurs M (rewrite finder s) = false :=
  occursRewriteGo hM hrc hrest (s.length + 1) s h

theorem collapseRunsFinder_some {ch : Char} {minRun : Nat} {rep s r rest : Str}
    (h : collapseRunsFinder ch minRun rep s = some (r, rest)) :
    r = rep ∧ rest <:+ s := by
  cases s with
  | nil => cases h
  | cons c t =>
    have h2 : (if c = ch then
        (if minRun ≤ ((c :: t).takeWhile (fun x => x = ch)).length
         then some (rep,
           List.drop ((c :: t).takeWhile (fun x => x = ch)).length (c :: t))
         else none)
      else none) = some (r, rest) := h
    by_cases hc : c = ch
    · rw [if_pos hc] at h2
      by_cases hrun : minRun ≤ ((c :: t).takeWhile (fun x => x = ch)).length
      · rw [if_pos hrun] at h2
        injection h2 with h3
        injection h3 with h4 h5
        exact ⟨h4.symm, h5 ▸ List.drop_suffix _ _⟩
      · rw [if_neg hrun] at h2
        cases h2
    · rw [if_neg hc] at h2
      cases h2

/-- `trim` yields an infix of its argument. -/
theorem trim_isInfix (s : Str) : trim s <:+: s := by
  have h1 : s.dropWhile isWs <:+ s := List.dropWhile_suffix isWs
  have hv : (s.dropWhile isWs).reverse.dropWhile isWs <:+
      (s.dropWhile isWs).reverse := List.dropWhile_suffix isWs
  rw [← List.reverse_reverse ((s.dropWhile isWs).reverse.dropWhile isWs)] at hv
  have h3 : ((s.dropWhile isWs).reverse.dropWhile isWs).reverse <+:
      s.dropWhile isWs := List.reverse_suffix.mp hv
  exact h3.isInfix.trans h1.isInfix

theorem splitNl_isInfix :
    ∀ s : Str, ((splitNl s).1 <+: s) ∧ (∀ l ∈ (splitNl s).2, l <:+: s) := by
  intro s
  induction s with
  | nil => exact ⟨List.prefix_refl _, fun l hl => absurd hl (List.not_mem_nil l)⟩
  | cons c t ih =>
    by_cases hc : c = '\n'
    · have he : splitNl (c :: t) = ([], (splitNl t).1 :: (splitNl t).2) := by
        show (if c = '\n' then (([] : Str), (splitNl t).1 :: (splitNl t).2)
          else (c :: (splitNl t).1, (splitNl t).2)) = _
        rw [if_pos hc]
      rw [he]
      refine ⟨⟨c :: t, rfl⟩, fun l hl => ?_⟩
      rcases List.mem_cons.mp hl with rfl | h2
      · exact (ih.1.isInfix).trans (List.infix_cons (List.infix_refl t))
      · exact (ih.2 l h2).trans (List.infix_cons (List.infix_refl t))
    · have he : splitNl (c :: t) = (c :: (splitNl t).1, (splitNl t).2) := by
        show (if c = '\n' then (([] : Str), (splitNl t).1 :: (splitNl t).2)
          else (c :: (splitNl t).1, (splitNl t).2)) = _
        rw [if_neg hc]
      rw [he]
      refine ⟨List.cons_prefix_cons.mpr ⟨rfl, ih.1⟩, fun l hl => ?_⟩
      exact (ih.2 l hl).trans (List.infix_cons (List.infix_refl t))

theorem rustLines_isInfix (s : Str) : ∀ l ∈ rustLines s, l <:+: s := by
  intro l hl
  unfold rustLines at hl
  obtain ⟨l0, hl0, hfl⟩ := List.mem_map.mp hl
  have hl0mem : l0 ∈ (splitNl s).1 :: (splitNl s).2 := by
    by_cases hlast : ((splitNl s).1 :: (splitNl s).2).getLast? = some ([] : Str)
    · rw [if_pos hlast] at hl0
      exact (List.dropLast_prefix _).subset hl0
    · rw [if_neg hlast] at hl0
      exact hl0
  have hl0inf : l0 <:+: s := by
    rcases List.mem_cons.mp hl0mem with rfl | h2
    · exact (splitNl_isInfix s).1.isInfix
    · exact (splitNl_isInfix s).2 l0 h2
  rw [← hfl]
  by_cases hr : l0.getLast? = some '\r'
  · rw [if_pos hr]
    exact (List.dropLast_prefix l0).isInfix.trans hl0inf
  · rw [if_neg hr]
    exact hl0inf

/-- Joining marker-free lines with newlines creates no marker occurrence
when the marker carries no newline. -/
theorem occurs_joinNl_false {M : Str} (hM : M ≠ []) (hnl : ¬ '\n' ∈ M) :
    ∀ ls : List Str, (∀ l ∈ ls, occurs M l = false) →
      occurs M (joinNl ls) = false := by
  intro ls
  induction ls with
  | nil =>
    intro _
    show decide (M = []) = false
    simp [hM]
  | cons l ls2 ih =>
    intro hall
    cases ls2 with
    | nil =>
      show occurs M (l ++ []) = false
      rw [List.append_nil]
      exact hall l (List.mem_cons_self l [])
    | cons l2 ls3 =>
      have hj : joinNl (l :: l2 :: ls3) = l ++ '\n' :: joinNl (l2 :: ls3) := by
        show (List.intersperse (lit "\n") (l :: l2 :: ls3)).flatten = _
        rw [List.intersperse_cons_cons]
        show l ++ (lit "\n" ++ (List.intersperse (lit "\n") (l2 :: ls3)).flatten) = _
        rfl
      rw [hj]
      have hrest : occurs M ('\n' :: joinNl (l2 :: ls3)) = false := by
        have hin : occurs M (joinNl (l2 :: ls3)) = false :=
          ih (fun x hx => hall x (List.mem_cons_of_mem l hx))
        show (M.isPrefixOf ('\n' :: joinNl (l2 :: ls3)) ||
          occurs M (joinNl (l2 :: ls3))) = false
        rw [hin, Bool.or_false]
        cases M with
        | nil => exact absurd rfl hM
        | cons m ms =>
          refine isPrefixOf_cons_false _ _ ?_
          intro hmeq
          exact hnl (hmeq ▸ List.mem_cons_self m ms)
      refine occurs_eq_false_of_noPref (fun s' hs' hsne => ?_) hM
      rcases suffix_append_split hs' with ⟨l', hl', hlne', heq⟩ | hs2
      · subst heq
        cases h : M.isPrefixOf (l' ++ '\n' :: joinNl (l2 :: ls3)) with
        | false => rfl
        | true =>
          exfalso
          rcases isPrefixOf_append_split h with ⟨hlen2, hfit⟩ | ⟨hlt, htake, hcont⟩
          · have h2 : occurs M l = true :=
              occurs_of_isSuffix (occurs_of_self_isPrefixOf hfit hM) hl'
            rw [hall l (List.mem_cons_self l _)] at h2
            cases h2
          · obtain ⟨mc, mt, hmd⟩ : ∃ mc mt, M.drop l'.length = mc :: mt := by
              cases hmd0 : M.drop l'.length with
              | nil =>
                have h2 := congrArg List.length hmd0
                simp only [List.length_drop, List.length_nil] at h2
                omega
              | cons a b => exact ⟨a, b, rfl⟩
            rw [hmd] at hcont
            rw [isPrefixOf_cons_eq] at hcont
            rw [Bool.and_eq_true] at hcont
            have hmc : mc = '\n' := by simpa using hcont.1
            have hmem : mc ∈ M := by
              have : mc ∈ M.drop l'.length := by
                rw [hmd]
                exact List.mem_cons_self mc mt
              exact (List.drop_suffix _ _).subset this
            rw [hmc] at hmem
            exact hnl hmem
      · exact noPref_of_occurs hM hrest s' hs2 hsne

/-- `clean_whitespace` preserves the absence of a marker that carries no
space and no newline. -/
theorem occurs_clean_whitespace_false {M : Str} (hM : M ≠ [])
    (hsp : ¬ ' ' ∈ M) (hnl : ¬ '\n' ∈ M) (s : Str)
    (h : occurs M s = false) : occurs M (clean_whitespace s) = false := by
  have h1 : occurs M (rewrite (collapseRunsFinder ' ' 2 (lit " ")) s) = false := by
    refine occurs_rewrite_false hM (fun u r rest hf => ?_)
      (fun u r rest hf => (collapseRunsFinder_some hf).2) s h
    obtain ⟨hr, -⟩ := collapseRunsFinder_some hf
    subst hr
    refine ⟨by decide, fun c hc => ?_⟩
    have : c = ' ' := by
      rcases List.mem_cons.mp hc with h2 | h2
      · exact h2
      · exact absurd h2 (List.not_mem_nil c)
    rw [this]
    exact hsp
  have h2 : occurs M (rewrite (collapseRunsFinder '\n' 3 (lit "\n\n"))
      (rewrite (collapseRunsFinder ' ' 2 (lit " ")) s)) = false := by
    refine occurs_rewrite_false hM (fun u r rest hf => ?_)
      (fun u r rest hf => (collapseRunsFinder_some hf).2) _ h1
    obtain ⟨hr, -⟩ := collapseRunsFinder_some hf
    subst hr
    refine ⟨by decide, fun c hc => ?_⟩
    have : c = '\n' := by
      rcases List.mem_cons.mp hc with h2 | h2
      · exact h2
      · rcases List.mem_cons.mp h2 with h3 | h3
        · exact h3
        · exact absurd h3 (List.not_mem_nil c)
    rw [this]
    exact hnl
  show occurs M (trim (joinNl ((rustLines _).map trim))) = false
  refine not_occurs_of_isInfix (trim_isInfix _) ?_
  refine occurs_joinNl_false hM hnl _ ?_
  intro l hl
  obtain ⟨l0, hl0, hfl⟩ := List.mem_map.mp hl
  rw [← hfl]
  refine not_occurs_of_isInfix (trim_isInfix l0) ?_
  exact not_occurs_of_isInfix (rustLines_isInfix _ l0 hl0) h2

/--
Claim C1 — amended restoration correctness.  The literal claim fails (see
the counterexample: literal sentinel text in the input survives
`html_to_typst` untouched), so the guarantee is restated over the inputs
the placeholder scheme is designed for: whenever the post-escape
intermediate string renders from a well-formed placeholder-atom structure
(ordinary escaped text chunks that are sentinel-free with every
underscore escaped, restored chunks delimited as the earlier passes emit
them, and one placeholder atom per extracted block index, heading levels
1–4 with newline-, backslash- and sentinel-free trimmed content), and
every extracted math block translates to sentinel-free Typst, then the
output of `html_to_typst` contains no occurrence of any placeholder
marker: `MATH_START`, `MATH_END`, `HEADING_START` (hence every
`___TYPST_H<level>`), `HEADING_END`, in the raw as well as the
underscore-escaped spelling.
-/
theorem c1_markers_restored (html : Str) (blocks : List (Bool × Str))
    (atoms : List Atom)
    (hex : (extract_math (decodeEntities html)).2 = blocks)
    (hesc : escape_typst_content (strip_html_tags (convert_lists
      (extract_headings (extract_math (decodeEntities html)).1))) =
      renderAtoms atoms)
    (hwf : wfList blocks.length atoms)
    (hb : ∀ p ∈ blocks, occurs TY (latex_to_typst_math p.2) = false) :
    occurs MATH_START (html_to_typst html) = false ∧
    occurs MATH_END (html_to_typst html) = false ∧
    occurs HEADING_START (html_to_typst html) = false ∧
    occurs HEADING_END (html_to_typst html) = false ∧
    occurs eMS (html_to_typst html) = false ∧
    occurs eME (html_to_typst html) = false ∧
    occurs escapedHS (html_to_typst html) = false ∧
    occurs escapedHE (html_to_typst html) = false := by
  have hpipe : html_to_typst html =
      clean_whitespace (restore_math (restore_headings (renderAtoms atoms))
        blocks) := by
    show clean_whitespace (restore_math (restore_headings
      (escape_typst_content (strip_html_tags (convert_lists
        (extract_headings (extract_math (decodeEntities html)).1)))))
      (extract_math (decodeEntities html)).2) = _
    rw [hesc, hex]
  have hwfH := wf_mapHeads blocks.length atoms hwf
  have hnhH := noHead_mapHeads blocks.length atoms hwf
  have hbe : ∀ p ∈ blocks.enum, occurs TY (latex_to_typst_math p.2.2) = false :=
    fun p hp => hb p.2 (snd_mem_of_mem_enumFrom blocks 0 p hp)
  have h2 : restore_math (renderAtoms (mapHeads atoms)) blocks =
      renderAtoms (foldMath blocks.enum (mapHeads atoms)) :=
    restore_math_fold blocks.length blocks.enum (mapHeads atoms) hwfH hnhH hbe
  have hwfF : wfList blocks.length (foldMath blocks.enum (mapHeads atoms)) :=
    wf_foldMath blocks.length blocks.enum (mapHeads atoms) hwfH hbe
  have hnhF : ∀ a ∈ foldMath blocks.enum (mapHeads atoms), isHead a = false :=
    noHead_foldMath blocks.enum (mapHeads atoms) hnhH
  have hnmF : ∀ j, ¬ Atom.math j ∈ foldMath blocks.enum (mapHeads atoms) := by
    intro j hj
    obtain ⟨hmem, hall⟩ := math_mem_foldMath blocks.enum (mapHeads atoms) j hj
    have hjlt : j < blocks.length := hwfH.1 _ hmem
    obtain ⟨b, hbm⟩ := exists_mem_enum blocks j hjlt
    exact hall (j, b) hbm rfl
  have htxF : textOnly (foldMath blocks.enum (mapHeads atoms)) :=
    textOnly_of _ hnhF hnmF
  rw [hpipe, restore_headings_atoms blocks.length atoms hwf, h2]
  refine ⟨?_, ?_, ?_, ?_, ?_, ?_, ?_, ?_⟩
  · exact occurs_clean_whitespace_false (by decide) (by decide) (by decide) _
      (markerAbs_MS blocks.length _ hwfF htxF)
  · exact occurs_clean_whitespace_false (by decide) (by decide) (by decide) _
      (markerAbs_ME blocks.length _ hwfF htxF)
  · exact occurs_clean_whitespace_false (by decide) (by decide) (by decide) _
      (markerAbs_HS blocks.length _ hwfF htxF)
  · exact occurs_clean_whitespace_false (by decide) (by decide) (by decide) _
      (markerAbs_HE blocks.length _ hwfF htxF)
  · exact occurs_clean_whitespace_false (by decide) (by decide) (by decide) _
      (markerAbs_eMS blocks.length _ hwfF htxF)
  · exact occurs_clean_whitespace_false (by decide) (by decide) (by decide) _
      (markerAbs_eME blocks.length _ hwfF htxF)
  · exact occurs_clean_whitespace_false (by decide) (by decide) (by decide) _
      (markerAbs_eHS blocks.length _ hwfF htxF)
  · exact occurs_clean_whitespace_false (by decide) (by decide) (by decide) _
      (markerAbs_eHE blocks.length _ hwfF htxF)

theorem c1_markers_restored_witness :
    occurs MATH_START
      (html_to_typst (lit "<h1>Intro</h1><p>a_b and $x+y$</p>")) = false ∧
    occurs MATH_END
      (html_to_typst (lit "<h1>Intro</h1><p>a_b and $x+y$</p>")) = false ∧
    occurs HEADING_START
      (html_to_typst (lit "<h1>Intro</h1><p>a_b and $x+y$</p>")) = false ∧
    occurs HEADING_END
      (html_to_typst (lit "<h1>Intro</h1><p>a_b and $x+y$</p>")) = false ∧
    occurs eMS
      (html_to_typst (lit "<h1>Intro</h1><p>a_b and $x+y$</p>")) = false ∧
    occurs eME
      (html_to_typst (lit "<h1>Intro</h1><p>a_b and $x+y$</p>")) = false ∧
    occurs escapedHS
      (html_to_typst (lit "<h1>Intro</h1><p>a_b and $x+y$</p>")) = false ∧
    occurs escapedHE
      (html_to_typst (lit "<h1>Intro</h1><p>a_b and $x+y$</p>")) = false := by
  have hwf : wfList (([(false, lit "x+y")] : List (Bool × Str)).length)
      [Atom.otext (lit "\n\n"), Atom.head 1 (lit "Intro"),
       Atom.otext (lit "\n\n\na\\_b and "), Atom.math 0,
       Atom.otext (lit "\n\n")] := by
    refine ⟨?_, by decide⟩
    intro a ha
    fin_cases ha
    · exact ⟨by decide, by decide, by decide⟩
    · exact ⟨by decide, by decide, by decide, by decide, by decide, by decide⟩
    · exact ⟨by decide, by decide, by decide⟩
    · exact Nat.zero_lt_one
    · exact ⟨by decide, by decide, by decide⟩
  exact c1_markers_restored (lit "<h1>Intro</h1><p>a_b and $x+y$</p>")
    [(false, lit "x+y")]
    [Atom.otext (lit "\n\n"), Atom.head 1 (lit "Intro"),
     Atom.otext (lit "\n\n\na\\_b and "), Atom.math 0,
     Atom.otext (lit "\n\n")]
    (by decide) (by decide) hwf
    (by intro p hp; fin_cases hp; decide)

end MyLms
